import Mathlib

/-! SL_Rpc_Thrift_BinaryProtocol: a shallow embedding

The C++ class `SL_Rpc_Thrift_BinaryProtocol<TByteBuffer>` of
`include/SL_Rpc_Thrift_BinaryProtocol.h` is embedded as pure functions on an
explicit state record.

* machine integers are `Int` (signed) or `Nat` (unsigned) with the conversions
  between the fixed-width types written out as `toSigned` / `toUnsigned`;
  the type `int` of `read_buffer_len_` and of the length given to `setBuffer`
  is 32 bits wide, so a region can be bound whole only when its length is at
  most `INT_MAX = 2^31 - 1`;
* memory is a list of bytes; a multi-byte object is stored in the byte order
  of the host, which is a parameter of every operation that touches memory;
* the read pointer `read_buffer_` is an offset into the byte region the
  pointer was bound to, so that an access outside that region is observable;
* a C++ exception is an `Except.error`; the state and the reference
  parameters as they are when the exception is thrown are part of the result.
-/

namespace SLThrift

/-! ## Bytes, fixed-width integers and byte order -/

/-- One octet of memory or of the wire. -/
abbrev Byte := Fin 256

/-- The octet holding the low eight bits of a number. -/
def Byte.ofNat (n : Nat) : Byte := ⟨n % 256, Nat.mod_lt n (by decide)⟩

/-- Conversion of an integer to the unsigned type of `w` bits: reduction modulo `2^w`. -/
def toUnsigned (w : Nat) (v : Int) : Nat := (v % (2 : Int) ^ w).toNat

/-- Conversion of an unsigned bit pattern to the signed two's-complement type of `w` bits. -/
def toSigned (w : Nat) (u : Nat) : Int :=
  if u % 2 ^ w < 2 ^ (w - 1) then ((u % 2 ^ w : Nat) : Int)
  else ((u % 2 ^ w : Nat) : Int) - ((2 ^ w : Nat) : Int)

/-- The cast `(intN_t)v` of an integer value to the signed type of `w` bits. -/
def castSigned (w : Nat) (v : Int) : Int := toSigned w (toUnsigned w v)

/-- Byte order of the host the code is compiled for. -/
inductive ByteOrder where
  | LITTLE_ENDIAN
  | BIG_ENDIAN
  deriving DecidableEq, Repr

/-- The `n` bytes of an unsigned number, least significant first. -/
def leBytes : Nat → Nat → List Byte
  | 0, _ => []
  | n + 1, u => Byte.ofNat u :: leBytes n (u / 256)

/-- The `n` bytes of an unsigned number, most significant first. -/
def beBytes (n : Nat) (u : Nat) : List Byte := (leBytes n u).reverse

/-- The number whose bytes, least significant first, are given. -/
def leVal : List Byte → Nat
  | [] => 0
  | b :: bs => b.val + 256 * leVal bs

/-- The number whose bytes, most significant first, are given. -/
def beVal (bs : List Byte) : Nat := leVal bs.reverse

/-- Object representation: the bytes `(const char *)&x` points to, for an
`n`-byte integer object `x` holding the bit pattern `u`. -/
def objectBytes (host : ByteOrder) (n : Nat) (u : Nat) : List Byte :=
  match host with
  | .LITTLE_ENDIAN => leBytes n u
  | .BIG_ENDIAN => beBytes n u

/-- Value of an integer object read through a pointer to its bytes, `*(T *)b`. -/
def objectVal (host : ByteOrder) (bs : List Byte) : Nat :=
  match host with
  | .LITTLE_ENDIAN => leVal bs
  | .BIG_ENDIAN => beVal bs

/-- Reversal of the `n` bytes of a bit pattern (`bswap_16`, `bswap_32`, `bswap_64`). -/
def bswap (n : Nat) (u : Nat) : Nat := leVal (leBytes n u).reverse

/-- Host to network order, 16 bits. -/
def htons (host : ByteOrder) (u : Nat) : Nat :=
  match host with
  | .LITTLE_ENDIAN => bswap 2 u
  | .BIG_ENDIAN => u

/-- Host to network order, 32 bits. -/
def htonl (host : ByteOrder) (u : Nat) : Nat :=
  match host with
  | .LITTLE_ENDIAN => bswap 4 u
  | .BIG_ENDIAN => u

/-- Host to network order, 64 bits (the `htonll` of `protocol/TProtocol.h`). -/
def htonll (host : ByteOrder) (u : Nat) : Nat :=
  match host with
  | .LITTLE_ENDIAN => bswap 8 u
  | .BIG_ENDIAN => u

/-- Network to host order, 16 bits. -/
def ntohs (host : ByteOrder) (u : Nat) : Nat :=
  match host with
  | .LITTLE_ENDIAN => bswap 2 u
  | .BIG_ENDIAN => u

/-- Network to host order, 32 bits. -/
def ntohl (host : ByteOrder) (u : Nat) : Nat :=
  match host with
  | .LITTLE_ENDIAN => bswap 4 u
  | .BIG_ENDIAN => u

/-- Network to host order, 64 bits (the `ntohll` of `protocol/TProtocol.h`). -/
def ntohll (host : ByteOrder) (u : Nat) : Nat :=
  match host with
  | .LITTLE_ENDIAN => bswap 8 u
  | .BIG_ENDIAN => u

/-! ## Thrift types used by the class -/

/-- Wire type tag, `apache::thrift::protocol::TType`, as the integer value of the enumeration. -/
abbrev TType := Int

/-- The tag that ends a field sequence. -/
def T_STOP : TType := 0

/-- Message kind, `apache::thrift::protocol::TMessageType`, as the integer value of the enumeration. -/
abbrev TMessageType := Int

/-- Message kind CALL. -/
def T_CALL : TMessageType := 1

/-- Message kind REPLY. -/
def T_REPLY : TMessageType := 2

/-- Message kind EXCEPTION. -/
def T_EXCEPTION : TMessageType := 3

/-- Message kind ONEWAY. -/
def T_ONEWAY : TMessageType := 4

/-- Ways in which a read does not return. The first three are the
`TProtocolException` types the class throws; `OUT_OF_REGION` stands for a
dereference outside the byte region bound by `setBuffer`, which the C++
program does not define. -/
inductive Failure where
  | INVALID_DATA
  | NEGATIVE_SIZE
  | BAD_VERSION
  | OUT_OF_REGION
  deriving DecidableEq, Repr

/-- Bitwise and of two `int32_t` values. -/
def and32 (a b : Int) : Int := toSigned 32 (toUnsigned 32 a &&& toUnsigned 32 b)

/-- Bitwise or of two `int32_t` values. -/
def or32 (a b : Int) : Int := toSigned 32 (toUnsigned 32 a ||| toUnsigned 32 b)

/-- `static const int32_t VERSION_MASK = 0xffff0000;` -/
def VERSION_MASK : Int := toSigned 32 0xffff0000

/-- `static const int32_t VERSION_1 = 0x80010000;` -/
def VERSION_1 : Int := toSigned 32 0x80010000

/-- Value of an expression of type `uint32_t`. -/
def u32 (n : Nat) : Nat := n % 2 ^ 32

/-! ## State of a protocol object -/

/-- The data members of the class. `write_buffer_` is the content of the
sink the object points to; `read_region` is the memory `read_buffer_` was
bound into and `read_buffer_` the offset of the pointer from its start. -/
structure Protocol where
  write_buffer_ : List Byte
  read_region : List Byte
  read_buffer_ : Int
  read_buffer_len_ : Int
  deriving DecidableEq, Repr

/-- Modelled from the spec: `TByteBuffer::write` of `SL_ByteBuffer.h`, the
sink, which appends the given bytes and reports no result. -/
def TByteBuffer.write (buf : List Byte) (bytes : List Byte) : List Byte := buf ++ bytes

/-- The constructor: no sink content, no read region. -/
def Protocol.new : Protocol :=
  { write_buffer_ := [], read_region := [], read_buffer_ := 0, read_buffer_len_ := 0 }

/-- `setBuffer(read_buffer, read_buffer_len, write_buffer)`. -/
def setBuffer (_p : Protocol) (read_buffer : List Byte) (read_buffer_len : Int)
    (write_buffer : List Byte) : Protocol :=
  { write_buffer_ := write_buffer, read_region := read_buffer, read_buffer_ := 0,
    read_buffer_len_ := read_buffer_len }

/-! ## Writing functions

Each returns the state after the call and the returned `uint32_t`. -/

def writeBool (p : Protocol) (value : Bool) : Protocol × Nat :=
  let tmp : Nat := if value then 1 else 0
  ({ p with write_buffer_ := TByteBuffer.write p.write_buffer_ [Byte.ofNat tmp] }, 1)

def writeByte (p : Protocol) (byte : Int) : Protocol × Nat :=
  ({ p with write_buffer_ := TByteBuffer.write p.write_buffer_ [Byte.ofNat (toUnsigned 8 byte)] }, 1)

def writeI16 (host : ByteOrder) (p : Protocol) (i16 : Int) : Protocol × Nat :=
  let net : Int := toSigned 16 (htons host (toUnsigned 16 i16))
  ({ p with write_buffer_ :=
      TByteBuffer.write p.write_buffer_ (objectBytes host 2 (toUnsigned 16 net)) }, 2)

def writeI32 (host : ByteOrder) (p : Protocol) (i32 : Int) : Protocol × Nat :=
  let net : Int := toSigned 32 (htonl host (toUnsigned 32 i32))
  ({ p with write_buffer_ :=
      TByteBuffer.write p.write_buffer_ (objectBytes host 4 (toUnsigned 32 net)) }, 4)

def writeI64 (host : ByteOrder) (p : Protocol) (i64 : Int) : Protocol × Nat :=
  let net : Int := toSigned 64 (htonll host (toUnsigned 64 i64))
  ({ p with write_buffer_ :=
      TByteBuffer.write p.write_buffer_ (objectBytes host 8 (toUnsigned 64 net)) }, 8)

/-- A `double` is carried as its IEEE-754 bit pattern, the `uint64_t` that
`bitwise_cast<uint64_t>` gives. -/
def writeDouble (host : ByteOrder) (p : Protocol) (dub : Nat) : Protocol × Nat :=
  let bits : Nat := dub
  let bits := htonll host bits
  ({ p with write_buffer_ := TByteBuffer.write p.write_buffer_ (objectBytes host 8 bits) }, 8)

/-- A `std::string` is the list of its bytes. -/
def writeString (host : ByteOrder) (p : Protocol) (str : List Byte) : Protocol × Nat :=
  let size : Nat := u32 str.length
  let (p1, result) := writeI32 host p (toSigned 32 size)
  let p2 := if size > 0 then
      { p1 with write_buffer_ := TByteBuffer.write p1.write_buffer_ (str.take size) }
    else p1
  (p2, u32 (result + size))

def writeBinary (host : ByteOrder) (p : Protocol) (str : List Byte) : Protocol × Nat :=
  writeString host p str

def writeMessageBegin (host : ByteOrder) (p : Protocol) (name : List Byte)
    (messageType : TMessageType) (seqid : Int) : Protocol × Nat :=
  let version : Int := or32 VERSION_1 (castSigned 32 messageType)
  let (p1, wsize) := writeI32 host p version
  let (p2, n2) := writeString host p1 name
  let wsize := u32 (wsize + n2)
  let (p3, n3) := writeI32 host p2 seqid
  let wsize := u32 (wsize + n3)
  (p3, wsize)

def writeMessageEnd (p : Protocol) : Protocol × Nat := (p, 0)

def writeStructBegin (p : Protocol) (_name : List Byte) : Protocol × Nat := (p, 0)

def writeStructEnd (p : Protocol) : Protocol × Nat := (p, 0)

def writeFieldBegin (host : ByteOrder) (p : Protocol) (_name : List Byte) (fieldType : TType)
    (fieldId : Int) : Protocol × Nat :=
  let (p1, wsize) := writeByte p (castSigned 8 fieldType)
  let (p2, n2) := writeI16 host p1 fieldId
  let wsize := u32 (wsize + n2)
  (p2, wsize)

def writeFieldEnd (p : Protocol) : Protocol × Nat := (p, 0)

def writeFieldStop (p : Protocol) : Protocol × Nat :=
  writeByte p (castSigned 8 T_STOP)

def writeMapBegin (host : ByteOrder) (p : Protocol) (keyType valType : TType) (size : Nat) :
    Protocol × Nat :=
  let (p1, wsize) := writeByte p (castSigned 8 keyType)
  let (p2, n2) := writeByte p1 (castSigned 8 valType)
  let wsize := u32 (wsize + n2)
  let (p3, n3) := writeI32 host p2 (toSigned 32 size)
  let wsize := u32 (wsize + n3)
  (p3, wsize)

def writeMapEnd (p : Protocol) : Protocol × Nat := (p, 0)

def writeListBegin (host : ByteOrder) (p : Protocol) (elemType : TType) (size : Nat) :
    Protocol × Nat :=
  let (p1, wsize) := writeByte p (castSigned 8 elemType)
  let (p2, n2) := writeI32 host p1 (toSigned 32 size)
  let wsize := u32 (wsize + n2)
  (p2, wsize)

def writeListEnd (p : Protocol) : Protocol × Nat := (p, 0)

def writeSetBegin (host : ByteOrder) (p : Protocol) (elemType : TType) (size : Nat) :
    Protocol × Nat :=
  let (p1, wsize) := writeByte p (castSigned 8 elemType)
  let (p2, n2) := writeI32 host p1 (toSigned 32 size)
  let wsize := u32 (wsize + n2)
  (p2, wsize)

def writeSetEnd (p : Protocol) : Protocol × Nat := (p, 0)

/-! ## Reading functions

A reading function takes the state and the prior values of its reference
parameters. It gives back the returned `uint32_t` or the failure, the values
of the reference parameters after the call, and the state after the call. -/

/-- Outcome of a reading function. -/
structure Res (α : Type) where
  ret : Except Failure Nat
  out : α
  st : Protocol

/-- The `len` bytes at offset `b` of the bound region, none when some of them lie outside it. -/
def load (p : Protocol) (b : Int) (len : Nat) : Option (List Byte) :=
  if 0 ≤ b ∧ b.toNat + len ≤ p.read_region.length then
    some ((p.read_region.drop b.toNat).take len)
  else none

/-- The byte `*b` at offset `b` of the bound region, none when it lies outside it. -/
def peek (p : Protocol) (b : Int) : Option Byte :=
  if 0 ≤ b then p.read_region.get? b.toNat else none

/-- The checked access: returns the offset the pointer had, or throws. -/
def readBuffer (p : Protocol) (len : Int) : Except Failure Int × Protocol :=
  if p.read_buffer_len_ ≥ len then
    let ret := p.read_buffer_
    (.ok ret, { p with read_buffer_ := p.read_buffer_ + len,
                       read_buffer_len_ := p.read_buffer_len_ - len })
  else
    (.error .INVALID_DATA, p)

def readBool (p : Protocol) (value : Bool) : Res Bool :=
  match readBuffer p 1 with
  | (.error e, p1) => ⟨.error e, value, p1⟩
  | (.ok b, p1) =>
    match peek p1 b with
    | none => ⟨.error .OUT_OF_REGION, value, p1⟩
    | some c => ⟨.ok 1, decide (c.val ≠ 0), p1⟩

def readByte (p : Protocol) (byte : Int) : Res Int :=
  match readBuffer p 1 with
  | (.error e, p1) => ⟨.error e, byte, p1⟩
  | (.ok b, p1) =>
    match peek p1 b with
    | none => ⟨.error .OUT_OF_REGION, byte, p1⟩
    | some c => ⟨.ok 1, toSigned 8 c.val, p1⟩

def readI16 (host : ByteOrder) (p : Protocol) (i16 : Int) : Res Int :=
  match readBuffer p 2 with
  | (.error e, p1) => ⟨.error e, i16, p1⟩
  | (.ok b, p1) =>
    match load p1 b 2 with
    | none => ⟨.error .OUT_OF_REGION, i16, p1⟩
    | some bs =>
      let v : Int := toSigned 16 (objectVal host bs)
      ⟨.ok 2, toSigned 16 (ntohs host (toUnsigned 16 v)), p1⟩

def readI32 (host : ByteOrder) (p : Protocol) (i32 : Int) : Res Int :=
  match readBuffer p 4 with
  | (.error e, p1) => ⟨.error e, i32, p1⟩
  | (.ok b, p1) =>
    match load p1 b 4 with
    | none => ⟨.error .OUT_OF_REGION, i32, p1⟩
    | some bs =>
      let v : Int := toSigned 32 (objectVal host bs)
      ⟨.ok 4, toSigned 32 (ntohl host (toUnsigned 32 v)), p1⟩

def readI64 (host : ByteOrder) (p : Protocol) (i64 : Int) : Res Int :=
  match readBuffer p 8 with
  | (.error e, p1) => ⟨.error e, i64, p1⟩
  | (.ok b, p1) =>
    match load p1 b 8 with
    | none => ⟨.error .OUT_OF_REGION, i64, p1⟩
    | some bs =>
      let v : Int := toSigned 64 (objectVal host bs)
      ⟨.ok 8, toSigned 64 (ntohll host (toUnsigned 64 v)), p1⟩

/-- The `double` read is given as its IEEE-754 bit pattern. -/
def readDouble (host : ByteOrder) (p : Protocol) (dub : Nat) : Res Nat :=
  match readBuffer p 8 with
  | (.error e, p1) => ⟨.error e, dub, p1⟩
  | (.ok b, p1) =>
    match load p1 b 8 with
    | none => ⟨.error .OUT_OF_REGION, dub, p1⟩
    | some bs =>
      let bits : Nat := objectVal host bs
      let bits := ntohll host bits
      ⟨.ok 8, bits, p1⟩

def readStringBody (p : Protocol) (str : List Byte) (size : Int) : Res (List Byte) :=
  if size > 0 then
    match readBuffer p size with
    | (.error e, p1) => ⟨.error e, str, p1⟩
    | (.ok b, p1) =>
      match load p1 b size.toNat with
      | none => ⟨.error .OUT_OF_REGION, str, p1⟩
      | some bs => ⟨.ok (toUnsigned 32 size), bs, p1⟩
  else if size < 0 then
    ⟨.error .NEGATIVE_SIZE, str, p⟩
  else
    ⟨.ok 0, [], p⟩

def readString (host : ByteOrder) (p : Protocol) (str : List Byte) : Res (List Byte) :=
  let r1 := readI32 host p 0
  match r1.ret with
  | .error e => ⟨.error e, str, r1.st⟩
  | .ok result =>
    let size := r1.out
    let r2 := readStringBody r1.st str size
    match r2.ret with
    | .error e => ⟨.error e, r2.out, r2.st⟩
    | .ok n => ⟨.ok (u32 (result + n)), r2.out, r2.st⟩

def readBinary (host : ByteOrder) (p : Protocol) (str : List Byte) : Res (List Byte) :=
  readString host p str

def readMessageBegin (host : ByteOrder) (p : Protocol) (name : List Byte)
    (messageType : TMessageType) (seqid : Int) : Res (List Byte × TMessageType × Int) :=
  let r1 := readI32 host p 0
  match r1.ret with
  | .error e => ⟨.error e, (name, messageType, seqid), r1.st⟩
  | .ok result =>
    let sz := r1.out
    if sz ≥ 0 then
      let r2 := readStringBody r1.st name sz
      match r2.ret with
      | .error e => ⟨.error e, (r2.out, messageType, seqid), r2.st⟩
      | .ok n2 =>
        let result := u32 (result + n2)
        let r3 := readByte r2.st 0
        match r3.ret with
        | .error e => ⟨.error e, (r2.out, messageType, seqid), r3.st⟩
        | .ok n3 =>
          let result := u32 (result + n3)
          let type := r3.out
          let r4 := readI32 host r3.st seqid
          match r4.ret with
          | .error e => ⟨.error e, (r2.out, messageType, r4.out), r4.st⟩
          | .ok n4 =>
            let result := u32 (result + n4)
            ⟨.ok result, (r2.out, type, r4.out), r4.st⟩
    else
      let version := and32 sz VERSION_MASK
      if version ≠ VERSION_1 then
        ⟨.error .BAD_VERSION, (name, messageType, seqid), r1.st⟩
      else
        let messageType := and32 sz 0x000000ff
        let r2 := readString host r1.st name
        match r2.ret with
        | .error e => ⟨.error e, (r2.out, messageType, seqid), r2.st⟩
        | .ok n2 =>
          let result := u32 (result + n2)
          let r3 := readI32 host r2.st seqid
          match r3.ret with
          | .error e => ⟨.error e, (r2.out, messageType, r3.out), r3.st⟩
          | .ok n3 =>
            let result := u32 (result + n3)
            ⟨.ok result, (r2.out, messageType, r3.out), r3.st⟩

def readMessageEnd (p : Protocol) : Res Unit := ⟨.ok 0, (), p⟩

def readStructBegin (p : Protocol) (name : List Byte) : Res (List Byte) := ⟨.ok 0, name, p⟩

def readStructEnd (p : Protocol) : Res Unit := ⟨.ok 0, (), p⟩

def readFieldBegin (host : ByteOrder) (p : Protocol) (name : List Byte) (fieldType : TType)
    (fieldId : Int) : Res (List Byte × TType × Int) :=
  let r1 := readByte p 0
  match r1.ret with
  | .error e => ⟨.error e, (name, fieldType, fieldId), r1.st⟩
  | .ok result =>
    let type := r1.out
    let fieldType : TType := type
    if fieldType = T_STOP then
      ⟨.ok result, (name, fieldType, 0), r1.st⟩
    else
      let r2 := readI16 host r1.st fieldId
      match r2.ret with
      | .error e => ⟨.error e, (name, fieldType, r2.out), r2.st⟩
      | .ok n2 =>
        let result := u32 (result + n2)
        ⟨.ok result, (name, fieldType, r2.out), r2.st⟩

def readFieldEnd (p : Protocol) : Res Unit := ⟨.ok 0, (), p⟩

def readMapBegin (host : ByteOrder) (p : Protocol) (keyType valType : TType) (size : Nat) :
    Res (TType × TType × Nat) :=
  let r1 := readByte p 0
  match r1.ret with
  | .error e => ⟨.error e, (keyType, valType, size), r1.st⟩
  | .ok result =>
    let k := r1.out
    let keyType : TType := k
    let r2 := readByte r1.st 0
    match r2.ret with
    | .error e => ⟨.error e, (keyType, valType, size), r2.st⟩
    | .ok n2 =>
      let result := u32 (result + n2)
      let v := r2.out
      let valType : TType := v
      let r3 := readI32 host r2.st 0
      match r3.ret with
      | .error e => ⟨.error e, (keyType, valType, size), r3.st⟩
      | .ok n3 =>
        let result := u32 (result + n3)
        let sizei := r3.out
        if sizei ≥ 0 then
          ⟨.ok result, (keyType, valType, toUnsigned 32 sizei), r3.st⟩
        else
          ⟨.error .NEGATIVE_SIZE, (keyType, valType, size), r3.st⟩

def readMapEnd (p : Protocol) : Res Unit := ⟨.ok 0, (), p⟩

def readListBegin (host : ByteOrder) (p : Protocol) (elemType : TType) (size : Nat) :
    Res (TType × Nat) :=
  let r1 := readByte p 0
  match r1.ret with
  | .error e => ⟨.error e, (elemType, size), r1.st⟩
  | .ok result =>
    let e := r1.out
    let elemType : TType := e
    let r2 := readI32 host r1.st 0
    match r2.ret with
    | .error e => ⟨.error e, (elemType, size), r2.st⟩
    | .ok n2 =>
      let result := u32 (result + n2)
      let sizei := r2.out
      if sizei ≥ 0 then
        ⟨.ok result, (elemType, toUnsigned 32 sizei), r2.st⟩
      else
        ⟨.error .NEGATIVE_SIZE, (elemType, size), r2.st⟩

def readListEnd (p : Protocol) : Res Unit := ⟨.ok 0, (), p⟩

def readSetBegin (host : ByteOrder) (p : Protocol) (elemType : TType) (size : Nat) :
    Res (TType × Nat) :=
  let r1 := readByte p 0
  match r1.ret with
  | .error e => ⟨.error e, (elemType, size), r1.st⟩
  | .ok result =>
    let e := r1.out
    let elemType : TType := e
    let r2 := readI32 host r1.st 0
    match r2.ret with
    | .error e => ⟨.error e, (elemType, size), r2.st⟩
    | .ok n2 =>
      let result := u32 (result + n2)
      let sizei := r2.out
      if sizei ≥ 0 then
        ⟨.ok result, (elemType, toUnsigned 32 sizei), r2.st⟩
      else
        ⟨.error .NEGATIVE_SIZE, (elemType, size), r2.st⟩

def readSetEnd (p : Protocol) : Res Unit := ⟨.ok 0, (), p⟩

/-! ## Vocabulary of the statements -/

/-- Largest value of the type `int` of `read_buffer_len_` (32 bits). -/
def INT_MAX : Int := 2 ^ 31 - 1

/-- A protocol object whose sink is empty and whose read side is bound to
exactly the bytes `bs`: `setBuffer(bs, (int)bs.size(), sink)` on a new
object. The length goes through the conversion to `int`. -/
def boundTo (bs : List Byte) : Protocol :=
  setBuffer Protocol.new bs (castSigned 32 bs.length) []

/-- The bytes from the read pointer to the end of the bound region. -/
def rest (p : Protocol) : List Byte := p.read_region.drop p.read_buffer_.toNat

/-- The state with the read pointer moved `n` bytes on. -/
def advance (p : Protocol) (n : Int) : Protocol :=
  { p with read_buffer_ := p.read_buffer_ + n, read_buffer_len_ := p.read_buffer_len_ - n }

/-- The read pointer lies inside the bound region and `read_buffer_len_` is
the number of bytes from it to the end of the region. -/
def Bound (p : Protocol) : Prop :=
  0 ≤ p.read_buffer_ ∧ p.read_buffer_ ≤ p.read_region.length ∧
    p.read_buffer_len_ = p.read_region.length - p.read_buffer_

/-- The `k`-th byte, from 0, of the `w`-bit two's-complement representation
of `v`, most significant byte first. -/
def wireByte (w : Nat) (v : Int) (k : Nat) : Byte :=
  Byte.ofNat (((v % (2 : Int) ^ w).toNat >>> (w - 8 * (k + 1))) &&& 0xFF)

/-- The read returned the count `n`, gave the value `v`, and left no byte of the region unread. -/
def Res.yields {α : Type} (r : Res α) (n : Nat) (v : α) : Prop :=
  r.ret = .ok n ∧ r.out = v ∧ r.st.read_buffer_len_ = 0 ∧ rest r.st = []

/-- The two outcomes of a fixed-width read of `w` bytes, `r` being the result
of the read in state `p` with prior output `x`: it returns a count exactly
when `w` bytes or more are left; it then returns `w` and leaves the state
moved on by `w`; with fewer bytes left it throws INVALID_DATA, leaves the
state as it was and the output as it was. -/
def Underrun {α : Type} (p : Protocol) (w : Nat) (x : α) (r : Res α) : Prop :=
  ((∃ n, r.ret = .ok n) ↔ (w : Int) ≤ p.read_buffer_len_) ∧
  ((w : Int) ≤ p.read_buffer_len_ → r.ret = .ok w ∧ r.st = advance p w) ∧
  (p.read_buffer_len_ < (w : Int) → r.ret = .error .INVALID_DATA ∧ r.out = x ∧ r.st = p)

/-- The write side of the end-to-end scenario of the specification: the
calls `writeMessageBegin(name, kind, seqid)`, `writeFieldBegin(t, i)`,
`writeI32(x)`, `writeFieldEnd`, `writeFieldStop`, `writeMessageEnd` in this
order on one protocol object. Gives the final state and the sum of the
returned counts. -/
def writeScenario (host : ByteOrder) (p : Protocol) (name : List Byte) (kind : TMessageType)
    (seqid : Int) (t : TType) (i x : Int) : Protocol × Nat :=
  let (p1, n1) := writeMessageBegin host p name kind seqid
  let (p2, n2) := writeFieldBegin host p1 [] t i
  let (p3, n3) := writeI32 host p2 x
  let (p4, n4) := writeFieldEnd p3
  let (p5, n5) := writeFieldStop p4
  let (p6, n6) := writeMessageEnd p5
  (p6, n1 + n2 + n3 + n4 + n5 + n6)

/-- What the read side of the end-to-end scenario recovers. -/
structure Decoded where
  name : List Byte
  kind : TMessageType
  seqid : Int
  fieldType : TType
  fieldId : Int
  value : Int
  stopType : TType
  stopId : Int
  count : Nat
  st : Protocol

/-- The read side of the end-to-end scenario: the calls `readMessageBegin`,
`readFieldBegin`, `readI32`, `readFieldEnd`, `readFieldBegin`,
`readMessageEnd` in this order on one protocol object, the first exception
ending the sequence. The second `readFieldBegin` is given the variables the
first one assigned. `count` is the sum of the returned counts. -/
def readScenario (host : ByteOrder) (p : Protocol) : Except Failure Decoded :=
  let r1 := readMessageBegin host p [] 0 0
  match r1.ret with
  | .error e => .error e
  | .ok n1 =>
    let r2 := readFieldBegin host r1.st [] 0 0
    match r2.ret with
    | .error e => .error e
    | .ok n2 =>
      let r3 := readI32 host r2.st 0
      match r3.ret with
      | .error e => .error e
      | .ok n3 =>
        let r4 := readFieldEnd r3.st
        match r4.ret with
        | .error e => .error e
        | .ok n4 =>
          let r5 := readFieldBegin host r4.st r2.out.1 r2.out.2.1 r2.out.2.2
          match r5.ret with
          | .error e => .error e
          | .ok n5 =>
            let r6 := readMessageEnd r5.st
            match r6.ret with
            | .error e => .error e
            | .ok n6 =>
              .ok { name := r1.out.1, kind := r1.out.2.1, seqid := r1.out.2.2,
                    fieldType := r2.out.2.1, fieldId := r2.out.2.2, value := r3.out,
                    stopType := r5.out.2.1, stopId := r5.out.2.2,
                    count := n1 + n2 + n3 + n4 + n5 + n6, st := r6.st }

/-- A call of one of the public reading functions, with the values its
reference parameters hold before the call. -/
inductive ReadCall where
  | readMessageBegin (name : List Byte) (messageType : TMessageType) (seqid : Int)
  | readMessageEnd
  | readStructBegin (name : List Byte)
  | readStructEnd
  | readFieldBegin (name : List Byte) (fieldType : TType) (fieldId : Int)
  | readFieldEnd
  | readMapBegin (keyType valType : TType) (size : Nat)
  | readMapEnd
  | readListBegin (elemType : TType) (size : Nat)
  | readListEnd
  | readSetBegin (elemType : TType) (size : Nat)
  | readSetEnd
  | readBool (value : Bool)
  | readByte (byte : Int)
  | readI16 (i16 : Int)
  | readI32 (i32 : Int)
  | readI64 (i64 : Int)
  | readDouble (dub : Nat)
  | readString (str : List Byte)
  | readBinary (str : List Byte)

/-- What a call returns or throws, and the state it leaves. -/
def runRead (host : ByteOrder) (p : Protocol) : ReadCall → Except Failure Nat × Protocol
  | .readMessageBegin name messageType seqid =>
    ((readMessageBegin host p name messageType seqid).ret,
      (readMessageBegin host p name messageType seqid).st)
  | .readMessageEnd => ((readMessageEnd p).ret, (readMessageEnd p).st)
  | .readStructBegin name => ((readStructBegin p name).ret, (readStructBegin p name).st)
  | .readStructEnd => ((readStructEnd p).ret, (readStructEnd p).st)
  | .readFieldBegin name fieldType fieldId =>
    ((readFieldBegin host p name fieldType fieldId).ret,
      (readFieldBegin host p name fieldType fieldId).st)
  | .readFieldEnd => ((readFieldEnd p).ret, (readFieldEnd p).st)
  | .readMapBegin keyType valType size =>
    ((readMapBegin host p keyType valType size).ret,
      (readMapBegin host p keyType valType size).st)
  | .readMapEnd => ((readMapEnd p).ret, (readMapEnd p).st)
  | .readListBegin elemType size =>
    ((readListBegin host p elemType size).ret, (readListBegin host p elemType size).st)
  | .readListEnd => ((readListEnd p).ret, (readListEnd p).st)
  | .readSetBegin elemType size =>
    ((readSetBegin host p elemType size).ret, (readSetBegin host p elemType size).st)
  | .readSetEnd => ((readSetEnd p).ret, (readSetEnd p).st)
  | .readBool value => ((readBool p value).ret, (readBool p value).st)
  | .readByte byte => ((readByte p byte).ret, (readByte p byte).st)
  | .readI16 i16 => ((readI16 host p i16).ret, (readI16 host p i16).st)
  | .readI32 i32 => ((readI32 host p i32).ret, (readI32 host p i32).st)
  | .readI64 i64 => ((readI64 host p i64).ret, (readI64 host p i64).st)
  | .readDouble dub => ((readDouble host p dub).ret, (readDouble host p dub).st)
  | .readString str => ((readString host p str).ret, (readString host p str).st)
  | .readBinary str => ((readBinary host p str).ret, (readBinary host p str).st)

/-- The outcomes of a sequence of calls on one protocol object, in order:
what each call returned or threw and the state it left. The caller goes on
with the next call whether a call returned or threw. -/
def runReads (host : ByteOrder) : Protocol → List ReadCall → List (Except Failure Nat × Protocol)
  | _, [] => []
  | p, c :: cs => runRead host p c :: runReads host (runRead host p c).2 cs

/-- A call of one of the public writing functions. -/
inductive WriteCall where
  | writeMessageBegin (name : List Byte) (messageType : TMessageType) (seqid : Int)
  | writeMessageEnd
  | writeStructBegin (name : List Byte)
  | writeStructEnd
  | writeFieldBegin (name : List Byte) (fieldType : TType) (fieldId : Int)
  | writeFieldEnd
  | writeFieldStop
  | writeMapBegin (keyType valType : TType) (size : Nat)
  | writeMapEnd
  | writeListBegin (elemType : TType) (size : Nat)
  | writeListEnd
  | writeSetBegin (elemType : TType) (size : Nat)
  | writeSetEnd
  | writeBool (value : Bool)
  | writeByte (byte : Int)
  | writeI16 (i16 : Int)
  | writeI32 (i32 : Int)
  | writeI64 (i64 : Int)
  | writeDouble (dub : Nat)
  | writeString (str : List Byte)
  | writeBinary (str : List Byte)

/-- The state a writing call leaves and the count it returns. -/
def runWrite (host : ByteOrder) (p : Protocol) : WriteCall → Protocol × Nat
  | .writeMessageBegin name messageType seqid => writeMessageBegin host p name messageType seqid
  | .writeMessageEnd => writeMessageEnd p
  | .writeStructBegin name => writeStructBegin p name
  | .writeStructEnd => writeStructEnd p
  | .writeFieldBegin name fieldType fieldId => writeFieldBegin host p name fieldType fieldId
  | .writeFieldEnd => writeFieldEnd p
  | .writeFieldStop => writeFieldStop p
  | .writeMapBegin keyType valType size => writeMapBegin host p keyType valType size
  | .writeMapEnd => writeMapEnd p
  | .writeListBegin elemType size => writeListBegin host p elemType size
  | .writeListEnd => writeListEnd p
  | .writeSetBegin elemType size => writeSetBegin host p elemType size
  | .writeSetEnd => writeSetEnd p
  | .writeBool value => writeBool p value
  | .writeByte byte => writeByte p byte
  | .writeI16 i16 => writeI16 host p i16
  | .writeI32 i32 => writeI32 host p i32
  | .writeI64 i64 => writeI64 host p i64
  | .writeDouble dub => writeDouble host p dub
  | .writeString str => writeString host p str
  | .writeBinary str => writeBinary host p str

/-- The string a writing call carries is short enough for the returned
`uint32_t` not to wrap: the number of bytes to write is below `2^32`. -/
def WriteCall.fits : WriteCall → Prop
  | .writeMessageBegin name _ _ => 12 + name.length < 2 ^ 32
  | .writeString str => 4 + str.length < 2 ^ 32
  | .writeBinary str => 4 + str.length < 2 ^ 32
  | _ => True

/-- The state `q` is the state `p` with the read pointer moved on by some
`m ≥ 0` that the checked access let pass (`m ≤ read_buffer_len_`, or nothing
moved); sink and bound region are those of `p`. -/
def Adv (p q : Protocol) : Prop :=
  ∃ m : Int, 0 ≤ m ∧ (m = 0 ∨ m ≤ p.read_buffer_len_) ∧ q = advance p m

/-- What every reading function does to the cursor, `r` being its result in
state `p`: the state it leaves is `p` moved on; a returned count is the
distance moved; and from a state that satisfies the invariant no access
outside the region is made. -/
def Fine {α : Type} (p : Protocol) (r : Res α) : Prop :=
  Adv p r.st ∧ (∀ n : Nat, r.ret = .ok n → r.st = advance p n) ∧
    (Bound p → r.ret ≠ .error .OUT_OF_REGION)

/-! ## Facts about bytes and byte order -/

theorem length_leBytes (n u : Nat) : (leBytes n u).length = n := by
  induction n generalizing u with
  | zero => rfl
  | succ k ih => simp [leBytes, ih]

theorem length_beBytes (n u : Nat) : (beBytes n u).length = n := by
  simp [beBytes, length_leBytes]

theorem leVal_leBytes (n u : Nat) : leVal (leBytes n u) = u % 256 ^ n := by
  induction n generalizing u with
  | zero => simp [leBytes, leVal, Nat.mod_one]
  | succ k ih =>
    simp only [leBytes, leVal, ih, Byte.ofNat]
    rw [pow_succ, Nat.mul_comm (256 ^ k) 256, Nat.mod_mul]

theorem leBytes_leVal (bs : List Byte) : leBytes bs.length (leVal bs) = bs := by
  induction bs with
  | nil => rfl
  | cons b t ih =>
    have hb : b.val < 256 := b.isLt
    simp only [List.length_cons, leBytes, leVal]
    have h1 : (b.val + 256 * leVal t) / 256 = leVal t := by omega
    have h2 : Byte.ofNat (b.val + 256 * leVal t) = b := by
      apply Fin.ext
      simp only [Byte.ofNat]
      omega
    rw [h1, h2, ih]

theorem leVal_lt (bs : List Byte) : leVal bs < 256 ^ bs.length := by
  induction bs with
  | nil => simp [leVal]
  | cons b t ih =>
    have hb : b.val < 256 := b.isLt
    simp only [List.length_cons, leVal, pow_succ]
    omega

theorem leBytes_mod (n u : Nat) : leBytes n (u % 256 ^ n) = leBytes n u := by
  have h := leBytes_leVal (leBytes n u)
  rw [length_leBytes, leVal_leBytes] at h
  exact h

theorem beVal_beBytes (n u : Nat) : beVal (beBytes n u) = u % 256 ^ n := by
  simp [beVal, beBytes, leVal_leBytes]

theorem beBytes_beVal (bs : List Byte) : beBytes bs.length (beVal bs) = bs := by
  have h := leBytes_leVal bs.reverse
  rw [List.length_reverse] at h
  simp [beBytes, beVal, h]

theorem beVal_lt (bs : List Byte) : beVal bs < 256 ^ bs.length := by
  have h := leVal_lt bs.reverse
  rwa [List.length_reverse] at h

theorem beBytes_mod (n u : Nat) : beBytes n (u % 256 ^ n) = beBytes n u := by
  simp [beBytes, leBytes_mod]

/-- Swapping and then storing on a little-endian host gives the bytes most significant first. -/
theorem leBytes_bswap (n u : Nat) : leBytes n (bswap n u) = beBytes n u := by
  have h := leBytes_leVal (leBytes n u).reverse
  rw [List.length_reverse, length_leBytes] at h
  simpa [bswap, beBytes] using h

/-- Loading on a little-endian host and then swapping reads the bytes most significant first. -/
theorem bswap_leVal (bs : List Byte) : bswap bs.length (leVal bs) = beVal bs := by
  simp [bswap, beVal, leBytes_leVal]

theorem bswap_lt (n u : Nat) : bswap n u < 256 ^ n := by
  have h := leVal_lt (leBytes n u).reverse
  rwa [List.length_reverse, length_leBytes] at h

theorem objectBytes_mod (host : ByteOrder) (n u : Nat) :
    objectBytes host n (u % 256 ^ n) = objectBytes host n u := by
  cases host <;> simp [objectBytes, leBytes_mod, beBytes_mod]

theorem objectBytes_htons (host : ByteOrder) (u : Nat) :
    objectBytes host 2 (htons host u) = beBytes 2 u := by
  cases host <;> simp [objectBytes, htons, leBytes_bswap]

theorem objectBytes_htonl (host : ByteOrder) (u : Nat) :
    objectBytes host 4 (htonl host u) = beBytes 4 u := by
  cases host <;> simp [objectBytes, htonl, leBytes_bswap]

theorem objectBytes_htonll (host : ByteOrder) (u : Nat) :
    objectBytes host 8 (htonll host u) = beBytes 8 u := by
  cases host <;> simp [objectBytes, htonll, leBytes_bswap]

theorem objectVal_lt (host : ByteOrder) (bs : List Byte) :
    objectVal host bs < 256 ^ bs.length := by
  cases host
  · exact leVal_lt bs
  · exact beVal_lt bs

theorem ntoh_objectVal (host : ByteOrder) (bs : List Byte) :
    (match host with
      | .LITTLE_ENDIAN => bswap bs.length (objectVal host bs)
      | .BIG_ENDIAN => objectVal host bs) = beVal bs := by
  cases host
  · exact bswap_leVal bs
  · rfl

/-! ## Facts about the fixed-width conversions -/

theorem toUnsigned_lt (w : Nat) (v : Int) : toUnsigned w v < 2 ^ w := by
  unfold toUnsigned
  have hpos : (0 : Int) < (2 : Int) ^ w := by positivity
  have h1 := Int.emod_lt_of_pos v hpos
  have h0 := Int.emod_nonneg v (ne_of_gt hpos)
  have : ((v % (2 : Int) ^ w).toNat : Int) < ((2 ^ w : Nat) : Int) := by
    rw [Int.toNat_of_nonneg h0]; push_cast; exact h1
  exact_mod_cast this

theorem toUnsigned_toSigned (w u : Nat) : toUnsigned w (toSigned w u) = u % 2 ^ w := by
  unfold toUnsigned toSigned
  have hlt : u % 2 ^ w < 2 ^ w := Nat.mod_lt _ (by positivity)
  have hcast : ((2 : Int) ^ w) = ((2 ^ w : Nat) : Int) := by push_cast; rfl
  split
  · rw [hcast, ← Int.natCast_mod, Int.toNat_natCast, Nat.mod_eq_of_lt hlt]
  · rw [hcast, Int.sub_emod, Int.emod_self, sub_zero, Int.emod_emod_of_dvd _ (dvd_refl _),
      ← Int.natCast_mod, Int.toNat_natCast, Nat.mod_mod]

theorem toSigned_toUnsigned (w : Nat) (hw : 0 < w) (v : Int)
    (h1 : -(2 : Int) ^ (w - 1) ≤ v) (h2 : v < (2 : Int) ^ (w - 1)) :
    toSigned w (toUnsigned w v) = v := by
  obtain ⟨k, rfl⟩ : ∃ k, w = k + 1 := ⟨w - 1, by omega⟩
  simp only [Nat.add_sub_cancel] at h1 h2
  have hu := toUnsigned_lt (k + 1) v
  unfold toSigned
  rw [Nat.mod_eq_of_lt hu]
  simp only [Nat.add_sub_cancel]
  unfold toUnsigned at *
  have hp : (2 : Int) ^ (k + 1) = 2 * (2 : Int) ^ k := by ring
  have hpn : (2 : Nat) ^ (k + 1) = 2 * (2 : Nat) ^ k := by ring
  have hc : (((2 : Nat) ^ k : Nat) : Int) = (2 : Int) ^ k := by push_cast; rfl
  generalize hM : (2 : Int) ^ k = M at *
  generalize hN : (2 : Nat) ^ k = N at *
  rw [hp] at hu ⊢
  rw [hpn] at hu
  rw [hpn]
  by_cases hv : 0 ≤ v
  · have e : v % (2 * M) = v := Int.emod_eq_of_lt hv (by omega)
    rw [e] at hu ⊢
    have : (v.toNat : Int) = v := Int.toNat_of_nonneg hv
    split <;> omega
  · have e : v % (2 * M) = v + 2 * M := by
      rw [← Int.add_mul_emod_self_left v (2 * M) 1, mul_one]
      exact Int.emod_eq_of_lt (by omega) (by omega)
    rw [e] at hu ⊢
    have : ((v + 2 * M).toNat : Int) = v + 2 * M := Int.toNat_of_nonneg (by omega)
    split <;> omega

/-- What `readI16` computes from the two bytes it loads: their value most significant first. -/
theorem ntohs_objectVal (host : ByteOrder) (bs : List Byte) (h : bs.length = 2) :
    ntohs host (toUnsigned 16 (toSigned 16 (objectVal host bs))) = beVal bs := by
  have hlt := objectVal_lt host bs
  rw [h] at hlt
  rw [toUnsigned_toSigned, Nat.mod_eq_of_lt (lt_of_lt_of_le hlt (by norm_num))]
  have := ntoh_objectVal host bs
  rw [h] at this
  cases host <;> exact this

/-- What `readI32` computes from the four bytes it loads: their value most significant first. -/
theorem ntohl_objectVal (host : ByteOrder) (bs : List Byte) (h : bs.length = 4) :
    ntohl host (toUnsigned 32 (toSigned 32 (objectVal host bs))) = beVal bs := by
  have hlt := objectVal_lt host bs
  rw [h] at hlt
  rw [toUnsigned_toSigned, Nat.mod_eq_of_lt (lt_of_lt_of_le hlt (by norm_num))]
  have := ntoh_objectVal host bs
  rw [h] at this
  cases host <;> exact this

/-- What `readI64` computes from the eight bytes it loads: their value most significant first. -/
theorem ntohll_objectVal (host : ByteOrder) (bs : List Byte) (h : bs.length = 8) :
    ntohll host (toUnsigned 64 (toSigned 64 (objectVal host bs))) = beVal bs := by
  have hlt := objectVal_lt host bs
  rw [h] at hlt
  rw [toUnsigned_toSigned, Nat.mod_eq_of_lt (lt_of_lt_of_le hlt (by norm_num))]
  have := ntoh_objectVal host bs
  rw [h] at this
  cases host <;> exact this

/-- The unsigned load of `readDouble`. -/
theorem ntohll_objectVal_unsigned (host : ByteOrder) (bs : List Byte) (h : bs.length = 8) :
    ntohll host (objectVal host bs) = beVal bs := by
  have := ntoh_objectVal host bs
  rw [h] at this
  cases host <;> exact this

/-! ## The writing functions in terms of the wire bytes -/

theorem writeBool_eq (p : Protocol) (value : Bool) :
    writeBool p value =
      ({ p with write_buffer_ := p.write_buffer_ ++ [Byte.ofNat (if value then 1 else 0)] }, 1) := rfl

theorem writeByte_eq (p : Protocol) (byte : Int) :
    writeByte p byte =
      ({ p with write_buffer_ := p.write_buffer_ ++ [Byte.ofNat (toUnsigned 8 byte)] }, 1) := rfl

theorem writeI16_eq (host : ByteOrder) (p : Protocol) (i16 : Int) :
    writeI16 host p i16 =
      ({ p with write_buffer_ := p.write_buffer_ ++ beBytes 2 (toUnsigned 16 i16) }, 2) := by
  have h : objectBytes host 2 (toUnsigned 16 (toSigned 16 (htons host (toUnsigned 16 i16)))) =
      beBytes 2 (toUnsigned 16 i16) := by
    rw [toUnsigned_toSigned, show (2 : Nat) ^ 16 = 256 ^ 2 by norm_num, objectBytes_mod,
      objectBytes_htons]
  simp only [writeI16, TByteBuffer.write, h]

theorem writeI32_eq (host : ByteOrder) (p : Protocol) (i32 : Int) :
    writeI32 host p i32 =
      ({ p with write_buffer_ := p.write_buffer_ ++ beBytes 4 (toUnsigned 32 i32) }, 4) := by
  have h : objectBytes host 4 (toUnsigned 32 (toSigned 32 (htonl host (toUnsigned 32 i32)))) =
      beBytes 4 (toUnsigned 32 i32) := by
    rw [toUnsigned_toSigned, show (2 : Nat) ^ 32 = 256 ^ 4 by norm_num, objectBytes_mod,
      objectBytes_htonl]
  simp only [writeI32, TByteBuffer.write, h]

theorem writeI64_eq (host : ByteOrder) (p : Protocol) (i64 : Int) :
    writeI64 host p i64 =
      ({ p with write_buffer_ := p.write_buffer_ ++ beBytes 8 (toUnsigned 64 i64) }, 8) := by
  have h : objectBytes host 8 (toUnsigned 64 (toSigned 64 (htonll host (toUnsigned 64 i64)))) =
      beBytes 8 (toUnsigned 64 i64) := by
    rw [toUnsigned_toSigned, show (2 : Nat) ^ 64 = 256 ^ 8 by norm_num, objectBytes_mod,
      objectBytes_htonll]
  simp only [writeI64, TByteBuffer.write, h]

theorem writeDouble_eq (host : ByteOrder) (p : Protocol) (dub : Nat) :
    writeDouble host p dub =
      ({ p with write_buffer_ := p.write_buffer_ ++ beBytes 8 dub }, 8) := by
  simp only [writeDouble, TByteBuffer.write, objectBytes_htonll]

theorem toUnsigned_natCast (w n : Nat) : toUnsigned w (n : Int) = n % 2 ^ w := by
  unfold toUnsigned
  have hcast : ((2 : Int) ^ w) = ((2 ^ w : Nat) : Int) := by push_cast; rfl
  rw [hcast, ← Int.natCast_mod, Int.toNat_natCast]

theorem writeString_eq (host : ByteOrder) (p : Protocol) (str : List Byte)
    (h : str.length < 2 ^ 32 - 4) :
    writeString host p str =
      ({ p with write_buffer_ := p.write_buffer_ ++ beBytes 4 str.length ++ str },
        4 + str.length) := by
  have hs : u32 str.length = str.length := Nat.mod_eq_of_lt (by omega)
  have hc : u32 (4 + str.length) = 4 + str.length := Nat.mod_eq_of_lt (by omega)
  have hb : beBytes 4 (toUnsigned 32 (toSigned 32 str.length)) = beBytes 4 str.length := by
    rw [toUnsigned_toSigned, show (2 : Nat) ^ 32 = 256 ^ 4 by norm_num, beBytes_mod]
  simp only [writeString, writeI32_eq, TByteBuffer.write, hs, hc, hb, List.take_length]
  by_cases h0 : str.length > 0
  · simp [h0]
  · have : str = [] := List.length_eq_zero.mp (by omega)
    subst this
    simp

/-! ## The checked access -/

theorem readBuffer_ok (p : Protocol) (len : Int) (h : len ≤ p.read_buffer_len_) :
    readBuffer p len = (.ok p.read_buffer_, advance p len) := by
  simp [readBuffer, advance, h]

theorem readBuffer_fail (p : Protocol) (len : Int) (h : p.read_buffer_len_ < len) :
    readBuffer p len = (.error .INVALID_DATA, p) := by
  simp [readBuffer, not_le.mpr h]

theorem length_rest (p : Protocol) (hb : Bound p) :
    ((rest p).length : Int) = p.read_buffer_len_ := by
  obtain ⟨h0, h1, h2⟩ := hb
  simp only [rest, List.length_drop]
  omega

theorem Bound_advance (p : Protocol) (hb : Bound p) (n : Int) (h0 : 0 ≤ n)
    (h : n ≤ p.read_buffer_len_) : Bound (advance p n) := by
  obtain ⟨h1, h2, h3⟩ := hb
  simp only [Bound, advance]
  omega

theorem rest_advance (p : Protocol) (hb : Bound p) (n : Nat) :
    rest (advance p n) = (rest p).drop n := by
  obtain ⟨h1, h2, h3⟩ := hb
  simp only [rest, advance, List.drop_drop]
  congr 1
  omega

theorem load_advance (p : Protocol) (hb : Bound p) (m : Int) (n : Nat)
    (h : (n : Int) ≤ p.read_buffer_len_) :
    load (advance p m) p.read_buffer_ n = some ((rest p).take n) := by
  obtain ⟨h1, h2, h3⟩ := hb
  have : 0 ≤ p.read_buffer_ ∧ p.read_buffer_.toNat + n ≤ p.read_region.length := by omega
  simp [load, advance, rest, this]

theorem peek_advance (p : Protocol) (m : Int) (hb : Bound p) :
    peek (advance p m) p.read_buffer_ = (rest p).head? := by
  obtain ⟨h1, h2, h3⟩ := hb
  simp [peek, advance, rest, h1, List.head?_drop]

theorem advance_zero (p : Protocol) : advance p 0 = p := by
  cases p; simp [advance]

theorem advance_advance (p : Protocol) (m n : Int) :
    advance (advance p m) n = advance p (m + n) := by
  simp only [advance, Protocol.mk.injEq, true_and]
  constructor <;> ring

/-- When the bytes ahead of the read pointer start with `bs`, the checked
access of `bs.length` bytes passes and leaves the pointer at what follows. -/
theorem step (p : Protocol) (hb : Bound p) (bs tl : List Byte) (hr : rest p = bs ++ tl) :
    (bs.length : Int) ≤ p.read_buffer_len_ ∧ Bound (advance p bs.length) ∧
      rest (advance p bs.length) = tl ∧ (rest p).take bs.length = bs := by
  have hl := length_rest p hb
  rw [hr, List.length_append] at hl
  have hle : (bs.length : Int) ≤ p.read_buffer_len_ := by push_cast at hl; omega
  refine ⟨hle, Bound_advance p hb _ (by omega) hle, ?_, ?_⟩
  · rw [rest_advance p hb, hr, List.drop_left]
  · rw [hr, List.take_left]

theorem readBool_cons (p : Protocol) (hb : Bound p) (c : Byte) (tl : List Byte)
    (hr : rest p = c :: tl) (value : Bool) :
    readBool p value = ⟨.ok 1, decide (c.val ≠ 0), advance p 1⟩ := by
  have hs := step p hb [c] tl hr
  simp only [List.length_singleton, Nat.cast_one] at hs
  simp [readBool, readBuffer_ok p 1 hs.1, peek_advance p 1 hb, hr]

theorem readByte_cons (p : Protocol) (hb : Bound p) (c : Byte) (tl : List Byte)
    (hr : rest p = c :: tl) (byte : Int) :
    readByte p byte = ⟨.ok 1, toSigned 8 c.val, advance p 1⟩ := by
  have hs := step p hb [c] tl hr
  simp only [List.length_singleton, Nat.cast_one] at hs
  simp [readByte, readBuffer_ok p 1 hs.1, peek_advance p 1 hb, hr]

theorem readI16_append (host : ByteOrder) (p : Protocol) (hb : Bound p) (bs tl : List Byte)
    (hr : rest p = bs ++ tl) (hl : bs.length = 2) (i16 : Int) :
    readI16 host p i16 = ⟨.ok 2, toSigned 16 (beVal bs), advance p 2⟩ := by
  have hs := step p hb bs tl hr
  rw [hl] at hs
  have hld := load_advance p hb 2 2 hs.1
  rw [hs.2.2.2] at hld
  simp only [Nat.cast_ofNat] at hs hld
  simp [readI16, readBuffer_ok p 2 hs.1, hld, ntohs_objectVal host bs hl]

theorem readI32_append (host : ByteOrder) (p : Protocol) (hb : Bound p) (bs tl : List Byte)
    (hr : rest p = bs ++ tl) (hl : bs.length = 4) (i32 : Int) :
    readI32 host p i32 = ⟨.ok 4, toSigned 32 (beVal bs), advance p 4⟩ := by
  have hs := step p hb bs tl hr
  rw [hl] at hs
  have hld := load_advance p hb 4 4 hs.1
  rw [hs.2.2.2] at hld
  simp only [Nat.cast_ofNat] at hs hld
  simp [readI32, readBuffer_ok p 4 hs.1, hld, ntohl_objectVal host bs hl]

theorem readI64_append (host : ByteOrder) (p : Protocol) (hb : Bound p) (bs tl : List Byte)
    (hr : rest p = bs ++ tl) (hl : bs.length = 8) (i64 : Int) :
    readI64 host p i64 = ⟨.ok 8, toSigned 64 (beVal bs), advance p 8⟩ := by
  have hs := step p hb bs tl hr
  rw [hl] at hs
  have hld := load_advance p hb 8 8 hs.1
  rw [hs.2.2.2] at hld
  simp only [Nat.cast_ofNat] at hs hld
  simp [readI64, readBuffer_ok p 8 hs.1, hld, ntohll_objectVal host bs hl]

theorem readDouble_append (host : ByteOrder) (p : Protocol) (hb : Bound p) (bs tl : List Byte)
    (hr : rest p = bs ++ tl) (hl : bs.length = 8) (dub : Nat) :
    readDouble host p dub = ⟨.ok 8, beVal bs, advance p 8⟩ := by
  have hs := step p hb bs tl hr
  rw [hl] at hs
  have hld := load_advance p hb 8 8 hs.1
  rw [hs.2.2.2] at hld
  simp only [Nat.cast_ofNat] at hs hld
  simp [readDouble, readBuffer_ok p 8 hs.1, hld, ntohll_objectVal_unsigned host bs hl]

theorem readStringBody_append (p : Protocol) (hb : Bound p) (bs tl : List Byte)
    (hr : rest p = bs ++ tl) (hl : bs.length < 2 ^ 32) (str : List Byte) :
    readStringBody p str bs.length = ⟨.ok bs.length, bs, advance p bs.length⟩ := by
  by_cases h0 : bs.length = 0
  · have : bs = [] := List.length_eq_zero.mp h0
    subst this
    simp [readStringBody, advance_zero]
  · have hs := step p hb bs tl hr
    have hld := load_advance p hb bs.length bs.length hs.1
    rw [hs.2.2.2] at hld
    have hpos : (bs.length : Int) > 0 := by omega
    have hu : toUnsigned 32 (bs.length : Int) = bs.length := by
      rw [toUnsigned_natCast, Nat.mod_eq_of_lt hl]
    simp [readStringBody, hpos, readBuffer_ok p _ hs.1, hld, hu]

theorem Bound_boundTo (bs : List Byte) (h : (bs.length : Int) ≤ INT_MAX) :
    Bound (boundTo bs) ∧ rest (boundTo bs) = bs ∧
      (boundTo bs).read_buffer_len_ = bs.length ∧ (boundTo bs).read_buffer_ = 0 := by
  have hc : castSigned 32 (bs.length : Int) = bs.length :=
    toSigned_toUnsigned 32 (by decide) _ (by simp only [INT_MAX] at h; norm_num; omega)
      (by simp only [INT_MAX] at h; norm_num; omega)
  simp [boundTo, setBuffer, Bound, rest, hc]

theorem boundTo_done (bs : List Byte) (h : (bs.length : Int) ≤ INT_MAX) :
    (advance (boundTo bs) bs.length).read_buffer_len_ = 0 ∧
      rest (advance (boundTo bs) bs.length) = [] := by
  obtain ⟨hb, hr, hl, _⟩ := Bound_boundTo bs h
  constructor
  · simp [advance, hl]
  · rw [rest_advance _ hb, hr, List.drop_length]

theorem toSigned_beVal_beBytes_2 (v : Int) (h1 : -2 ^ 15 ≤ v) (h2 : v < 2 ^ 15) :
    toSigned 16 (beVal (beBytes 2 (toUnsigned 16 v))) = v := by
  rw [beVal_beBytes, show (256 : Nat) ^ 2 = 2 ^ 16 by norm_num,
    Nat.mod_eq_of_lt (toUnsigned_lt 16 v)]
  exact toSigned_toUnsigned 16 (by decide) v (by simpa using h1) (by simpa using h2)

theorem toSigned_beVal_beBytes_4 (v : Int) (h1 : -2 ^ 31 ≤ v) (h2 : v < 2 ^ 31) :
    toSigned 32 (beVal (beBytes 4 (toUnsigned 32 v))) = v := by
  rw [beVal_beBytes, show (256 : Nat) ^ 4 = 2 ^ 32 by norm_num,
    Nat.mod_eq_of_lt (toUnsigned_lt 32 v)]
  exact toSigned_toUnsigned 32 (by decide) v (by simpa using h1) (by simpa using h2)

theorem toSigned_beVal_beBytes_8 (v : Int) (h1 : -2 ^ 63 ≤ v) (h2 : v < 2 ^ 63) :
    toSigned 64 (beVal (beBytes 8 (toUnsigned 64 v))) = v := by
  rw [beVal_beBytes, show (256 : Nat) ^ 8 = 2 ^ 64 by norm_num,
    Nat.mod_eq_of_lt (toUnsigned_lt 64 v)]
  exact toSigned_toUnsigned 64 (by decide) v (by simpa using h1) (by simpa using h2)

theorem toSigned_ofNat_toUnsigned_1 (v : Int) (h1 : -2 ^ 7 ≤ v) (h2 : v < 2 ^ 7) :
    toSigned 8 (Byte.ofNat (toUnsigned 8 v)).val = v := by
  have hlt := toUnsigned_lt 8 v
  simp only [Byte.ofNat]
  rw [Nat.mod_eq_of_lt (by simpa using hlt)]
  exact toSigned_toUnsigned 8 (by decide) v (by simpa using h1) (by simpa using h2)

/-- C1. Round trip of the fixed-width primitives. Starting from an empty sink,
the bytes one write produces, bound as the read region, are read back by the
matching read as the value written, with the width as the returned count and
no byte left. Holds for every bool, for every integer of the 8, 16, 32 and 64
bit signed ranges, and for every 64-bit pattern of a double; the writing and
the reading host may differ in byte order. -/
theorem fixed_width_round_trip (hw hr : ByteOrder) (p : Protocol) (hp : p.write_buffer_ = []) :
    (∀ v x : Bool, (readBool (boundTo (writeBool p v).1.write_buffer_) x).yields 1 v) ∧
    (∀ v x : Int, -2 ^ 7 ≤ v → v < 2 ^ 7 →
      (readByte (boundTo (writeByte p v).1.write_buffer_) x).yields 1 v) ∧
    (∀ v x : Int, -2 ^ 15 ≤ v → v < 2 ^ 15 →
      (readI16 hr (boundTo (writeI16 hw p v).1.write_buffer_) x).yields 2 v) ∧
    (∀ v x : Int, -2 ^ 31 ≤ v → v < 2 ^ 31 →
      (readI32 hr (boundTo (writeI32 hw p v).1.write_buffer_) x).yields 4 v) ∧
    (∀ v x : Int, -2 ^ 63 ≤ v → v < 2 ^ 63 →
      (readI64 hr (boundTo (writeI64 hw p v).1.write_buffer_) x).yields 8 v) ∧
    (∀ v x : Nat, v < 2 ^ 64 →
      (readDouble hr (boundTo (writeDouble hw p v).1.write_buffer_) x).yields 8 v) := by
  refine ⟨?_, ?_, ?_, ?_, ?_, ?_⟩
  · intro v x
    simp only [writeBool_eq, hp, List.nil_append]
    have hlen : (([Byte.ofNat (if v then 1 else 0)] : List Byte).length : Int) ≤ INT_MAX := by
      simp [INT_MAX]
    obtain ⟨hb, hrest, -, -⟩ := Bound_boundTo _ hlen
    have hd := boundTo_done _ hlen
    rw [Res.yields, readBool_cons _ hb _ [] hrest]
    dsimp only
    refine ⟨rfl, ?_, hd.1, hd.2⟩
    cases v <;> simp [Byte.ofNat]
  · intro v x h1 h2
    simp only [writeByte_eq, hp, List.nil_append]
    have hlen : (([Byte.ofNat (toUnsigned 8 v)] : List Byte).length : Int) ≤ INT_MAX := by
      simp [INT_MAX]
    obtain ⟨hb, hrest, -, -⟩ := Bound_boundTo _ hlen
    have hd := boundTo_done _ hlen
    rw [Res.yields, readByte_cons _ hb _ [] hrest]
    dsimp only
    exact ⟨rfl, toSigned_ofNat_toUnsigned_1 v h1 h2, hd.1, hd.2⟩
  · intro v x h1 h2
    simp only [writeI16_eq, hp, List.nil_append]
    have hl := length_beBytes 2 (toUnsigned 16 v)
    have hlen : ((beBytes 2 (toUnsigned 16 v)).length : Int) ≤ INT_MAX := by
      rw [hl]; simp [INT_MAX]
    obtain ⟨hb, hrest, -, -⟩ := Bound_boundTo _ hlen
    have hd := boundTo_done _ hlen
    rw [hl] at hd
    rw [Res.yields, readI16_append hr _ hb _ [] (by simpa using hrest) hl]
    dsimp only
    exact ⟨rfl, toSigned_beVal_beBytes_2 v h1 h2, hd.1, hd.2⟩
  · intro v x h1 h2
    simp only [writeI32_eq, hp, List.nil_append]
    have hl := length_beBytes 4 (toUnsigned 32 v)
    have hlen : ((beBytes 4 (toUnsigned 32 v)).length : Int) ≤ INT_MAX := by
      rw [hl]; simp [INT_MAX]
    obtain ⟨hb, hrest, -, -⟩ := Bound_boundTo _ hlen
    have hd := boundTo_done _ hlen
    rw [hl] at hd
    rw [Res.yields, readI32_append hr _ hb _ [] (by simpa using hrest) hl]
    dsimp only
    exact ⟨rfl, toSigned_beVal_beBytes_4 v h1 h2, hd.1, hd.2⟩
  · intro v x h1 h2
    simp only [writeI64_eq, hp, List.nil_append]
    have hl := length_beBytes 8 (toUnsigned 64 v)
    have hlen : ((beBytes 8 (toUnsigned 64 v)).length : Int) ≤ INT_MAX := by
      rw [hl]; simp [INT_MAX]
    obtain ⟨hb, hrest, -, -⟩ := Bound_boundTo _ hlen
    have hd := boundTo_done _ hlen
    rw [hl] at hd
    rw [Res.yields, readI64_append hr _ hb _ [] (by simpa using hrest) hl]
    dsimp only
    exact ⟨rfl, toSigned_beVal_beBytes_8 v h1 h2, hd.1, hd.2⟩
  · intro v x h1
    simp only [writeDouble_eq, hp, List.nil_append]
    have hl := length_beBytes 8 v
    have hlen : ((beBytes 8 v).length : Int) ≤ INT_MAX := by
      rw [hl]; simp [INT_MAX]
    obtain ⟨hb, hrest, -, -⟩ := Bound_boundTo _ hlen
    have hd := boundTo_done _ hlen
    rw [hl] at hd
    rw [Res.yields, readDouble_append hr _ hb _ [] (by simpa using hrest) hl]
    dsimp only
    refine ⟨rfl, ?_, hd.1, hd.2⟩
    rw [beVal_beBytes, show (256 : Nat) ^ 8 = 2 ^ 64 by norm_num, Nat.mod_eq_of_lt h1]

theorem fixed_width_round_trip_witness :
    (readBool (boundTo (writeBool Protocol.new true).1.write_buffer_) false).yields 1 true ∧
    (readByte (boundTo (writeByte Protocol.new (-128)).1.write_buffer_) 0).yields 1 (-128) ∧
    (readI16 .BIG_ENDIAN
      (boundTo (writeI16 .LITTLE_ENDIAN Protocol.new 32767).1.write_buffer_) 0).yields 2 32767 ∧
    (readI32 .BIG_ENDIAN
      (boundTo (writeI32 .LITTLE_ENDIAN Protocol.new (-1)).1.write_buffer_) 0).yields 4 (-1) ∧
    (readI32 .BIG_ENDIAN
      (boundTo (writeI32 .LITTLE_ENDIAN Protocol.new 0).1.write_buffer_) 5).yields 4 0 ∧
    (readI64 .BIG_ENDIAN
      (boundTo (writeI64 .LITTLE_ENDIAN Protocol.new (-9223372036854775808)).1.write_buffer_)
      0).yields 8 (-9223372036854775808) ∧
    (readDouble .BIG_ENDIAN
      (boundTo (writeDouble .LITTLE_ENDIAN Protocol.new 0x7ff8000000000001).1.write_buffer_)
      0).yields 8 0x7ff8000000000001 :=
  have h := fixed_width_round_trip .LITTLE_ENDIAN .BIG_ENDIAN Protocol.new rfl
  ⟨h.1 true false,
   h.2.1 (-128) 0 (by norm_num) (by norm_num),
   h.2.2.1 32767 0 (by norm_num) (by norm_num),
   h.2.2.2.1 (-1) 0 (by norm_num) (by norm_num),
   h.2.2.2.1 0 5 (by norm_num) (by norm_num),
   h.2.2.2.2.1 (-9223372036854775808) 0 (by norm_num) (by norm_num),
   h.2.2.2.2.2 0x7ff8000000000001 0 (by norm_num)⟩

theorem shift_mask (u s : Nat) : (u >>> s) &&& 0xFF = u / 2 ^ s % 256 := by
  rw [Nat.shiftRight_eq_div_pow]
  exact Nat.and_pow_two_sub_one_eq_mod _ 8

theorem ofNat_eq_of_mod (a b : Nat) (h : a % 256 = b % 256) : Byte.ofNat a = Byte.ofNat b :=
  Fin.ext h

theorem beBytes_2 (u : Nat) : beBytes 2 u = [Byte.ofNat (u / 2 ^ 8), Byte.ofNat u] := by
  simp [beBytes, leBytes]

theorem beBytes_4 (u : Nat) :
    beBytes 4 u = [Byte.ofNat (u / 2 ^ 24), Byte.ofNat (u / 2 ^ 16), Byte.ofNat (u / 2 ^ 8),
      Byte.ofNat u] := by
  simp only [beBytes, leBytes, List.reverse_cons, List.reverse_nil, List.nil_append,
    List.singleton_append, List.cons_append, List.cons.injEq, and_true]
  refine ⟨?_, ?_, ?_⟩ <;> apply ofNat_eq_of_mod <;> omega

theorem beBytes_8 (u : Nat) :
    beBytes 8 u = [Byte.ofNat (u / 2 ^ 56), Byte.ofNat (u / 2 ^ 48), Byte.ofNat (u / 2 ^ 40),
      Byte.ofNat (u / 2 ^ 32), Byte.ofNat (u / 2 ^ 24), Byte.ofNat (u / 2 ^ 16),
      Byte.ofNat (u / 2 ^ 8), Byte.ofNat u] := by
  simp only [beBytes, leBytes, List.reverse_cons, List.reverse_nil, List.nil_append,
    List.singleton_append, List.cons_append, List.cons.injEq, and_true]
  refine ⟨?_, ?_, ?_, ?_, ?_, ?_, ?_⟩ <;> apply ofNat_eq_of_mod <;> omega

theorem wireByte_eq (w : Nat) (v : Int) (k : Nat) :
    wireByte w v k = Byte.ofNat (toUnsigned w v / 2 ^ (w - 8 * (k + 1))) := by
  apply Fin.ext
  simp only [wireByte, Byte.ofNat, shift_mask, toUnsigned, Nat.mod_mod]

/-- C2. Big-endian wire layout. On either host, `writeI16`, `writeI32`,
`writeI64` and `writeDouble` append exactly 2, 4, 8 and 8 bytes to the sink
and return that number; the `k`-th appended byte is
`((v mod 2^w) >> (w - 8*(k+1))) & 0xFF`, the two's-complement representation
most significant byte first. `writeI32(0x01020304)` appends 01 02 03 04 and
`writeI16(-2)` appends FF FE. -/
theorem big_endian_wire_layout (host : ByteOrder) (p : Protocol) :
    (∀ v : Int, writeI16 host p v =
      ({ p with write_buffer_ := p.write_buffer_ ++ [wireByte 16 v 0, wireByte 16 v 1] }, 2)) ∧
    (∀ v : Int, writeI32 host p v =
      ({ p with write_buffer_ := p.write_buffer_ ++
          [wireByte 32 v 0, wireByte 32 v 1, wireByte 32 v 2, wireByte 32 v 3] }, 4)) ∧
    (∀ v : Int, writeI64 host p v =
      ({ p with write_buffer_ := p.write_buffer_ ++
          [wireByte 64 v 0, wireByte 64 v 1, wireByte 64 v 2, wireByte 64 v 3,
           wireByte 64 v 4, wireByte 64 v 5, wireByte 64 v 6, wireByte 64 v 7] }, 8)) ∧
    (∀ d : Nat, writeDouble host p d =
      ({ p with write_buffer_ := p.write_buffer_ ++
          [wireByte 64 d 0, wireByte 64 d 1, wireByte 64 d 2, wireByte 64 d 3,
           wireByte 64 d 4, wireByte 64 d 5, wireByte 64 d 6, wireByte 64 d 7] }, 8)) ∧
    (writeI32 host p 0x01020304).1.write_buffer_ = p.write_buffer_ ++ [0x01, 0x02, 0x03, 0x04] ∧
    (writeI16 host p (-2)).1.write_buffer_ = p.write_buffer_ ++ [0xFF, 0xFE] := by
  refine ⟨?_, ?_, ?_, ?_, ?_, ?_⟩
  · intro v
    rw [writeI16_eq, beBytes_2]
    simp [wireByte_eq]
  · intro v
    rw [writeI32_eq, beBytes_4]
    simp [wireByte_eq]
  · intro v
    rw [writeI64_eq, beBytes_8]
    simp [wireByte_eq]
  · intro d
    rw [writeDouble_eq, ← beBytes_mod, beBytes_8]
    simp [wireByte_eq, toUnsigned_natCast]
  · rw [writeI32_eq]
    congr 1
  · rw [writeI16_eq]
    congr 1

/-! ## Strings -/

theorem toSigned_natCast_32 (n : Nat) (h : n < 2 ^ 31) : toSigned 32 n = n := by
  have hm : n % 2 ^ 32 = n := Nat.mod_eq_of_lt (by omega)
  simp only [toSigned, hm]
  rw [if_pos (by simpa using h)]

theorem toSigned_beVal_beBytes_nat (n : Nat) (h : n < 2 ^ 31) :
    toSigned 32 (beVal (beBytes 4 n)) = n := by
  rw [beVal_beBytes, show (256 : Nat) ^ 4 = 2 ^ 32 by norm_num, Nat.mod_eq_of_lt (by omega)]
  exact toSigned_natCast_32 n h

theorem readString_append (host : ByteOrder) (p : Protocol) (hb : Bound p) (s tl : List Byte)
    (hr : rest p = beBytes 4 s.length ++ (s ++ tl)) (hs : s.length < 2 ^ 31) (str : List Byte) :
    readString host p str = ⟨.ok (4 + s.length), s, advance p (4 + s.length)⟩ := by
  have h4 := length_beBytes 4 s.length
  have hst := step p hb _ _ hr
  rw [h4] at hst
  simp only [Nat.cast_ofNat] at hst
  have hc : u32 (4 + s.length) = 4 + s.length := Nat.mod_eq_of_lt (by omega)
  simp only [readString, readI32_append host p hb _ _ hr h4, toSigned_beVal_beBytes_nat _ hs,
    readStringBody_append _ hst.2.1 s tl hst.2.2.1 (by omega), hc, advance_advance]

/-- The bytes `writeString` appends: the four bytes of the length, most
significant first, then the bytes of the string. The returned count is their number. -/
theorem writeString_layout (host : ByteOrder) (p : Protocol) (s : List Byte)
    (hs : s.length < 2 ^ 31) :
    writeString host p s =
      ({ p with write_buffer_ := p.write_buffer_ ++ (beBytes 4 s.length ++ s) },
        4 + s.length) := by
  rw [writeString_eq host p s (by omega), List.append_assoc]

/-- C3, as amended. For every byte string `s` of at most `2^31 - 1` bytes
(the empty string included) `writeString` appends the 4-byte big-endian length
and then the bytes of `s`, and returns `4 + |s|`. When the written form,
`4 + |s|` bytes, fits the `int` length of the read region
(`4 + |s| ≤ 2^31 - 1`), `readString` on a cursor bound to exactly the bytes
written to an empty sink returns `4 + |s|`, gives `s` and leaves no byte. For
the empty string the count is 4 and the output is empty whatever the output
string held before. -/
theorem string_round_trip (hw hr : ByteOrder) (s : List Byte) (hs : s.length ≤ 2 ^ 31 - 1) :
    (∀ q : Protocol, writeString hw q s =
      ({ q with write_buffer_ := q.write_buffer_ ++ (beBytes 4 s.length ++ s) },
        4 + s.length)) ∧
    (4 + (s.length : Int) ≤ INT_MAX →
      ∀ (p : Protocol) (str : List Byte), p.write_buffer_ = [] →
        (readString hr (boundTo (writeString hw p s).1.write_buffer_) str).yields
          (4 + s.length) s) ∧
    (∀ (p : Protocol) (str : List Byte), p.write_buffer_ = [] →
      (readString hr (boundTo (writeString hw p []).1.write_buffer_) str).yields 4 []) := by
  have key : ∀ (t : List Byte), 4 + (t.length : Int) ≤ INT_MAX →
      ∀ (p : Protocol) (str : List Byte), p.write_buffer_ = [] →
      (readString hr (boundTo (writeString hw p t).1.write_buffer_) str).yields
        (4 + t.length) t := by
    intro t ht p str hp
    have htl : t.length < 2 ^ 31 := by simp only [INT_MAX] at ht; omega
    rw [writeString_layout hw p t htl]
    simp only [hp, List.nil_append]
    have hlen : (((beBytes 4 t.length ++ t).length : Nat) : Int) ≤ INT_MAX := by
      rw [List.length_append, length_beBytes]; push_cast; exact ht
    obtain ⟨hb, hrest, -, -⟩ := Bound_boundTo _ hlen
    have hd := boundTo_done _ hlen
    rw [List.length_append, length_beBytes] at hd
    rw [Res.yields, readString_append hr _ hb t [] (by simpa using hrest) htl]
    dsimp only
    exact ⟨rfl, rfl, by exact_mod_cast hd.1, by exact_mod_cast hd.2⟩
  refine ⟨fun q => writeString_layout hw q s (by omega), key s, ?_⟩
  intro p str hp
  exact key [] (by simp [INT_MAX]) p str hp

theorem string_round_trip_witness :
    ([0x70, 0x69, 0x6E, 0x67] : List Byte).length ≤ 2 ^ 31 - 1 ∧
    4 + (([0x70, 0x69, 0x6E, 0x67] : List Byte).length : Int) ≤ INT_MAX ∧
    (writeString .LITTLE_ENDIAN Protocol.new [0x70, 0x69, 0x6E, 0x67]).1.write_buffer_ =
      [0, 0, 0, 4, 0x70, 0x69, 0x6E, 0x67] ∧
    (readString .BIG_ENDIAN
      (boundTo (writeString .LITTLE_ENDIAN Protocol.new [0x70, 0x69, 0x6E, 0x67]).1.write_buffer_)
      [1]).yields 8 [0x70, 0x69, 0x6E, 0x67] ∧
    (readString .BIG_ENDIAN
      (boundTo (writeString .LITTLE_ENDIAN Protocol.new []).1.write_buffer_) [1]).yields 4 [] :=
  have h := string_round_trip .LITTLE_ENDIAN .BIG_ENDIAN [0x70, 0x69, 0x6E, 0x67] (by decide)
  ⟨by decide, by decide, by rw [(h.1 Protocol.new)]; decide, h.2.1 (by decide) Protocol.new [1] rfl,
    h.2.2 Protocol.new [1] rfl⟩

theorem load_advance_eq (p : Protocol) (m b : Int) (n : Nat) :
    load (advance p m) b n = load p b n := rfl

theorem castSigned_32_le (v : Int) : castSigned 32 v ≤ INT_MAX := by
  simp only [castSigned, toSigned, INT_MAX]
  have h : toUnsigned 32 v % 2 ^ 32 < 2 ^ 32 := Nat.mod_lt _ (by norm_num)
  split
  · rename_i hlt
    have hlt2 : toUnsigned 32 v % 2 ^ 32 < 2 ^ 31 := by simpa using hlt
    have : ((toUnsigned 32 v % 2 ^ 32 : Nat) : Int) < 2 ^ 31 := by exact_mod_cast hlt2
    omega
  · have : ((toUnsigned 32 v % 2 ^ 32 : Nat) : Int) < 2 ^ 32 := by exact_mod_cast h
    push_cast
    omega

/-- A region that starts with the length prefix of a string of `2^31 - 4`
bytes or more is longer than any `int`: whatever length the read side is
bound with, `readString` throws. -/
theorem readString_over_int (host : ByteOrder) (s tl : List Byte) (hlo : 2 ^ 31 - 4 ≤ s.length)
    (hhi : s.length < 2 ^ 31) (len : Int) (hlen : len ≤ INT_MAX) (p0 : Protocol)
    (w str : List Byte) :
    (readString host (setBuffer p0 (beBytes 4 s.length ++ (s ++ tl)) len w) str).ret =
      .error .INVALID_DATA := by
  generalize hq : setBuffer p0 (beBytes 4 s.length ++ (s ++ tl)) len w = q
  have hq1 : q.read_buffer_len_ = len := by rw [← hq]; rfl
  have hq2 : q.read_buffer_ = 0 := by rw [← hq]; rfl
  have hq3 : q.read_region = beBytes 4 s.length ++ (s ++ tl) := by rw [← hq]; rfl
  simp only [INT_MAX] at hlen
  by_cases h4 : len < 4
  · simp [readString, readI32, readBuffer_fail q 4 (by omega)]
  · have hld : load (advance q 4) q.read_buffer_ 4 = some (beBytes 4 s.length) := by
      have hle : 4 ≤ (beBytes 4 s.length ++ (s ++ tl)).length := by
        simp [length_beBytes]
      have ht : List.take 4 (beBytes 4 s.length ++ (s ++ tl)) = beBytes 4 s.length :=
        List.take_left' (length_beBytes 4 s.length)
      simp [load, advance, hq2, hq3, ht, length_beBytes]
    have hr1 : readI32 host q 0 = ⟨.ok 4, (s.length : Int), advance q 4⟩ := by
      simp only [readI32, readBuffer_ok q 4 (by omega), hld,
        ntohl_objectVal host _ (length_beBytes 4 s.length), toSigned_beVal_beBytes_nat _ hhi]
    have hpos : (s.length : Int) > 0 := by omega
    have hf : readBuffer (advance q 4) (s.length : Int) = (.error .INVALID_DATA, advance q 4) :=
      readBuffer_fail _ _ (by simp only [advance, hq1]; omega)
    simp [readString, hr1, readStringBody, hpos, hf]

theorem readString_int_limit (s : List Byte) (hl : s.length = 2 ^ 31 - 1) :
    s.length ≤ 2 ^ 31 - 1 ∧
    (∀ hw hr : ByteOrder,
      (readString hr (boundTo (writeString hw Protocol.new s).1.write_buffer_) []).ret =
        .error .INVALID_DATA) ∧
    (∀ hw hr : ByteOrder, ¬ ∃ len : Int, len ≤ INT_MAX ∧ ∃ n : Nat,
      (readString hr (setBuffer Protocol.new (writeString hw Protocol.new s).1.write_buffer_
        len []) []).ret = .ok n) := by
  have hw : ∀ hw : ByteOrder, (writeString hw Protocol.new s).1.write_buffer_ =
      beBytes 4 s.length ++ (s ++ []) := by
    intro hw
    rw [writeString_layout hw Protocol.new s (by omega)]
    simp [Protocol.new]
  refine ⟨by omega, ?_, ?_⟩
  · intro h1 h2
    rw [hw h1]
    exact readString_over_int h2 s [] (by omega) (by omega) _ (castSigned_32_le _) _ _ _
  · intro h1 h2 ⟨len, hlen, n, hn⟩
    rw [hw h1, readString_over_int h2 s [] (by omega) (by omega) len hlen] at hn
    cases hn

/-- C3, as stated, fails at the string of `2^31 - 1` zero bytes. Its written
form has `2^31 + 3` bytes, more than an `int` can count: `readString` on the
cursor bound to it throws INVALID_DATA, and so it does whatever `int` length
the read side is bound with. -/
theorem string_round_trip_int_limit :
    (List.replicate (2 ^ 31 - 1) (0 : Byte)).length ≤ 2 ^ 31 - 1 ∧
    (∀ hw hr : ByteOrder,
      (readString hr (boundTo (writeString hw Protocol.new
        (List.replicate (2 ^ 31 - 1) (0 : Byte))).1.write_buffer_) []).ret =
        .error .INVALID_DATA) ∧
    (∀ hw hr : ByteOrder, ¬ ∃ len : Int, len ≤ INT_MAX ∧ ∃ n : Nat,
      (readString hr (setBuffer Protocol.new (writeString hw Protocol.new
        (List.replicate (2 ^ 31 - 1) (0 : Byte))).1.write_buffer_ len []) []).ret = .ok n) :=
  readString_int_limit (List.replicate (2 ^ 31 - 1) (0 : Byte)) (List.length_replicate _ _)

/-! ## The version word -/

theorem and_mask_hi (u : Nat) (h : u < 2 ^ 32) : u &&& 0xffff0000 = u / 2 ^ 16 * 2 ^ 16 := by
  rw [← Nat.shiftRight_eq_div_pow, ← Nat.shiftLeft_eq]
  apply Nat.eq_of_testBit_eq
  intro i
  have hm : (0xffff0000 : Nat) = (2 ^ 16 - 1) <<< 16 := by decide
  rw [Nat.testBit_and, hm, Nat.testBit_shiftLeft, Nat.testBit_shiftLeft,
    Nat.testBit_two_pow_sub_one, Nat.testBit_shiftRight]
  by_cases h16 : 16 ≤ i
  · by_cases h32 : i < 32
    · have : i - 16 < 16 := by omega
      simp [h16, this, show 16 + (i - 16) = i by omega]
    · have hf : u.testBit i = false :=
        Nat.testBit_lt_two_pow (lt_of_lt_of_le h (Nat.pow_le_pow_right (by norm_num) (by omega)))
      simp [h16, hf, show 16 + (i - 16) = i by omega]
  · simp [h16]

theorem and_mask_lo (u : Nat) : u &&& 0x000000ff = u % 256 :=
  Nat.and_pow_two_sub_one_eq_mod u 8

theorem toSigned_inj_32 (a b : Nat) (ha : a < 2 ^ 32) (hb : b < 2 ^ 32)
    (h : toSigned 32 a = toSigned 32 b) : a = b := by
  have h2 := congrArg (toUnsigned 32) h
  rwa [toUnsigned_toSigned, toUnsigned_toSigned, Nat.mod_eq_of_lt ha, Nat.mod_eq_of_lt hb] at h2

theorem toUnsigned_VERSION_MASK : toUnsigned 32 VERSION_MASK = 0xffff0000 := by
  rw [VERSION_MASK, toUnsigned_toSigned]
  norm_num

theorem toUnsigned_255 : toUnsigned 32 0x000000ff = 0xff := by
  rw [show (0x000000ff : Int) = ((0xff : Nat) : Int) by norm_num, toUnsigned_natCast]
  norm_num

/-- The version test of `readMessageBegin` compares the top 16 bits of the word with 0x8001. -/
theorem version_test (u : Nat) (hu : u < 2 ^ 32) :
    and32 (toSigned 32 u) VERSION_MASK = VERSION_1 ↔ u / 2 ^ 16 = 0x8001 := by
  have hm : toUnsigned 32 (toSigned 32 u) = u := by
    rw [toUnsigned_toSigned, Nat.mod_eq_of_lt hu]
  rw [and32, hm, toUnsigned_VERSION_MASK, and_mask_hi u hu, VERSION_1]
  constructor
  · intro h
    have := toSigned_inj_32 _ _ (by omega) (by norm_num) h
    omega
  · intro h
    rw [h]
    norm_num

/-- The kind taken from a version word is its low byte. -/
theorem kind_of_word (u : Nat) (hu : u < 2 ^ 32) :
    and32 (toSigned 32 u) 0x000000ff = ((u % 256 : Nat) : Int) := by
  have hm : toUnsigned 32 (toSigned 32 u) = u := by
    rw [toUnsigned_toSigned, Nat.mod_eq_of_lt hu]
  rw [and32, hm, toUnsigned_255, and_mask_lo]
  exact toSigned_natCast_32 _ (by omega)

theorem toSigned_neg_iff_32 (u : Nat) (hu : u < 2 ^ 32) : toSigned 32 u < 0 ↔ 2 ^ 31 ≤ u := by
  simp only [toSigned, Nat.mod_eq_of_lt hu]
  split
  · rename_i h
    have h2 : u < 2 ^ 31 := by simpa using h
    constructor
    · intro h3; omega
    · intro h3; omega
  · rename_i h
    have h2 : ¬ u < 2 ^ 31 := by simpa using h
    constructor
    · intro _; omega
    · intro _; push_cast; omega

/-! ## The message envelope -/

theorem version_word (kind : TMessageType)
    (hk : kind = T_CALL ∨ kind = T_REPLY ∨ kind = T_EXCEPTION ∨ kind = T_ONEWAY) :
    toUnsigned 32 (or32 VERSION_1 (castSigned 32 kind)) = 0x80010000 ||| kind.toNat := by
  rcases hk with rfl | rfl | rfl | rfl <;> decide

theorem writeMessageBegin_layout (host : ByteOrder) (p : Protocol) (name : List Byte)
    (kind : TMessageType) (seqid : Int)
    (hk : kind = T_CALL ∨ kind = T_REPLY ∨ kind = T_EXCEPTION ∨ kind = T_ONEWAY)
    (hn : name.length < 2 ^ 31) :
    writeMessageBegin host p name kind seqid =
      ({ p with write_buffer_ := p.write_buffer_ ++
          (beBytes 4 (0x80010000 ||| kind.toNat) ++
            (beBytes 4 name.length ++ (name ++ beBytes 4 (toUnsigned 32 seqid)))) },
        12 + name.length) := by
  have h1 : u32 (4 + (4 + name.length)) = 4 + (4 + name.length) := Nat.mod_eq_of_lt (by omega)
  have h2 : u32 (4 + (4 + name.length) + 4) = 12 + name.length := by
    rw [u32, Nat.mod_eq_of_lt (by omega)]; omega
  simp only [writeMessageBegin, writeI32_eq, writeString_layout host _ name hn,
    version_word kind hk, h1, h2, List.append_assoc]

theorem readMessageBegin_versioned (host : ByteOrder) (p : Protocol) (hb : Bound p)
    (w4 name s4 tl : List Byte) (hw4 : w4.length = 4) (hs4 : s4.length = 4)
    (hver : beVal w4 / 2 ^ 16 = 0x8001) (hn : name.length < 2 ^ 31)
    (hr : rest p = w4 ++ (beBytes 4 name.length ++ (name ++ (s4 ++ tl))))
    (n0 : List Byte) (m0 : TMessageType) (s0 : Int) :
    readMessageBegin host p n0 m0 s0 =
      ⟨.ok (12 + name.length),
        (name, ((beVal w4 % 256 : Nat) : Int), toSigned 32 (beVal s4)),
        advance p (12 + name.length)⟩ := by
  have hu : beVal w4 < 2 ^ 32 := by
    have := beVal_lt w4
    rw [hw4] at this
    exact lt_of_lt_of_le this (by norm_num)
  have hneg : ¬ toSigned 32 (beVal w4) ≥ 0 := by
    rw [not_le, toSigned_neg_iff_32 _ hu]; omega
  have hv : ¬ and32 (toSigned 32 (beVal w4)) VERSION_MASK ≠ VERSION_1 := by
    rw [not_not, version_test _ hu]; exact hver
  have hs1 := step p hb _ _ hr
  rw [hw4] at hs1
  simp only [Nat.cast_ofNat] at hs1
  have hr2 : rest (advance p 4) = beBytes 4 name.length ++ (name ++ (s4 ++ tl)) := hs1.2.2.1
  have hstr := readString_append host _ hs1.2.1 name (s4 ++ tl) hr2 hn n0
  have hr2' : rest (advance p 4) = (beBytes 4 name.length ++ name) ++ (s4 ++ tl) := by
    rw [hr2, List.append_assoc]
  have hs2 := step _ hs1.2.1 _ _ hr2'
  rw [List.length_append, length_beBytes, advance_advance] at hs2
  push_cast at hs2
  have hi := readI32_append host _ hs2.2.1 s4 tl hs2.2.2.1 hs4 s0
  have hc1 : u32 (4 + (4 + name.length)) = 4 + (4 + name.length) := Nat.mod_eq_of_lt (by omega)
  have hc2 : u32 (4 + (4 + name.length) + 4) = 12 + name.length := by
    rw [u32, Nat.mod_eq_of_lt (by omega)]; omega
  have ha : (4 : Int) + (4 + (name.length : Int)) + 4 = 12 + name.length := by ring
  simp only [readMessageBegin, readI32_append host p hb w4 _ hr hw4, hneg, hv, if_false,
    hstr, advance_advance, hi, kind_of_word _ hu, hc1, hc2, ha]

theorem readMessageBegin_bad_version (host : ByteOrder) (p : Protocol) (hb : Bound p)
    (w4 tl : List Byte) (hw4 : w4.length = 4) (hneg : toSigned 32 (beVal w4) < 0)
    (hver : beVal w4 / 2 ^ 16 ≠ 0x8001) (hr : rest p = w4 ++ tl)
    (n0 : List Byte) (m0 : TMessageType) (s0 : Int) :
    readMessageBegin host p n0 m0 s0 = ⟨.error .BAD_VERSION, (n0, m0, s0), advance p 4⟩ := by
  have hu : beVal w4 < 2 ^ 32 := by
    have := beVal_lt w4
    rw [hw4] at this
    exact lt_of_lt_of_le this (by norm_num)
  have hneg' : ¬ toSigned 32 (beVal w4) ≥ 0 := not_le.mpr hneg
  have hv : and32 (toSigned 32 (beVal w4)) VERSION_MASK ≠ VERSION_1 := by
    rw [ne_eq, version_test _ hu]; exact hver
  simp only [readMessageBegin, readI32_append host p hb w4 _ hr hw4, hneg', if_false]
  rw [if_pos hv]

theorem readI32_short (host : ByteOrder) (q : Protocol) (h : q.read_buffer_len_ < 4)
    (i32 : Int) : readI32 host q i32 = ⟨.error .INVALID_DATA, i32, q⟩ := by
  simp only [readI32, readBuffer_fail q 4 h]

theorem readI32_of_load (host : ByteOrder) (q : Protocol) (bs : List Byte)
    (h4 : 4 ≤ q.read_buffer_len_) (hload : load q q.read_buffer_ 4 = some bs)
    (hbs : bs.length = 4) (i32 : Int) :
    readI32 host q i32 = ⟨.ok 4, toSigned 32 (beVal bs), advance q 4⟩ := by
  simp only [readI32, readBuffer_ok q 4 h4, load_advance_eq, hload, ntohl_objectVal host bs hbs]

/-- A length prefix that asks for more bytes than `read_buffer_len_` has left
after it: `readString` throws INVALID_DATA with the prefix consumed. -/
theorem readString_body_short (host : ByteOrder) (q : Protocol) (bs str : List Byte)
    (h4 : 4 ≤ q.read_buffer_len_) (hload : load q q.read_buffer_ 4 = some bs)
    (hbs : bs.length = 4) (hpos : 0 < toSigned 32 (beVal bs))
    (hlen : q.read_buffer_len_ - 4 < toSigned 32 (beVal bs)) :
    readString host q str = ⟨.error .INVALID_DATA, str, advance q 4⟩ := by
  have hf : readBuffer (advance q 4) (toSigned 32 (beVal bs)) =
      (.error .INVALID_DATA, advance q 4) :=
    readBuffer_fail _ _ (by simpa only [advance] using hlen)
  simp only [readString, readI32_of_load host q bs h4 hload hbs, readStringBody, gt_iff_lt,
    hpos, if_true, hf]

theorem load_prefix (q : Protocol) (pre bs tl : List Byte) (b : Int) (hb : b = pre.length)
    (hq : q.read_region = pre ++ (bs ++ tl)) :
    load q b bs.length = some bs := by
  subst hb
  have h1 : (pre.length : Int).toNat = pre.length := Int.toNat_natCast _
  simp [load, hq, h1, List.drop_left', List.take_left']

/-- A region that starts with a version-1 word and the length prefix of a
name of `2^31 - 8` bytes or more is longer than any `int`: whatever length the
read side is bound with, `readMessageBegin` throws INVALID_DATA. -/
theorem readMessageBegin_over_int (host : ByteOrder) (w4 name tl : List Byte)
    (hw4 : w4.length = 4) (hver : beVal w4 / 2 ^ 16 = 0x8001)
    (hlo : 2 ^ 31 - 8 ≤ name.length) (hhi : name.length < 2 ^ 31)
    (len : Int) (hlen : len ≤ INT_MAX) (p0 : Protocol) (w n0 : List Byte) (m0 : TMessageType)
    (s0 : Int) :
    (readMessageBegin host (setBuffer p0 (w4 ++ (beBytes 4 name.length ++ (name ++ tl))) len w)
      n0 m0 s0).ret = .error .INVALID_DATA := by
  generalize hq : setBuffer p0 (w4 ++ (beBytes 4 name.length ++ (name ++ tl))) len w = q
  have hq1 : q.read_buffer_len_ = len := by rw [← hq]; rfl
  have hq2 : q.read_buffer_ = 0 := by rw [← hq]; rfl
  have hq3 : q.read_region = w4 ++ (beBytes 4 name.length ++ (name ++ tl)) := by rw [← hq]; rfl
  simp only [INT_MAX] at hlen
  by_cases h4 : len < 4
  · simp only [readMessageBegin, readI32_short host q (by omega)]
  · have hu : beVal w4 < 2 ^ 32 := by
      have := beVal_lt w4
      rw [hw4] at this
      exact lt_of_lt_of_le this (by norm_num)
    have hneg : ¬ toSigned 32 (beVal w4) ≥ 0 := by
      rw [not_le, toSigned_neg_iff_32 _ hu]; omega
    have hv : ¬ and32 (toSigned 32 (beVal w4)) VERSION_MASK ≠ VERSION_1 := by
      rw [not_not, version_test _ hu]; exact hver
    have hl1 : load q q.read_buffer_ 4 = some w4 := by
      have := load_prefix q [] w4 _ q.read_buffer_ (by simp [hq2]) (by simpa using hq3)
      rwa [hw4] at this
    have hr1 := readI32_of_load host q w4 (by omega) hl1 hw4 0
    have hs : (readString host (advance q 4) n0).ret = .error .INVALID_DATA := by
      by_cases h8 : len - 4 < 4
      · simp only [readString, readI32_short host (advance q 4) (by simp only [advance]; omega)]
      · have hl2 : load (advance q 4) (advance q 4).read_buffer_ 4 =
            some (beBytes 4 name.length) := by
          have := load_prefix (advance q 4) w4 (beBytes 4 name.length) (name ++ tl)
            (advance q 4).read_buffer_ (by simp [advance, hq2, hw4]) hq3
          rwa [length_beBytes] at this
        rw [readString_body_short host (advance q 4) _ n0 (by simp only [advance]; omega) hl2
          (length_beBytes 4 _)
          (by rw [toSigned_beVal_beBytes_nat _ hhi]; omega)
          (by rw [toSigned_beVal_beBytes_nat _ hhi]; simp only [advance]; omega)]
    simp only [readMessageBegin, hr1, hneg, hv, if_false, hs]

theorem version_word_top (kind : TMessageType)
    (hk : kind = T_CALL ∨ kind = T_REPLY ∨ kind = T_EXCEPTION ∨ kind = T_ONEWAY) :
    beVal (beBytes 4 (0x80010000 ||| kind.toNat)) / 2 ^ 16 = 0x8001 ∧
      ((beVal (beBytes 4 (0x80010000 ||| kind.toNat)) % 256 : Nat) : Int) = kind := by
  rw [beVal_beBytes]
  rcases hk with rfl | rfl | rfl | rfl <;> decide

/-- C4, as amended. For every name of at most `2^31 - 1` bytes, every kind
among CALL = 1, REPLY = 2, EXCEPTION = 3, ONEWAY = 4 and every 32-bit sequence
id, `writeMessageBegin` appends the big-endian word `0x80010000 | kind`, the
length-prefixed name and the big-endian sequence id, and returns
`12 + |name|`. When these `12 + |name|` bytes fit the `int` length of the read
region (`12 + |name| ≤ 2^31 - 1`), `readMessageBegin` on a cursor bound to
exactly the bytes written to an empty sink returns `12 + |name|`, gives the
same name, kind and sequence id, and leaves no byte. -/
theorem message_round_trip (hw hr : ByteOrder) (name : List Byte) (kind : TMessageType)
    (seqid : Int) (hn : name.length ≤ 2 ^ 31 - 1)
    (hk : kind = T_CALL ∨ kind = T_REPLY ∨ kind = T_EXCEPTION ∨ kind = T_ONEWAY)
    (h1 : -2 ^ 31 ≤ seqid) (h2 : seqid < 2 ^ 31) :
    (∀ q : Protocol, writeMessageBegin hw q name kind seqid =
      ({ q with write_buffer_ := q.write_buffer_ ++
          (beBytes 4 (0x80010000 ||| kind.toNat) ++
            (beBytes 4 name.length ++ (name ++ beBytes 4 (toUnsigned 32 seqid)))) },
        12 + name.length)) ∧
    (12 + (name.length : Int) ≤ INT_MAX →
      ∀ (p : Protocol) (n0 : List Byte) (m0 : TMessageType) (s0 : Int), p.write_buffer_ = [] →
        (readMessageBegin hr (boundTo (writeMessageBegin hw p name kind seqid).1.write_buffer_)
          n0 m0 s0).yields (12 + name.length) (name, kind, seqid)) := by
  have hlt : name.length < 2 ^ 31 := by omega
  refine ⟨fun q => writeMessageBegin_layout hw q name kind seqid hk hlt, ?_⟩
  intro hfit p n0 m0 s0 hp
  rw [writeMessageBegin_layout hw p name kind seqid hk hlt]
  simp only [hp, List.nil_append]
  have hlen : (((beBytes 4 (0x80010000 ||| kind.toNat) ++ (beBytes 4 name.length ++
      (name ++ beBytes 4 (toUnsigned 32 seqid)))).length : Nat) : Int) = 12 + name.length := by
    simp only [List.length_append, length_beBytes]; push_cast; ring
  obtain ⟨hb, hrest, -, -⟩ := Bound_boundTo _ (le_of_eq_of_le hlen hfit)
  have hd := boundTo_done _ (le_of_eq_of_le hlen hfit)
  rw [hlen] at hd
  have ht := version_word_top kind hk
  rw [Res.yields, readMessageBegin_versioned hr _ hb _ name _ [] (length_beBytes 4 _)
    (length_beBytes 4 (toUnsigned 32 seqid)) ht.1 hlt (by simpa using hrest)]
  dsimp only
  rw [ht.2, toSigned_beVal_beBytes_4 seqid h1 h2]
  exact ⟨rfl, rfl, hd.1, hd.2⟩

theorem message_round_trip_witness :
    (writeMessageBegin .LITTLE_ENDIAN Protocol.new [0x70, 0x69, 0x6E, 0x67] T_CALL
      7).1.write_buffer_ =
      [0x80, 0x01, 0x00, 0x01, 0, 0, 0, 4, 0x70, 0x69, 0x6E, 0x67, 0, 0, 0, 7] ∧
    (readMessageBegin .BIG_ENDIAN
      (boundTo (writeMessageBegin .LITTLE_ENDIAN Protocol.new [0x70, 0x69, 0x6E, 0x67] T_CALL
        7).1.write_buffer_) [] 0 0).yields 16 ([0x70, 0x69, 0x6E, 0x67], T_CALL, 7) :=
  have h := message_round_trip .LITTLE_ENDIAN .BIG_ENDIAN [0x70, 0x69, 0x6E, 0x67] T_CALL 7
    (by decide) (Or.inl rfl) (by norm_num) (by norm_num)
  ⟨by rw [h.1 Protocol.new]; decide, h.2 (by decide) Protocol.new [] 0 0 rfl⟩

theorem readMessageBegin_int_limit (name : List Byte) (hl : name.length = 2 ^ 31 - 1) :
    name.length ≤ 2 ^ 31 - 1 ∧
    (∀ hw hr : ByteOrder,
      (readMessageBegin hr (boundTo (writeMessageBegin hw Protocol.new name T_CALL
        7).1.write_buffer_) [] 0 0).ret = .error .INVALID_DATA) ∧
    (∀ hw hr : ByteOrder, ¬ ∃ len : Int, len ≤ INT_MAX ∧ ∃ n : Nat,
      (readMessageBegin hr (setBuffer Protocol.new (writeMessageBegin hw Protocol.new name T_CALL
        7).1.write_buffer_ len []) [] 0 0).ret = .ok n) := by
  have ht := version_word_top T_CALL (Or.inl rfl)
  have hw : ∀ hw : ByteOrder, (writeMessageBegin hw Protocol.new name T_CALL 7).1.write_buffer_ =
      beBytes 4 (0x80010000 ||| T_CALL.toNat) ++
        (beBytes 4 name.length ++ (name ++ beBytes 4 (toUnsigned 32 7))) := by
    intro hw
    rw [writeMessageBegin_layout hw Protocol.new name T_CALL 7 (Or.inl rfl) (by omega)]
    simp [Protocol.new]
  refine ⟨by omega, ?_, ?_⟩
  · intro h1 h2
    rw [hw h1]
    exact readMessageBegin_over_int h2 _ name _ (length_beBytes 4 _) ht.1 (by omega) (by omega) _
      (castSigned_32_le _) _ _ _ _ _
  · intro h1 h2 ⟨len, hlen, n, hn⟩
    rw [hw h1, readMessageBegin_over_int h2 _ name _ (length_beBytes 4 _) ht.1 (by omega)
      (by omega) len hlen] at hn
    cases hn

/-- C4, as stated, fails at the name of `2^31 - 1` zero bytes (kind CALL,
sequence id 7). The written envelope has `2^31 + 11` bytes, more than an `int`
can count: `readMessageBegin` on the cursor bound to it throws INVALID_DATA,
and so it does whatever `int` length the read side is bound with. -/
theorem message_round_trip_int_limit :
    (List.replicate (2 ^ 31 - 1) (0 : Byte)).length ≤ 2 ^ 31 - 1 ∧
    (∀ hw hr : ByteOrder,
      (readMessageBegin hr (boundTo (writeMessageBegin hw Protocol.new
        (List.replicate (2 ^ 31 - 1) (0 : Byte)) T_CALL 7).1.write_buffer_) [] 0 0).ret =
        .error .INVALID_DATA) ∧
    (∀ hw hr : ByteOrder, ¬ ∃ len : Int, len ≤ INT_MAX ∧ ∃ n : Nat,
      (readMessageBegin hr (setBuffer Protocol.new (writeMessageBegin hw Protocol.new
        (List.replicate (2 ^ 31 - 1) (0 : Byte)) T_CALL 7).1.write_buffer_ len []) [] 0 0).ret =
        .ok n) :=
  readMessageBegin_int_limit (List.replicate (2 ^ 31 - 1) (0 : Byte)) (List.length_replicate _ _)

theorem readI32_not_bad_version (host : ByteOrder) (p : Protocol) (x : Int) :
    (readI32 host p x).ret ≠ .error .BAD_VERSION := by
  unfold readI32 readBuffer
  split <;> rename_i h
  · split at h <;> simp at h
    obtain ⟨rfl, rfl⟩ := h
    simp
  · split <;> simp

theorem readStringBody_not_bad_version (p : Protocol) (str : List Byte) (size : Int) :
    (readStringBody p str size).ret ≠ .error .BAD_VERSION := by
  unfold readStringBody readBuffer
  split
  · split <;> rename_i h
    · split at h <;> simp at h
      obtain ⟨rfl, rfl⟩ := h
      simp
    · split <;> simp
  · split <;> simp

theorem readString_not_bad_version (host : ByteOrder) (p : Protocol) (str : List Byte) :
    (readString host p str).ret ≠ .error .BAD_VERSION := by
  simp only [readString]
  have h1 := readI32_not_bad_version host p 0
  split
  · rename_i e he
    intro h
    simp only [Except.error.injEq] at h
    rw [he, h] at h1
    exact h1 rfl
  · have h2 := readStringBody_not_bad_version (readI32 host p 0).st str (readI32 host p 0).out
    split
    · rename_i e he
      intro h
      simp only [Except.error.injEq] at h
      rw [he, h] at h2
      exact h2 rfl
    · simp

theorem beVal_lt_32 (w4 : List Byte) (hw4 : w4.length = 4) : beVal w4 < 2 ^ 32 := by
  have := beVal_lt w4
  rw [hw4] at this
  exact lt_of_lt_of_le this (by norm_num)

theorem readMessageBegin_version_ok_not_bad (host : ByteOrder) (p : Protocol) (hb : Bound p)
    (w4 tl : List Byte) (hw4 : w4.length = 4) (hver : beVal w4 / 2 ^ 16 = 0x8001)
    (hr : rest p = w4 ++ tl) (n0 : List Byte) (m0 : TMessageType) (s0 : Int) :
    (readMessageBegin host p n0 m0 s0).ret ≠ .error .BAD_VERSION := by
  have hu := beVal_lt_32 w4 hw4
  have hneg : ¬ toSigned 32 (beVal w4) ≥ 0 := by
    rw [not_le, toSigned_neg_iff_32 _ hu]; omega
  have hv : ¬ and32 (toSigned 32 (beVal w4)) VERSION_MASK ≠ VERSION_1 := by
    rw [not_not, version_test _ hu]; exact hver
  simp only [readMessageBegin, readI32_append host p hb w4 _ hr hw4, hneg, hv, if_false]
  have h1 := readString_not_bad_version host (advance p 4) n0
  split
  · rename_i e he
    intro h
    simp only [Except.error.injEq] at h
    rw [he, h] at h1
    exact h1 rfl
  · have h2 := readI32_not_bad_version host (readString host (advance p 4) n0).st s0
    split
    · rename_i e he
      intro h
      simp only [Except.error.injEq] at h
      rw [he, h] at h2
      exact h2 rfl
    · simp

theorem beVal_four (a b c d : Byte) :
    beVal [a, b, c, d] = a.val * 2 ^ 24 + b.val * 2 ^ 16 + c.val * 2 ^ 8 + d.val := by
  simp only [beVal, List.reverse_cons, List.reverse_nil, List.nil_append, List.singleton_append,
    List.cons_append, leVal]
  omega

/-- C5. Version check of `readMessageBegin`. Let the four bytes at the read
pointer decode to a negative 32-bit word `w` (its unsigned pattern is
`beVal w4`). The call throws BAD_VERSION exactly when the top 16 bits of `w`
differ from 0x8001; it then has consumed the word only and has assigned no
output, whatever follows the word, nothing included. When the top 16 bits are
0x8001 and a length-prefixed name and a 4-byte sequence id follow, the call
returns `12 + |name|` and the kind `w & 0xFF`, the low byte of the word. A
header 80 02 .. .. throws BAD_VERSION and a header 80 01 .. .. followed by a
name and a sequence id is read. -/
theorem version_check (host : ByteOrder) (p : Protocol) (hb : Bound p) (n0 : List Byte)
    (m0 : TMessageType) (s0 : Int) :
    (∀ w4 tl : List Byte, w4.length = 4 → rest p = w4 ++ tl → toSigned 32 (beVal w4) < 0 →
      ((readMessageBegin host p n0 m0 s0).ret = .error .BAD_VERSION ↔
        beVal w4 / 2 ^ 16 ≠ 0x8001) ∧
      (beVal w4 / 2 ^ 16 ≠ 0x8001 →
        readMessageBegin host p n0 m0 s0 = ⟨.error .BAD_VERSION, (n0, m0, s0), advance p 4⟩) ∧
      (beVal w4 / 2 ^ 16 = 0x8001 → ∀ name s4 tl2 : List Byte, name.length ≤ 2 ^ 31 - 1 →
        s4.length = 4 → tl = beBytes 4 name.length ++ (name ++ (s4 ++ tl2)) →
        readMessageBegin host p n0 m0 s0 =
          ⟨.ok (12 + name.length),
            (name, and32 (toSigned 32 (beVal w4)) 0xFF, toSigned 32 (beVal s4)),
            advance p (12 + name.length)⟩ ∧
        and32 (toSigned 32 (beVal w4)) 0xFF = ((beVal w4 % 256 : Nat) : Int))) ∧
    (∀ (a b : Byte) (tl : List Byte), rest p = [0x80, 0x02, a, b] ++ tl →
      readMessageBegin host p n0 m0 s0 = ⟨.error .BAD_VERSION, (n0, m0, s0), advance p 4⟩) ∧
    (∀ (a b : Byte) (name s4 tl : List Byte), name.length ≤ 2 ^ 31 - 1 → s4.length = 4 →
      rest p = [0x80, 0x01, a, b] ++ (beBytes 4 name.length ++ (name ++ (s4 ++ tl))) →
      readMessageBegin host p n0 m0 s0 =
        ⟨.ok (12 + name.length), (name, (b.val : Int), toSigned 32 (beVal s4)),
          advance p (12 + name.length)⟩) := by
  refine ⟨?_, ?_, ?_⟩
  · intro w4 tl hw4 hr hneg
    have hu := beVal_lt_32 w4 hw4
    refine ⟨⟨?_, ?_⟩, ?_, ?_⟩
    · intro hbad hver
      exact readMessageBegin_version_ok_not_bad host p hb w4 tl hw4 hver hr n0 m0 s0 hbad
    · intro hver
      rw [readMessageBegin_bad_version host p hb w4 tl hw4 hneg hver hr]
    · intro hver
      exact readMessageBegin_bad_version host p hb w4 tl hw4 hneg hver hr n0 m0 s0
    · intro hver name s4 tl2 hn hs4 htl
      rw [htl] at hr
      rw [readMessageBegin_versioned host p hb w4 name s4 tl2 hw4 hs4 hver (by omega) hr,
        kind_of_word _ hu]
      exact ⟨rfl, rfl⟩
  · intro a b tl hr
    have ha := a.isLt
    have hb2 := b.isLt
    have hv := beVal_four 0x80 0x02 a b
    have hval : beVal [0x80, 0x02, a, b] = 0x8002 * 2 ^ 16 + a.val * 2 ^ 8 + b.val := by
      rw [hv]; rfl
    have hu := beVal_lt_32 [0x80, 0x02, a, b] rfl
    exact readMessageBegin_bad_version host p hb [0x80, 0x02, a, b] tl rfl
      (by rw [toSigned_neg_iff_32 _ hu, hval]; omega) (by rw [hval]; omega) hr n0 m0 s0
  · intro a b name s4 tl hn hs4 hr
    have ha := a.isLt
    have hb2 := b.isLt
    have hv := beVal_four 0x80 0x01 a b
    have hval : beVal [0x80, 0x01, a, b] = 0x8001 * 2 ^ 16 + a.val * 2 ^ 8 + b.val := by
      rw [hv]; rfl
    rw [readMessageBegin_versioned host p hb [0x80, 0x01, a, b] name s4 tl rfl hs4 (by rw [hval]; omega)
      (by omega) hr]
    have hk : beVal [0x80, 0x01, a, b] % 256 = b.val := by rw [hval]; omega
    rw [hk]

theorem version_check_witness :
    readMessageBegin .LITTLE_ENDIAN (boundTo [0x80, 0x02, 0x00, 0x01]) [] 0 0 =
      ⟨.error .BAD_VERSION, ([], 0, 0), advance (boundTo [0x80, 0x02, 0x00, 0x01]) 4⟩ ∧
    readMessageBegin .LITTLE_ENDIAN
        (boundTo [0x80, 0x01, 0xAB, 0x02, 0, 0, 0, 1, 0x41, 0, 0, 0, 7]) [] 0 0 =
      ⟨.ok 13, ([0x41], 2, 7),
        advance (boundTo [0x80, 0x01, 0xAB, 0x02, 0, 0, 0, 1, 0x41, 0, 0, 0, 7]) 13⟩ :=
  ⟨(version_check .LITTLE_ENDIAN (boundTo [0x80, 0x02, 0x00, 0x01])
      (Bound_boundTo _ (by decide)).1 [] 0 0).2.1 0x00 0x01 []
      (Bound_boundTo _ (by decide)).2.1,
   (version_check .LITTLE_ENDIAN (boundTo [0x80, 0x01, 0xAB, 0x02, 0, 0, 0, 1, 0x41, 0, 0, 0, 7])
      (Bound_boundTo _ (by decide)).1 [] 0 0).2.2 0xAB 0x02 [0x41] [0, 0, 0, 7] []
      (by decide) rfl (Bound_boundTo _ (by decide)).2.1⟩

/-! ## The legacy envelope -/

theorem readMessageBegin_legacy (host : ByteOrder) (p : Protocol) (hb : Bound p)
    (name s4 tl : List Byte) (c : Byte) (hn : name.length < 2 ^ 31) (hs4 : s4.length = 4)
    (hr : rest p = beBytes 4 name.length ++ (name ++ (c :: (s4 ++ tl))))
    (n0 : List Byte) (m0 : TMessageType) (s0 : Int) :
    readMessageBegin host p n0 m0 s0 =
      ⟨.ok (name.length + 9), (name, toSigned 8 c.val, toSigned 32 (beVal s4)),
        advance p (name.length + 9)⟩ := by
  have hpos : (name.length : Int) ≥ 0 := by omega
  have hs1 := step p hb _ _ hr
  rw [length_beBytes] at hs1
  simp only [Nat.cast_ofNat] at hs1
  have hbody := readStringBody_append _ hs1.2.1 name (c :: (s4 ++ tl)) hs1.2.2.1 (by omega) n0
  have hs2 := step _ hs1.2.1 _ _ hs1.2.2.1
  rw [advance_advance] at hs2
  have hbyte := readByte_cons _ hs2.2.1 c (s4 ++ tl) hs2.2.2.1 0
  have hs3 := step _ hs2.2.1 [c] (s4 ++ tl) hs2.2.2.1
  simp only [List.length_singleton, Nat.cast_one, advance_advance] at hs3
  have hi := readI32_append host _ hs3.2.1 s4 tl hs3.2.2.1 hs4 s0
  have hc1 : u32 (4 + name.length) = 4 + name.length := Nat.mod_eq_of_lt (by omega)
  have hc2 : u32 (4 + name.length + 1) = 4 + name.length + 1 := Nat.mod_eq_of_lt (by omega)
  have hc3 : u32 (4 + name.length + 1 + 4) = name.length + 9 := by
    rw [u32, Nat.mod_eq_of_lt (by omega)]; omega
  have ha : (4 : Int) + (name.length : Int) + 1 + 4 = name.length + 9 := by ring
  simp only [readMessageBegin, readI32_append host p hb _ _ hr (length_beBytes 4 _), hpos,
    if_true, toSigned_beVal_beBytes_nat _ hn, hbody, advance_advance, hbyte, hi, hc1, hc2, hc3,
    ha]

/-- A region that starts with a non-negative word counting `2^31 - 4` bytes or
more announces a legacy name longer than any `int` length of the region:
`readMessageBegin` throws INVALID_DATA whatever length the read side is bound with. -/
theorem readMessageBegin_legacy_over_int (host : ByteOrder) (n : Nat) (tl : List Byte)
    (hlo : 2 ^ 31 - 4 ≤ n) (hhi : n < 2 ^ 31) (len : Int) (hlen : len ≤ INT_MAX)
    (p0 : Protocol) (w n0 : List Byte) (m0 : TMessageType) (s0 : Int) :
    (readMessageBegin host (setBuffer p0 (beBytes 4 n ++ tl) len w) n0 m0 s0).ret =
      .error .INVALID_DATA := by
  generalize hq : setBuffer p0 (beBytes 4 n ++ tl) len w = q
  have hq1 : q.read_buffer_len_ = len := by rw [← hq]; rfl
  have hq2 : q.read_buffer_ = 0 := by rw [← hq]; rfl
  have hq3 : q.read_region = beBytes 4 n ++ tl := by rw [← hq]; rfl
  simp only [INT_MAX] at hlen
  by_cases h4 : len < 4
  · simp only [readMessageBegin, readI32_short host q (by omega)]
  · have hl1 : load q q.read_buffer_ 4 = some (beBytes 4 n) := by
      have := load_prefix q [] (beBytes 4 n) tl q.read_buffer_ (by simp [hq2])
        (by simpa using hq3)
      rwa [length_beBytes] at this
    have hr1 := readI32_of_load host q _ (by omega) hl1 (length_beBytes 4 n) 0
    rw [toSigned_beVal_beBytes_nat _ hhi] at hr1
    have hge : (n : Int) ≥ 0 := by omega
    have hpos : (n : Int) > 0 := by omega
    have hf : readBuffer (advance q 4) (n : Int) = (.error .INVALID_DATA, advance q 4) :=
      readBuffer_fail _ _ (by simp only [advance, hq1]; omega)
    simp only [readMessageBegin, hr1, hge, if_true, readStringBody, hpos, hf]

/-- C6, as amended. Legacy (unversioned) message decode: for every name of
`n` bytes with `n + 9 ≤ 2^31 - 1` (the region fits the `int` length of the
read side), every kind byte, taken as the `int8_t` it is read into, and every
32-bit sequence id, `readMessageBegin` on a cursor bound to the big-endian
`n`, the name, the kind byte and the big-endian sequence id returns `n + 9`,
gives that name, kind and sequence id, and leaves no byte; with `n = 0` the
name given is the empty string whatever the output held before. -/
theorem legacy_message_decode (host : ByteOrder) (name : List Byte) (kind seqid : Int)
    (hfit : (name.length : Int) + 9 ≤ INT_MAX) (hk1 : -2 ^ 7 ≤ kind) (hk2 : kind < 2 ^ 7)
    (h1 : -2 ^ 31 ≤ seqid) (h2 : seqid < 2 ^ 31) (n0 : List Byte) (m0 : TMessageType)
    (s0 : Int) :
    (readMessageBegin host
        (boundTo (beBytes 4 name.length ++
          (name ++ (Byte.ofNat (toUnsigned 8 kind) :: beBytes 4 (toUnsigned 32 seqid)))))
        n0 m0 s0).yields (name.length + 9) (name, kind, seqid) ∧
    (readMessageBegin host
        (boundTo (beBytes 4 0 ++
          ([] ++ (Byte.ofNat (toUnsigned 8 kind) :: beBytes 4 (toUnsigned 32 seqid)))))
        n0 m0 s0).yields 9 ([], kind, seqid) := by
  have key : ∀ t : List Byte, (t.length : Int) + 9 ≤ INT_MAX →
      (readMessageBegin host
        (boundTo (beBytes 4 t.length ++
          (t ++ (Byte.ofNat (toUnsigned 8 kind) :: beBytes 4 (toUnsigned 32 seqid)))))
        n0 m0 s0).yields (t.length + 9) (t, kind, seqid) := by
    intro t ht
    have htl : t.length < 2 ^ 31 := by simp only [INT_MAX] at ht; omega
    have hlen : (((beBytes 4 t.length ++ (t ++ (Byte.ofNat (toUnsigned 8 kind) ::
        beBytes 4 (toUnsigned 32 seqid)))).length : Nat) : Int) = t.length + 9 := by
      simp only [List.length_append, List.length_cons, length_beBytes]; push_cast; ring
    obtain ⟨hb, hrest, -, -⟩ := Bound_boundTo _ (le_of_eq_of_le hlen ht)
    have hd := boundTo_done _ (le_of_eq_of_le hlen ht)
    rw [hlen] at hd
    rw [Res.yields, readMessageBegin_legacy host _ hb t (beBytes 4 (toUnsigned 32 seqid)) []
      (Byte.ofNat (toUnsigned 8 kind)) htl (length_beBytes 4 _) (by simpa using hrest)]
    dsimp only
    rw [toSigned_ofNat_toUnsigned_1 kind hk1 hk2, toSigned_beVal_beBytes_4 seqid h1 h2]
    exact ⟨rfl, rfl, hd.1, hd.2⟩
  exact ⟨key name hfit, key [] (by simp [INT_MAX])⟩

theorem legacy_message_decode_witness :
    (readMessageBegin .LITTLE_ENDIAN
        (boundTo (beBytes 4 ([0x41, 0x42] : List Byte).length ++
          ([0x41, 0x42] ++ (Byte.ofNat (toUnsigned 8 (-1)) :: beBytes 4 (toUnsigned 32 (-2))))))
        [] 0 0).yields (([0x41, 0x42] : List Byte).length + 9) ([0x41, 0x42], -1, -2) ∧
    beBytes 4 ([0x41, 0x42] : List Byte).length ++
        ([0x41, 0x42] ++ (Byte.ofNat (toUnsigned 8 (-1)) :: beBytes 4 (toUnsigned 32 (-2)))) =
      [0, 0, 0, 2, 0x41, 0x42, 0xFF, 0xFF, 0xFF, 0xFF, 0xFE] :=
  ⟨(legacy_message_decode .LITTLE_ENDIAN [0x41, 0x42] (-1) (-2) (by decide) (by norm_num)
      (by norm_num) (by norm_num) (by norm_num) [] 0 0).1, by decide⟩

theorem readMessageBegin_legacy_int_limit (name : List Byte) (hl : name.length = 2 ^ 31 - 1) :
    name.length ≤ 2 ^ 31 - 1 ∧
    (∀ host : ByteOrder,
      (readMessageBegin host (boundTo (beBytes 4 name.length ++
        (name ++ (Byte.ofNat (toUnsigned 8 1) :: beBytes 4 (toUnsigned 32 7))))) [] 0 0).ret =
        .error .INVALID_DATA) ∧
    (∀ host : ByteOrder, ¬ ∃ len : Int, len ≤ INT_MAX ∧ ∃ n : Nat,
      (readMessageBegin host (setBuffer Protocol.new (beBytes 4 name.length ++
        (name ++ (Byte.ofNat (toUnsigned 8 1) :: beBytes 4 (toUnsigned 32 7)))) len [])
        [] 0 0).ret = .ok n) := by
  refine ⟨by omega, ?_, ?_⟩
  · intro host
    exact readMessageBegin_legacy_over_int host name.length _ (by omega) (by omega) _
      (castSigned_32_le _) _ _ _ _ _
  · intro host ⟨len, hlen, n, hn⟩
    rw [readMessageBegin_legacy_over_int host name.length _ (by omega) (by omega) len hlen] at hn
    cases hn

/-- C6, as stated, fails at `n = 2^31 - 1` (a name of `2^31 - 1` zero bytes,
kind byte 1, sequence id 7). The region has `2^31 + 8` bytes, more than an
`int` can count: `readMessageBegin` on the cursor bound to it throws
INVALID_DATA, and so it does whatever `int` length the read side is bound with. -/
theorem legacy_message_decode_int_limit :
    (List.replicate (2 ^ 31 - 1) (0 : Byte)).length ≤ 2 ^ 31 - 1 ∧
    (∀ host : ByteOrder,
      (readMessageBegin host (boundTo (beBytes 4 (List.replicate (2 ^ 31 - 1) (0 : Byte)).length ++
        (List.replicate (2 ^ 31 - 1) (0 : Byte) ++
          (Byte.ofNat (toUnsigned 8 1) :: beBytes 4 (toUnsigned 32 7))))) [] 0 0).ret =
        .error .INVALID_DATA) ∧
    (∀ host : ByteOrder, ¬ ∃ len : Int, len ≤ INT_MAX ∧ ∃ n : Nat,
      (readMessageBegin host (setBuffer Protocol.new
        (beBytes 4 (List.replicate (2 ^ 31 - 1) (0 : Byte)).length ++
          (List.replicate (2 ^ 31 - 1) (0 : Byte) ++
            (Byte.ofNat (toUnsigned 8 1) :: beBytes 4 (toUnsigned 32 7)))) len [])
        [] 0 0).ret = .ok n) :=
  readMessageBegin_legacy_int_limit (List.replicate (2 ^ 31 - 1) (0 : Byte))
    (List.length_replicate _ _)

/-! ## Negative lengths and counts -/

theorem readString_negative (host : ByteOrder) (p : Protocol) (hb : Bound p) (b4 tl : List Byte)
    (hb4 : b4.length = 4) (hr : rest p = b4 ++ tl) (hneg : toSigned 32 (beVal b4) < 0)
    (str : List Byte) :
    readString host p str = ⟨.error .NEGATIVE_SIZE, str, advance p 4⟩ := by
  have h1 : ¬ toSigned 32 (beVal b4) > 0 := by omega
  simp only [readString, readI32_append host p hb b4 tl hr hb4, readStringBody, h1, hneg,
    if_true, if_false]

/-- C7. A negative string length is rejected. When the four bytes at the read
pointer decode to a negative 32-bit length, `readString` and `readBinary`
throw NEGATIVE_SIZE whatever bytes follow; the state they leave is the one
with the read pointer moved on by 4 and `read_buffer_len_` lowered by 4, and
the output string holds what it held before. In particular for the length
bytes FF FF FF FF. -/
theorem negative_string_length (host : ByteOrder) (p : Protocol) (hb : Bound p)
    (str : List Byte) :
    (∀ b4 tl : List Byte, b4.length = 4 → rest p = b4 ++ tl → toSigned 32 (beVal b4) < 0 →
      readString host p str = ⟨.error .NEGATIVE_SIZE, str, advance p 4⟩ ∧
      readBinary host p str = ⟨.error .NEGATIVE_SIZE, str, advance p 4⟩ ∧
      (advance p 4).read_buffer_ = p.read_buffer_ + 4 ∧
      (advance p 4).read_buffer_len_ = p.read_buffer_len_ - 4) ∧
    (∀ tl : List Byte, rest p = [0xFF, 0xFF, 0xFF, 0xFF] ++ tl →
      readString host p str = ⟨.error .NEGATIVE_SIZE, str, advance p 4⟩ ∧
      readBinary host p str = ⟨.error .NEGATIVE_SIZE, str, advance p 4⟩) := by
  constructor
  · intro b4 tl hb4 hr hneg
    exact ⟨readString_negative host p hb b4 tl hb4 hr hneg str,
      readString_negative host p hb b4 tl hb4 hr hneg str, rfl, rfl⟩
  · intro tl hr
    have hneg : toSigned 32 (beVal [0xFF, 0xFF, 0xFF, 0xFF]) < 0 := by decide
    exact ⟨readString_negative host p hb [0xFF, 0xFF, 0xFF, 0xFF] tl rfl hr hneg str,
      readString_negative host p hb [0xFF, 0xFF, 0xFF, 0xFF] tl rfl hr hneg str⟩

theorem negative_string_length_witness :
    readString .LITTLE_ENDIAN (boundTo [0xFF, 0xFF, 0xFF, 0xFF, 0x41, 0x42]) [0x09] =
      ⟨.error .NEGATIVE_SIZE, [0x09], advance (boundTo [0xFF, 0xFF, 0xFF, 0xFF, 0x41, 0x42]) 4⟩ ∧
    readString .BIG_ENDIAN (boundTo [0x80, 0x00, 0x00, 0x00]) [0x09] =
      ⟨.error .NEGATIVE_SIZE, [0x09], advance (boundTo [0x80, 0x00, 0x00, 0x00]) 4⟩ :=
  ⟨((negative_string_length .LITTLE_ENDIAN (boundTo [0xFF, 0xFF, 0xFF, 0xFF, 0x41, 0x42])
      (Bound_boundTo _ (by decide)).1 [0x09]).2 [0x41, 0x42]
      (Bound_boundTo _ (by decide)).2.1).1,
   ((negative_string_length .BIG_ENDIAN (boundTo [0x80, 0x00, 0x00, 0x00])
      (Bound_boundTo _ (by decide)).1 [0x09]).1 [0x80, 0x00, 0x00, 0x00] [] rfl
      (Bound_boundTo _ (by decide)).2.1 (by decide)).1⟩

theorem toUnsigned_toSigned_32 (u : Nat) (hu : u < 2 ^ 32) :
    toUnsigned 32 (toSigned 32 u) = u := by
  rw [toUnsigned_toSigned, Nat.mod_eq_of_lt hu]

theorem readMapBegin_header (host : ByteOrder) (p : Protocol) (hb : Bound p) (k v : Byte)
    (b4 tl : List Byte) (hb4 : b4.length = 4) (hr : rest p = k :: v :: (b4 ++ tl))
    (k0 v0 : TType) (size0 : Nat) :
    readMapBegin host p k0 v0 size0 =
      if toSigned 32 (beVal b4) ≥ 0 then
        ⟨.ok 6, (toSigned 8 k.val, toSigned 8 v.val, beVal b4), advance p 6⟩
      else
        ⟨.error .NEGATIVE_SIZE, (toSigned 8 k.val, toSigned 8 v.val, size0), advance p 6⟩ := by
  have hs1 := step p hb [k] _ hr
  simp only [List.length_singleton, Nat.cast_one, List.singleton_append] at hs1
  have hr2 : rest (advance p 1) = v :: (b4 ++ tl) := hs1.2.2.1
  have hs2 := step _ hs1.2.1 [v] _ hr2
  simp only [List.length_singleton, Nat.cast_one, advance_advance] at hs2
  have hi := readI32_append host _ hs2.2.1 b4 tl hs2.2.2.1 hb4 0
  have hu := toUnsigned_toSigned_32 _ (beVal_lt_32 b4 hb4)
  simp only [readMapBegin, readByte_cons p hb k _ hr, readByte_cons _ hs1.2.1 v _ hr2,
    advance_advance, hi, hu]
  norm_num [u32]

theorem readListBegin_header (host : ByteOrder) (p : Protocol) (hb : Bound p) (e : Byte)
    (b4 tl : List Byte) (hb4 : b4.length = 4) (hr : rest p = e :: (b4 ++ tl))
    (e0 : TType) (size0 : Nat) :
    readListBegin host p e0 size0 =
      if toSigned 32 (beVal b4) ≥ 0 then
        ⟨.ok 5, (toSigned 8 e.val, beVal b4), advance p 5⟩
      else
        ⟨.error .NEGATIVE_SIZE, (toSigned 8 e.val, size0), advance p 5⟩ := by
  have hs1 := step p hb [e] _ hr
  simp only [List.length_singleton, Nat.cast_one, List.singleton_append] at hs1
  have hi := readI32_append host _ hs1.2.1 b4 tl hs1.2.2.1 hb4 0
  have hu := toUnsigned_toSigned_32 _ (beVal_lt_32 b4 hb4)
  simp only [readListBegin, readByte_cons p hb e _ hr, advance_advance, hi, hu]
  norm_num [u32]

theorem readSetBegin_header (host : ByteOrder) (p : Protocol) (hb : Bound p) (e : Byte)
    (b4 tl : List Byte) (hb4 : b4.length = 4) (hr : rest p = e :: (b4 ++ tl))
    (e0 : TType) (size0 : Nat) :
    readSetBegin host p e0 size0 =
      if toSigned 32 (beVal b4) ≥ 0 then
        ⟨.ok 5, (toSigned 8 e.val, beVal b4), advance p 5⟩
      else
        ⟨.error .NEGATIVE_SIZE, (toSigned 8 e.val, size0), advance p 5⟩ := by
  have hs1 := step p hb [e] _ hr
  simp only [List.length_singleton, Nat.cast_one, List.singleton_append] at hs1
  have hi := readI32_append host _ hs1.2.1 b4 tl hs1.2.2.1 hb4 0
  have hu := toUnsigned_toSigned_32 _ (beVal_lt_32 b4 hb4)
  simp only [readSetBegin, readByte_cons p hb e _ hr, advance_advance, hi, hu]
  norm_num [u32]

theorem toSigned_nonneg_eq (u : Nat) (hu : u < 2 ^ 32) (h : toSigned 32 u ≥ 0) :
    toSigned 32 u = (u : Int) := by
  have hlt : u < 2 ^ 31 := by
    by_contra hc
    have := (toSigned_neg_iff_32 u hu).mpr (by omega)
    omega
  exact toSigned_natCast_32 u hlt

/-- C8. A negative collection count is rejected. With the header at the read
pointer (tag bytes, then four bytes of count; 6 bytes for a map, 5 for a list or
a set), `readMapBegin`, `readListBegin` and `readSetBegin` throw NEGATIVE_SIZE
exactly when the count decodes to a negative 32-bit value. On that failure the
count output keeps the value it had and the state is the one with the header
consumed and nothing more. When the count is not negative they return 6
(map) or 5 (list, set) and give the decoded count itself as the unsigned count. -/
theorem negative_collection_count (host : ByteOrder) (p : Protocol) (hb : Bound p)
    (k0 v0 : TType) (size0 : Nat) :
    (∀ (k v : Byte) (b4 tl : List Byte), b4.length = 4 → rest p = k :: v :: (b4 ++ tl) →
      ((readMapBegin host p k0 v0 size0).ret = .error .NEGATIVE_SIZE ↔
        toSigned 32 (beVal b4) < 0) ∧
      (toSigned 32 (beVal b4) < 0 →
        readMapBegin host p k0 v0 size0 =
          ⟨.error .NEGATIVE_SIZE, (toSigned 8 k.val, toSigned 8 v.val, size0), advance p 6⟩) ∧
      (toSigned 32 (beVal b4) ≥ 0 →
        readMapBegin host p k0 v0 size0 =
          ⟨.ok 6, (toSigned 8 k.val, toSigned 8 v.val, beVal b4), advance p 6⟩ ∧
        ((beVal b4 : Nat) : Int) = toSigned 32 (beVal b4))) ∧
    (∀ (e : Byte) (b4 tl : List Byte), b4.length = 4 → rest p = e :: (b4 ++ tl) →
      ((readListBegin host p k0 size0).ret = .error .NEGATIVE_SIZE ↔
        toSigned 32 (beVal b4) < 0) ∧
      (toSigned 32 (beVal b4) < 0 →
        readListBegin host p k0 size0 =
          ⟨.error .NEGATIVE_SIZE, (toSigned 8 e.val, size0), advance p 5⟩) ∧
      (toSigned 32 (beVal b4) ≥ 0 →
        readListBegin host p k0 size0 = ⟨.ok 5, (toSigned 8 e.val, beVal b4), advance p 5⟩ ∧
        ((beVal b4 : Nat) : Int) = toSigned 32 (beVal b4))) ∧
    (∀ (e : Byte) (b4 tl : List Byte), b4.length = 4 → rest p = e :: (b4 ++ tl) →
      ((readSetBegin host p k0 size0).ret = .error .NEGATIVE_SIZE ↔
        toSigned 32 (beVal b4) < 0) ∧
      (toSigned 32 (beVal b4) < 0 →
        readSetBegin host p k0 size0 =
          ⟨.error .NEGATIVE_SIZE, (toSigned 8 e.val, size0), advance p 5⟩) ∧
      (toSigned 32 (beVal b4) ≥ 0 →
        readSetBegin host p k0 size0 = ⟨.ok 5, (toSigned 8 e.val, beVal b4), advance p 5⟩ ∧
        ((beVal b4 : Nat) : Int) = toSigned 32 (beVal b4))) := by
  refine ⟨?_, ?_, ?_⟩
  · intro k v b4 tl hb4 hr
    have h := readMapBegin_header host p hb k v b4 tl hb4 hr k0 v0 size0
    have hu := beVal_lt_32 b4 hb4
    by_cases hs : toSigned 32 (beVal b4) ≥ 0
    · rw [if_pos hs] at h
      refine ⟨?_, fun hn => absurd hs (by omega), fun _ => ⟨h, (toSigned_nonneg_eq _ hu hs).symm⟩⟩
      rw [h]
      constructor
      · intro hc; cases hc
      · intro hn; omega
    · rw [if_neg hs] at h
      refine ⟨?_, fun _ => h, fun hn => absurd hn hs⟩
      rw [h]
      exact ⟨fun _ => by omega, fun _ => rfl⟩
  · intro e b4 tl hb4 hr
    have h := readListBegin_header host p hb e b4 tl hb4 hr k0 size0
    have hu := beVal_lt_32 b4 hb4
    by_cases hs : toSigned 32 (beVal b4) ≥ 0
    · rw [if_pos hs] at h
      refine ⟨?_, fun hn => absurd hs (by omega), fun _ => ⟨h, (toSigned_nonneg_eq _ hu hs).symm⟩⟩
      rw [h]
      constructor
      · intro hc; cases hc
      · intro hn; omega
    · rw [if_neg hs] at h
      refine ⟨?_, fun _ => h, fun hn => absurd hn hs⟩
      rw [h]
      exact ⟨fun _ => by omega, fun _ => rfl⟩
  · intro e b4 tl hb4 hr
    have h := readSetBegin_header host p hb e b4 tl hb4 hr k0 size0
    have hu := beVal_lt_32 b4 hb4
    by_cases hs : toSigned 32 (beVal b4) ≥ 0
    · rw [if_pos hs] at h
      refine ⟨?_, fun hn => absurd hs (by omega), fun _ => ⟨h, (toSigned_nonneg_eq _ hu hs).symm⟩⟩
      rw [h]
      constructor
      · intro hc; cases hc
      · intro hn; omega
    · rw [if_neg hs] at h
      refine ⟨?_, fun _ => h, fun hn => absurd hn hs⟩
      rw [h]
      exact ⟨fun _ => by omega, fun _ => rfl⟩

theorem negative_collection_count_witness :
    readMapBegin .LITTLE_ENDIAN (boundTo [0x0B, 0x08, 0xFF, 0xFF, 0xFF, 0xFF, 0x41]) 0 0 77 =
      ⟨.error .NEGATIVE_SIZE, (11, 8, 77),
        advance (boundTo [0x0B, 0x08, 0xFF, 0xFF, 0xFF, 0xFF, 0x41]) 6⟩ ∧
    readListBegin .LITTLE_ENDIAN (boundTo [0x08, 0x00, 0x00, 0x01, 0x02]) 0 77 =
      ⟨.ok 5, (8, 258), advance (boundTo [0x08, 0x00, 0x00, 0x01, 0x02]) 5⟩ ∧
    readSetBegin .BIG_ENDIAN (boundTo [0x08, 0x80, 0x00, 0x00, 0x00]) 0 77 =
      ⟨.error .NEGATIVE_SIZE, (8, 77), advance (boundTo [0x08, 0x80, 0x00, 0x00, 0x00]) 5⟩ :=
  ⟨((negative_collection_count .LITTLE_ENDIAN
      (boundTo [0x0B, 0x08, 0xFF, 0xFF, 0xFF, 0xFF, 0x41]) (Bound_boundTo _ (by decide)).1
      0 0 77).1 0x0B 0x08 [0xFF, 0xFF, 0xFF, 0xFF] [0x41] rfl
      (Bound_boundTo _ (by decide)).2.1).2.1 (by decide),
   (((negative_collection_count .LITTLE_ENDIAN
      (boundTo [0x08, 0x00, 0x00, 0x01, 0x02]) (Bound_boundTo _ (by decide)).1
      0 0 77).2.1 0x08 [0x00, 0x00, 0x01, 0x02] [] rfl
      (Bound_boundTo _ (by decide)).2.1).2.2 (by decide)).1,
   ((negative_collection_count .BIG_ENDIAN
      (boundTo [0x08, 0x80, 0x00, 0x00, 0x00]) (Bound_boundTo _ (by decide)).1
      0 0 77).2.2 0x08 [0x80, 0x00, 0x00, 0x00] [] rfl
      (Bound_boundTo _ (by decide)).2.1).2.1 (by decide)⟩

/-! ## Collection and field headers -/

theorem toUnsigned_castSigned_8 (t : Int) : toUnsigned 8 (castSigned 8 t) = toUnsigned 8 t := by
  rw [castSigned, toUnsigned_toSigned, Nat.mod_eq_of_lt (toUnsigned_lt 8 t)]

theorem beBytes_toSigned_32 (n : Nat) :
    beBytes 4 (toUnsigned 32 (toSigned 32 n)) = beBytes 4 n := by
  rw [toUnsigned_toSigned, show (2 : Nat) ^ 32 = 256 ^ 4 by norm_num, beBytes_mod]

theorem writeMapBegin_layout (host : ByteOrder) (p : Protocol) (k v : TType) (n : Nat) :
    writeMapBegin host p k v n =
      ({ p with write_buffer_ := p.write_buffer_ ++
          (Byte.ofNat (toUnsigned 8 k) :: Byte.ofNat (toUnsigned 8 v) :: beBytes 4 n) }, 6) := by
  simp only [writeMapBegin, writeByte_eq, writeI32_eq, toUnsigned_castSigned_8,
    beBytes_toSigned_32, List.append_assoc, List.singleton_append]
  norm_num [u32]

theorem writeListBegin_layout (host : ByteOrder) (p : Protocol) (e : TType) (n : Nat) :
    writeListBegin host p e n =
      ({ p with write_buffer_ := p.write_buffer_ ++
          (Byte.ofNat (toUnsigned 8 e) :: beBytes 4 n) }, 5) := by
  simp only [writeListBegin, writeByte_eq, writeI32_eq, toUnsigned_castSigned_8,
    beBytes_toSigned_32, List.append_assoc, List.singleton_append]
  norm_num [u32]

theorem writeSetBegin_layout (host : ByteOrder) (p : Protocol) (e : TType) (n : Nat) :
    writeSetBegin host p e n =
      ({ p with write_buffer_ := p.write_buffer_ ++
          (Byte.ofNat (toUnsigned 8 e) :: beBytes 4 n) }, 5) := by
  simp only [writeSetBegin, writeByte_eq, writeI32_eq, toUnsigned_castSigned_8,
    beBytes_toSigned_32, List.append_assoc, List.singleton_append]
  norm_num [u32]

/-- C9. Collection header round trip. For all tags `k`, `v`, `e` with 8-bit
(`int8_t`) values and every count `n ≤ 2^31 - 1`: `writeMapBegin` appends
exactly the 6 bytes `k`, `v`, big-endian `n` and returns 6, and `readMapBegin`
on a cursor bound to the bytes written to an empty sink returns 6, gives
`(k, v, n)` and leaves no byte; `writeListBegin` and `writeSetBegin` append
exactly the 5 bytes `e`, big-endian `n` and return 5, and `readListBegin` and
`readSetBegin` give back `(e, n)` with no byte left. -/
theorem collection_header_round_trip (hw hr : ByteOrder) (k v e : TType) (n : Nat)
    (hk1 : -2 ^ 7 ≤ k) (hk2 : k < 2 ^ 7) (hv1 : -2 ^ 7 ≤ v) (hv2 : v < 2 ^ 7)
    (he1 : -2 ^ 7 ≤ e) (he2 : e < 2 ^ 7) (hn : n ≤ 2 ^ 31 - 1) :
    (∀ q : Protocol, writeMapBegin hw q k v n =
      ({ q with write_buffer_ := q.write_buffer_ ++
          (Byte.ofNat (toUnsigned 8 k) :: Byte.ofNat (toUnsigned 8 v) :: beBytes 4 n) }, 6)) ∧
    (∀ q : Protocol, writeListBegin hw q e n =
      ({ q with write_buffer_ := q.write_buffer_ ++
          (Byte.ofNat (toUnsigned 8 e) :: beBytes 4 n) }, 5)) ∧
    (∀ q : Protocol, writeSetBegin hw q e n =
      ({ q with write_buffer_ := q.write_buffer_ ++
          (Byte.ofNat (toUnsigned 8 e) :: beBytes 4 n) }, 5)) ∧
    (∀ (p : Protocol) (k0 v0 : TType) (size0 : Nat), p.write_buffer_ = [] →
      (readMapBegin hr (boundTo (writeMapBegin hw p k v n).1.write_buffer_)
        k0 v0 size0).yields 6 (k, v, n)) ∧
    (∀ (p : Protocol) (e0 : TType) (size0 : Nat), p.write_buffer_ = [] →
      (readListBegin hr (boundTo (writeListBegin hw p e n).1.write_buffer_)
        e0 size0).yields 5 (e, n)) ∧
    (∀ (p : Protocol) (e0 : TType) (size0 : Nat), p.write_buffer_ = [] →
      (readSetBegin hr (boundTo (writeSetBegin hw p e n).1.write_buffer_)
        e0 size0).yields 5 (e, n)) := by
  have hcnt : beVal (beBytes 4 n) = n := by
    rw [beVal_beBytes, Nat.mod_eq_of_lt (by omega)]
  have hpos : toSigned 32 (beVal (beBytes 4 n)) ≥ 0 := by
    rw [toSigned_beVal_beBytes_nat n (by omega)]; omega
  refine ⟨fun q => writeMapBegin_layout hw q k v n, fun q => writeListBegin_layout hw q e n,
    fun q => writeSetBegin_layout hw q e n, ?_, ?_, ?_⟩
  · intro p k0 v0 size0 hp
    rw [writeMapBegin_layout]
    simp only [hp, List.nil_append]
    have hlen : (((Byte.ofNat (toUnsigned 8 k) :: Byte.ofNat (toUnsigned 8 v) ::
        beBytes 4 n).length : Nat) : Int) = 6 := by
      simp [length_beBytes]
    obtain ⟨hb, hrest, -, -⟩ := Bound_boundTo _ (le_of_eq_of_le hlen (by decide))
    have hd := boundTo_done _ (le_of_eq_of_le hlen (by decide))
    rw [hlen] at hd
    rw [Res.yields, readMapBegin_header hr _ hb _ _ (beBytes 4 n) [] (length_beBytes 4 n)
      (by simpa using hrest), if_pos hpos]
    dsimp only
    rw [toSigned_ofNat_toUnsigned_1 k hk1 hk2, toSigned_ofNat_toUnsigned_1 v hv1 hv2, hcnt]
    exact ⟨rfl, rfl, hd.1, hd.2⟩
  · intro p e0 size0 hp
    rw [writeListBegin_layout]
    simp only [hp, List.nil_append]
    have hlen : (((Byte.ofNat (toUnsigned 8 e) :: beBytes 4 n).length : Nat) : Int) = 5 := by
      simp [length_beBytes]
    obtain ⟨hb, hrest, -, -⟩ := Bound_boundTo _ (le_of_eq_of_le hlen (by decide))
    have hd := boundTo_done _ (le_of_eq_of_le hlen (by decide))
    rw [hlen] at hd
    rw [Res.yields, readListBegin_header hr _ hb _ (beBytes 4 n) [] (length_beBytes 4 n)
      (by simpa using hrest), if_pos hpos]
    dsimp only
    rw [toSigned_ofNat_toUnsigned_1 e he1 he2, hcnt]
    exact ⟨rfl, rfl, hd.1, hd.2⟩
  · intro p e0 size0 hp
    rw [writeSetBegin_layout]
    simp only [hp, List.nil_append]
    have hlen : (((Byte.ofNat (toUnsigned 8 e) :: beBytes 4 n).length : Nat) : Int) = 5 := by
      simp [length_beBytes]
    obtain ⟨hb, hrest, -, -⟩ := Bound_boundTo _ (le_of_eq_of_le hlen (by decide))
    have hd := boundTo_done _ (le_of_eq_of_le hlen (by decide))
    rw [hlen] at hd
    rw [Res.yields, readSetBegin_header hr _ hb _ (beBytes 4 n) [] (length_beBytes 4 n)
      (by simpa using hrest), if_pos hpos]
    dsimp only
    rw [toSigned_ofNat_toUnsigned_1 e he1 he2, hcnt]
    exact ⟨rfl, rfl, hd.1, hd.2⟩

theorem collection_header_round_trip_witness :
    (writeMapBegin .LITTLE_ENDIAN Protocol.new 11 8 2147483647).1.write_buffer_ =
      [0x0B, 0x08, 0x7F, 0xFF, 0xFF, 0xFF] ∧
    (readMapBegin .BIG_ENDIAN
      (boundTo (writeMapBegin .LITTLE_ENDIAN Protocol.new 11 8 2147483647).1.write_buffer_)
      0 0 0).yields 6 (11, 8, 2147483647) ∧
    (readListBegin .BIG_ENDIAN
      (boundTo (writeListBegin .LITTLE_ENDIAN Protocol.new (-128) 2147483647).1.write_buffer_)
      0 0).yields 5 (-128, 2147483647) ∧
    (readSetBegin .BIG_ENDIAN
      (boundTo (writeSetBegin .LITTLE_ENDIAN Protocol.new (-128) 2147483647).1.write_buffer_)
      0 0).yields 5 (-128, 2147483647) :=
  have h := collection_header_round_trip .LITTLE_ENDIAN .BIG_ENDIAN 11 8 (-128) 2147483647
    (by norm_num) (by norm_num) (by norm_num) (by norm_num) (by norm_num) (by norm_num)
    (by norm_num)
  ⟨by rw [h.1 Protocol.new]; decide, h.2.2.2.1 Protocol.new 0 0 0 rfl,
    h.2.2.2.2.1 Protocol.new 0 0 rfl, h.2.2.2.2.2 Protocol.new 0 0 rfl⟩

theorem writeFieldBegin_layout (host : ByteOrder) (p : Protocol) (name : List Byte) (t : TType)
    (i : Int) :
    writeFieldBegin host p name t i =
      ({ p with write_buffer_ := p.write_buffer_ ++
          (Byte.ofNat (toUnsigned 8 t) :: beBytes 2 (toUnsigned 16 i)) }, 3) := by
  simp only [writeFieldBegin, writeByte_eq, writeI16_eq, toUnsigned_castSigned_8,
    List.append_assoc, List.singleton_append]
  norm_num [u32]

/-- C10, as amended. Field header write layout: for every type tag `t`, the
STOP tag included, and every field id `i`, `writeFieldBegin(name, t, i)`
appends the tag byte followed by the 2-byte big-endian id, 3 bytes, and
returns 3. The single STOP byte with no id, returned count 1, is what
`writeFieldStop` appends. -/
theorem field_header_write_layout (host : ByteOrder) (p : Protocol) (name : List Byte)
    (t : TType) (i : Int) :
    writeFieldBegin host p name t i =
      ({ p with write_buffer_ := p.write_buffer_ ++
          [Byte.ofNat (toUnsigned 8 t), wireByte 16 i 0, wireByte 16 i 1] }, 3) ∧
    writeFieldBegin host p name T_STOP i =
      ({ p with write_buffer_ := p.write_buffer_ ++ [0x00, wireByte 16 i 0, wireByte 16 i 1] },
        3) ∧
    writeFieldStop p = ({ p with write_buffer_ := p.write_buffer_ ++ [0x00] }, 1) := by
  have h2 : beBytes 2 (toUnsigned 16 i) = [wireByte 16 i 0, wireByte 16 i 1] := by
    rw [beBytes_2]; simp [wireByte_eq]
  refine ⟨?_, ?_, ?_⟩
  · rw [writeFieldBegin_layout, h2]
  · rw [writeFieldBegin_layout, h2]; rfl
  · rfl

/-- C10, as stated, fails for the STOP tag: `writeFieldBegin(name, T_STOP, 5)`
on an empty sink appends the three bytes 00 00 05 and returns 3, not the
single byte 00 with count 1. -/
theorem field_header_stop_writes_id :
    writeFieldBegin .LITTLE_ENDIAN Protocol.new [] T_STOP 5 =
      ({ Protocol.new with write_buffer_ := [0x00, 0x00, 0x05] }, 3) ∧
    ¬ writeFieldBegin .LITTLE_ENDIAN Protocol.new [] T_STOP 5 =
      ({ Protocol.new with write_buffer_ := [0x00] }, 1) := by
  constructor <;> decide

/-! ## The field header on the read side -/

theorem toSigned_8_eq_zero (c : Byte) : toSigned 8 c.val = 0 ↔ c = 0 := by
  have hc := c.isLt
  have hm : c.val % 2 ^ 8 = c.val := Nat.mod_eq_of_lt (by omega)
  simp only [toSigned, hm]
  constructor
  · intro h
    apply Fin.ext
    split at h
    · have : c.val = 0 := by exact_mod_cast h
      simpa using this
    · push_cast at h; omega
  · intro h
    subst h
    simp

theorem readFieldBegin_stop (host : ByteOrder) (p : Protocol) (hb : Bound p) (tl : List Byte)
    (hr : rest p = 0x00 :: tl) (name : List Byte) (t0 : TType) (id0 : Int) :
    readFieldBegin host p name t0 id0 = ⟨.ok 1, (name, T_STOP, 0), advance p 1⟩ := by
  have h0 : toSigned 8 ((0x00 : Byte).val) = T_STOP := by decide
  simp only [readFieldBegin, readByte_cons p hb _ tl hr, h0, if_true]

theorem readFieldBegin_field (host : ByteOrder) (p : Protocol) (hb : Bound p) (c : Byte)
    (b2 tl : List Byte) (hc : c ≠ 0) (hb2 : b2.length = 2) (hr : rest p = c :: (b2 ++ tl))
    (name : List Byte) (t0 : TType) (id0 : Int) :
    readFieldBegin host p name t0 id0 =
      ⟨.ok 3, (name, toSigned 8 c.val, toSigned 16 (beVal b2)), advance p 3⟩ := by
  have hne : ¬ toSigned 8 c.val = T_STOP := by
    rw [T_STOP, toSigned_8_eq_zero]; exact hc
  have hs1 := step p hb [c] _ hr
  simp only [List.length_singleton, Nat.cast_one, List.singleton_append] at hs1
  have hi := readI16_append host _ hs1.2.1 b2 tl hs1.2.2.1 hb2 id0
  simp only [readFieldBegin, readByte_cons p hb c _ hr, hne, if_false, hi, advance_advance]
  norm_num [u32]

/-- C11. Field-stop sentinel. `writeFieldStop` appends exactly the byte 00 and
returns 1. When the byte at the read pointer is the STOP tag, whatever follows
it and whatever the outputs held before, `readFieldBegin` returns 1, gives the
tag STOP and the field id 0 and moves the read pointer on by exactly 1. When
the byte is any other tag and at least two bytes follow, it returns 3, gives
that tag and the big-endian 16-bit id and moves the read pointer on by
exactly 3. -/
theorem field_stop_sentinel (host : ByteOrder) (p : Protocol) (hb : Bound p) (name : List Byte)
    (t0 : TType) (id0 : Int) :
    (∀ q : Protocol, writeFieldStop q =
      ({ q with write_buffer_ := q.write_buffer_ ++ [0x00] }, 1)) ∧
    (∀ tl : List Byte, rest p = 0x00 :: tl →
      readFieldBegin host p name t0 id0 = ⟨.ok 1, (name, T_STOP, 0), advance p 1⟩) ∧
    (∀ (c : Byte) (b2 tl : List Byte), c ≠ 0x00 → b2.length = 2 → rest p = c :: (b2 ++ tl) →
      readFieldBegin host p name t0 id0 =
        ⟨.ok 3, (name, toSigned 8 c.val, toSigned 16 (beVal b2)), advance p 3⟩) ∧
    (advance p 1).read_buffer_ = p.read_buffer_ + 1 ∧
    (advance p 3).read_buffer_ = p.read_buffer_ + 3 :=
  ⟨fun _ => rfl, fun tl hr => readFieldBegin_stop host p hb tl hr name t0 id0,
    fun c b2 tl hc hb2 hr => readFieldBegin_field host p hb c b2 tl hc hb2 hr name t0 id0,
    rfl, rfl⟩

theorem field_stop_sentinel_witness :
    readFieldBegin .LITTLE_ENDIAN (boundTo [0x00, 0x41, 0x42]) [] 8 77 =
      ⟨.ok 1, ([], T_STOP, 0), advance (boundTo [0x00, 0x41, 0x42]) 1⟩ ∧
    readFieldBegin .LITTLE_ENDIAN (boundTo [0x08, 0xFF, 0xFE, 0x42]) [] 0 77 =
      ⟨.ok 3, ([], 8, -2), advance (boundTo [0x08, 0xFF, 0xFE, 0x42]) 3⟩ :=
  ⟨(field_stop_sentinel .LITTLE_ENDIAN (boundTo [0x00, 0x41, 0x42])
      (Bound_boundTo _ (by decide)).1 [] 8 77).2.1 [0x41, 0x42]
      (Bound_boundTo _ (by decide)).2.1,
   (field_stop_sentinel .LITTLE_ENDIAN (boundTo [0x08, 0xFF, 0xFE, 0x42])
      (Bound_boundTo _ (by decide)).1 [] 0 77).2.2.1 0x08 [0xFF, 0xFE] [0x42] (by decide) rfl
      (Bound_boundTo _ (by decide)).2.1⟩

/-! ## Booleans and the markers without wire form -/

/-- C16. Boolean wire form. `writeBool(true)` appends the single byte 01 and
`writeBool(false)` the single byte 00, each returning 1. With at least one
byte at the read pointer, `readBool` gives false when that byte is 00 and true
for every other byte value, returns 1 and moves the read pointer on by
exactly 1, whatever the output held before. -/
theorem boolean_wire_form (p : Protocol) (hb : Bound p) (x : Bool) :
    (∀ q : Protocol, writeBool q true =
      ({ q with write_buffer_ := q.write_buffer_ ++ [0x01] }, 1)) ∧
    (∀ q : Protocol, writeBool q false =
      ({ q with write_buffer_ := q.write_buffer_ ++ [0x00] }, 1)) ∧
    (∀ tl : List Byte, rest p = 0x00 :: tl → readBool p x = ⟨.ok 1, false, advance p 1⟩) ∧
    (∀ (c : Byte) (tl : List Byte), c ≠ 0x00 → rest p = c :: tl →
      readBool p x = ⟨.ok 1, true, advance p 1⟩) ∧
    (advance p 1).read_buffer_ = p.read_buffer_ + 1 ∧
    (advance p 1).read_buffer_len_ = p.read_buffer_len_ - 1 := by
  refine ⟨fun _ => rfl, fun _ => rfl, ?_, ?_, rfl, rfl⟩
  · intro tl hr
    rw [readBool_cons p hb _ tl hr]
    rfl
  · intro c tl hc hr
    rw [readBool_cons p hb c tl hr]
    have : c.val ≠ 0 := fun h => hc (Fin.ext h)
    simp [this]

theorem boolean_wire_form_witness :
    readBool (boundTo [0x00, 0x07]) true = ⟨.ok 1, false, advance (boundTo [0x00, 0x07]) 1⟩ ∧
    readBool (boundTo [0xFF]) false = ⟨.ok 1, true, advance (boundTo [0xFF]) 1⟩ ∧
    readBool (boundTo [0x02]) false = ⟨.ok 1, true, advance (boundTo [0x02]) 1⟩ :=
  ⟨(boolean_wire_form (boundTo [0x00, 0x07]) (Bound_boundTo _ (by decide)).1 true).2.2.1 [0x07]
      (Bound_boundTo _ (by decide)).2.1,
   (boolean_wire_form (boundTo [0xFF]) (Bound_boundTo _ (by decide)).1 false).2.2.2.1 0xFF []
      (by decide) (Bound_boundTo _ (by decide)).2.1,
   (boolean_wire_form (boundTo [0x02]) (Bound_boundTo _ (by decide)).1 false).2.2.2.1 0x02 []
      (by decide) (Bound_boundTo _ (by decide)).2.1⟩

/-- C17. Begin and end markers are no-ops on the wire. In every state, the
empty region included, and for every argument, `writeMessageEnd`,
`writeStructBegin`, `writeStructEnd`, `writeFieldEnd`, `writeMapEnd`,
`writeListEnd`, `writeSetEnd`, `readMessageEnd`, `readStructBegin`,
`readStructEnd`, `readFieldEnd`, `readMapEnd`, `readListEnd` and `readSetEnd`
return 0, do not fail, and leave the whole state as it was: nothing is
appended to the sink and the read pointer and `read_buffer_len_` are unchanged. -/
theorem markers_are_noops (p : Protocol) (name : List Byte) :
    writeMessageEnd p = (p, 0) ∧ writeStructBegin p name = (p, 0) ∧ writeStructEnd p = (p, 0) ∧
    writeFieldEnd p = (p, 0) ∧ writeMapEnd p = (p, 0) ∧ writeListEnd p = (p, 0) ∧
    writeSetEnd p = (p, 0) ∧
    readMessageEnd p = ⟨.ok 0, (), p⟩ ∧ readStructBegin p name = ⟨.ok 0, name, p⟩ ∧
    readStructEnd p = ⟨.ok 0, (), p⟩ ∧ readFieldEnd p = ⟨.ok 0, (), p⟩ ∧
    readMapEnd p = ⟨.ok 0, (), p⟩ ∧ readListEnd p = ⟨.ok 0, (), p⟩ ∧
    readSetEnd p = ⟨.ok 0, (), p⟩ ∧
    (readMessageEnd (boundTo [])).ret = .ok 0 ∧ (readStructEnd (boundTo [])).ret = .ok 0 :=
  ⟨rfl, rfl, rfl, rfl, rfl, rfl, rfl, rfl, rfl, rfl, rfl, rfl, rfl, rfl, rfl, rfl⟩

/-! ## Underrun -/

theorem readBool_short (q : Protocol) (h : q.read_buffer_len_ < 1) (x : Bool) :
    readBool q x = ⟨.error .INVALID_DATA, x, q⟩ := by
  simp only [readBool, readBuffer_fail q 1 h]

theorem readByte_short (q : Protocol) (h : q.read_buffer_len_ < 1) (x : Int) :
    readByte q x = ⟨.error .INVALID_DATA, x, q⟩ := by
  simp only [readByte, readBuffer_fail q 1 h]

theorem readI16_short (host : ByteOrder) (q : Protocol) (h : q.read_buffer_len_ < 2) (x : Int) :
    readI16 host q x = ⟨.error .INVALID_DATA, x, q⟩ := by
  simp only [readI16, readBuffer_fail q 2 h]

theorem readI64_short (host : ByteOrder) (q : Protocol) (h : q.read_buffer_len_ < 8) (x : Int) :
    readI64 host q x = ⟨.error .INVALID_DATA, x, q⟩ := by
  simp only [readI64, readBuffer_fail q 8 h]

theorem readDouble_short (host : ByteOrder) (q : Protocol) (h : q.read_buffer_len_ < 8)
    (x : Nat) : readDouble host q x = ⟨.error .INVALID_DATA, x, q⟩ := by
  simp only [readDouble, readBuffer_fail q 8 h]

/-- With `n` bytes or more left, the bytes ahead of the read pointer split
into the next `n` and what follows them. -/
theorem split_rest (p : Protocol) (hb : Bound p) (n : Nat) (h : (n : Int) ≤ p.read_buffer_len_) :
    rest p = (rest p).take n ++ (rest p).drop n ∧ ((rest p).take n).length = n := by
  have hl := length_rest p hb
  refine ⟨(List.take_append_drop n (rest p)).symm, ?_⟩
  rw [List.length_take]
  omega

theorem rest_cons_of_len (p : Protocol) (hb : Bound p) (h : 1 ≤ p.read_buffer_len_) :
    ∃ c tl, rest p = c :: tl := by
  have hl := length_rest p hb
  cases hr : rest p with
  | nil => rw [hr] at hl; simp at hl; omega
  | cons c tl => exact ⟨c, tl, rfl⟩

theorem readBool_ok (p : Protocol) (hb : Bound p) (h : 1 ≤ p.read_buffer_len_) (x : Bool) :
    ∃ v, readBool p x = ⟨.ok 1, v, advance p 1⟩ := by
  obtain ⟨c, tl, hr⟩ := rest_cons_of_len p hb h
  exact ⟨_, readBool_cons p hb c tl hr x⟩

theorem readByte_ok (p : Protocol) (hb : Bound p) (h : 1 ≤ p.read_buffer_len_) (x : Int) :
    ∃ v, readByte p x = ⟨.ok 1, v, advance p 1⟩ := by
  obtain ⟨c, tl, hr⟩ := rest_cons_of_len p hb h
  exact ⟨_, readByte_cons p hb c tl hr x⟩

theorem readI16_ok (host : ByteOrder) (p : Protocol) (hb : Bound p)
    (h : 2 ≤ p.read_buffer_len_) (x : Int) :
    ∃ v, readI16 host p x = ⟨.ok 2, v, advance p 2⟩ := by
  obtain ⟨hr, hl⟩ := split_rest p hb 2 (by simpa using h)
  exact ⟨_, readI16_append host p hb _ _ hr hl x⟩

theorem readI32_ok (host : ByteOrder) (p : Protocol) (hb : Bound p)
    (h : 4 ≤ p.read_buffer_len_) (x : Int) :
    ∃ v, readI32 host p x = ⟨.ok 4, v, advance p 4⟩ := by
  obtain ⟨hr, hl⟩ := split_rest p hb 4 (by simpa using h)
  exact ⟨_, readI32_append host p hb _ _ hr hl x⟩

theorem readI64_ok (host : ByteOrder) (p : Protocol) (hb : Bound p)
    (h : 8 ≤ p.read_buffer_len_) (x : Int) :
    ∃ v, readI64 host p x = ⟨.ok 8, v, advance p 8⟩ := by
  obtain ⟨hr, hl⟩ := split_rest p hb 8 (by simpa using h)
  exact ⟨_, readI64_append host p hb _ _ hr hl x⟩

theorem readDouble_ok (host : ByteOrder) (p : Protocol) (hb : Bound p)
    (h : 8 ≤ p.read_buffer_len_) (x : Nat) :
    ∃ v, readDouble host p x = ⟨.ok 8, v, advance p 8⟩ := by
  obtain ⟨hr, hl⟩ := split_rest p hb 8 (by simpa using h)
  exact ⟨_, readDouble_append host p hb _ _ hr hl x⟩


theorem Underrun_of {α : Type} (p : Protocol) (w : Nat) (x : α) (r : Res α)
    (hok : (w : Int) ≤ p.read_buffer_len_ → ∃ v, r = ⟨.ok w, v, advance p w⟩)
    (hshort : p.read_buffer_len_ < (w : Int) → r = ⟨.error .INVALID_DATA, x, p⟩) :
    Underrun p w x r := by
  refine ⟨⟨?_, ?_⟩, ?_, ?_⟩
  · rintro ⟨n, hn⟩
    by_contra hc
    rw [hshort (by omega)] at hn
    cases hn
  · intro h
    obtain ⟨v, hv⟩ := hok h
    exact ⟨w, by rw [hv]⟩
  · intro h
    obtain ⟨v, hv⟩ := hok h
    rw [hv]
    exact ⟨rfl, rfl⟩
  · intro h
    rw [hshort h]
    exact ⟨rfl, rfl, rfl⟩

/-- C13. Underrun detection for the fixed-width reads. On every cursor state
that satisfies the invariant (so with `read_buffer_len_ ≥ 0`), `readBool` and
`readByte` (width 1), `readI16` (2), `readI32` (4), `readI64` and `readDouble`
(8) succeed exactly when `read_buffer_len_` is at least the width; with fewer
bytes they throw INVALID_DATA, the state is unchanged and the output is not
assigned. The checked access `readBuffer(len)` passes exactly when
`read_buffer_len_ ≥ len`; it then returns the pointer it had, moves the
pointer on by `len` and lowers `read_buffer_len_` by `len`; otherwise it
throws INVALID_DATA and changes nothing. -/
theorem underrun_detection (host : ByteOrder) (p : Protocol) (hb : Bound p) (xb : Bool)
    (xi : Int) (xd : Nat) :
    Underrun p 1 xb (readBool p xb) ∧ Underrun p 1 xi (readByte p xi) ∧
    Underrun p 2 xi (readI16 host p xi) ∧ Underrun p 4 xi (readI32 host p xi) ∧
    Underrun p 8 xi (readI64 host p xi) ∧ Underrun p 8 xd (readDouble host p xd) ∧
    (∀ len : Int, 0 ≤ len →
      ((∃ b, (readBuffer p len).1 = .ok b) ↔ len ≤ p.read_buffer_len_) ∧
      (len ≤ p.read_buffer_len_ →
        readBuffer p len = (.ok p.read_buffer_, advance p len) ∧
        (advance p len).read_buffer_ = p.read_buffer_ + len ∧
        (advance p len).read_buffer_len_ = p.read_buffer_len_ - len) ∧
      (p.read_buffer_len_ < len → readBuffer p len = (.error .INVALID_DATA, p))) := by
  refine ⟨?_, ?_, ?_, ?_, ?_, ?_, ?_⟩
  · exact Underrun_of p 1 xb _ (fun h => readBool_ok p hb (by simpa using h) xb)
      (fun h => readBool_short p (by simpa using h) xb)
  · exact Underrun_of p 1 xi _ (fun h => readByte_ok p hb (by simpa using h) xi)
      (fun h => readByte_short p (by simpa using h) xi)
  · exact Underrun_of p 2 xi _ (fun h => readI16_ok host p hb (by simpa using h) xi)
      (fun h => readI16_short host p (by simpa using h) xi)
  · exact Underrun_of p 4 xi _ (fun h => readI32_ok host p hb (by simpa using h) xi)
      (fun h => readI32_short host p (by simpa using h) xi)
  · exact Underrun_of p 8 xi _ (fun h => readI64_ok host p hb (by simpa using h) xi)
      (fun h => readI64_short host p (by simpa using h) xi)
  · exact Underrun_of p 8 xd _ (fun h => readDouble_ok host p hb (by simpa using h) xd)
      (fun h => readDouble_short host p (by simpa using h) xd)
  · intro len _
    refine ⟨⟨?_, ?_⟩, ?_, ?_⟩
    · rintro ⟨b, hbk⟩
      by_contra hc
      rw [readBuffer_fail p len (by omega)] at hbk
      cases hbk
    · intro h
      exact ⟨_, by rw [readBuffer_ok p len h]⟩
    · intro h
      exact ⟨readBuffer_ok p len h, rfl, rfl⟩
    · intro h
      exact readBuffer_fail p len h

theorem underrun_detection_witness :
    Underrun (boundTo [0x01, 0x02, 0x03]) 4 7 (readI32 .LITTLE_ENDIAN (boundTo [0x01, 0x02, 0x03]) 7) ∧
    Underrun (boundTo [0x01, 0x02, 0x03]) 2 7 (readI16 .LITTLE_ENDIAN (boundTo [0x01, 0x02, 0x03]) 7) ∧
    ((readI32 .LITTLE_ENDIAN (boundTo [0x01, 0x02, 0x03]) 7).ret = .error .INVALID_DATA ∧
      (readI32 .LITTLE_ENDIAN (boundTo [0x01, 0x02, 0x03]) 7).out = 7 ∧
      (readI32 .LITTLE_ENDIAN (boundTo [0x01, 0x02, 0x03]) 7).st = boundTo [0x01, 0x02, 0x03]) ∧
    ((readI16 .LITTLE_ENDIAN (boundTo [0x01, 0x02, 0x03]) 7).ret = .ok 2 ∧
      (readI16 .LITTLE_ENDIAN (boundTo [0x01, 0x02, 0x03]) 7).st =
        advance (boundTo [0x01, 0x02, 0x03]) 2) :=
  have h := underrun_detection .LITTLE_ENDIAN (boundTo [0x01, 0x02, 0x03])
    (Bound_boundTo _ (by decide)).1 false 7 0
  ⟨h.2.2.2.1, h.2.2.1, h.2.2.2.1.2.2 (by decide), h.2.2.1.2.1 (by decide)⟩

/-! ## Oversized counts and partial reads -/

theorem toSigned_neg_of_ge (n : Nat) (h1 : 2 ^ 31 ≤ n) (h2 : n < 2 ^ 32) :
    toSigned 32 (beVal (beBytes 4 n)) < 0 := by
  rw [beVal_beBytes, show (256 : Nat) ^ 4 = 2 ^ 32 by norm_num, Nat.mod_eq_of_lt h2,
    toSigned_neg_iff_32 n h2]
  exact h1

theorem head_beBytes_4 (n : Nat) (h1 : 2 ^ 31 ≤ n) (h2 : n < 2 ^ 32) :
    ∃ (c : Byte) (b3 : List Byte), beBytes 4 n = c :: b3 ∧ 0x80 ≤ c.val := by
  refine ⟨Byte.ofNat (n / 2 ^ 24), _, beBytes_4 n, ?_⟩
  simp only [Byte.ofNat]
  omega

/-- C18. Oversized collection counts are written and cannot be read back. For
every count `n` with `2^31 ≤ n ≤ 2^32 - 1` and all tags, `writeMapBegin`,
`writeListBegin` and `writeSetBegin` return 6, 5 and 5 and append the tag
bytes and the 4 big-endian bytes of `n`, the first of which is at least 0x80;
the matching `readMapBegin`, `readListBegin`, `readSetBegin` on a cursor bound
to exactly the bytes written to an empty sink throw NEGATIVE_SIZE. For counts
below `2^32` the header read succeeds exactly when `n ≤ 2^31 - 1`. -/
theorem oversized_count_unreadable (hw hr : ByteOrder) (k v e : TType) (n : Nat)
    (hn : n ≤ 2 ^ 32 - 1) (p : Protocol) (hp : p.write_buffer_ = []) (k0 v0 : TType)
    (size0 : Nat) :
    (2 ^ 31 ≤ n →
      writeMapBegin hw p k v n =
        ({ p with write_buffer_ := p.write_buffer_ ++
            (Byte.ofNat (toUnsigned 8 k) :: Byte.ofNat (toUnsigned 8 v) :: beBytes 4 n) }, 6) ∧
      writeListBegin hw p e n =
        ({ p with write_buffer_ := p.write_buffer_ ++
            (Byte.ofNat (toUnsigned 8 e) :: beBytes 4 n) }, 5) ∧
      writeSetBegin hw p e n =
        ({ p with write_buffer_ := p.write_buffer_ ++
            (Byte.ofNat (toUnsigned 8 e) :: beBytes 4 n) }, 5) ∧
      (∃ (c : Byte) (b3 : List Byte), beBytes 4 n = c :: b3 ∧ 0x80 ≤ c.val) ∧
      (readMapBegin hr (boundTo (writeMapBegin hw p k v n).1.write_buffer_) k0 v0 size0).ret =
        .error .NEGATIVE_SIZE ∧
      (readListBegin hr (boundTo (writeListBegin hw p e n).1.write_buffer_) k0 size0).ret =
        .error .NEGATIVE_SIZE ∧
      (readSetBegin hr (boundTo (writeSetBegin hw p e n).1.write_buffer_) k0 size0).ret =
        .error .NEGATIVE_SIZE) ∧
    ((∃ m, (readMapBegin hr (boundTo (writeMapBegin hw p k v n).1.write_buffer_)
        k0 v0 size0).ret = .ok m) ↔ n ≤ 2 ^ 31 - 1) ∧
    ((∃ m, (readListBegin hr (boundTo (writeListBegin hw p e n).1.write_buffer_)
        k0 size0).ret = .ok m) ↔ n ≤ 2 ^ 31 - 1) ∧
    ((∃ m, (readSetBegin hr (boundTo (writeSetBegin hw p e n).1.write_buffer_)
        k0 size0).ret = .ok m) ↔ n ≤ 2 ^ 31 - 1) := by
  have hlt : n < 2 ^ 32 := by omega
  have hsign : toSigned 32 (beVal (beBytes 4 n)) ≥ 0 ↔ n ≤ 2 ^ 31 - 1 := by
    rw [ge_iff_le, ← not_lt, beVal_beBytes, show (256 : Nat) ^ 4 = 2 ^ 32 by norm_num,
      Nat.mod_eq_of_lt hlt, toSigned_neg_iff_32 n hlt]
    omega
  have hmap : readMapBegin hr (boundTo (writeMapBegin hw p k v n).1.write_buffer_) k0 v0 size0 =
      if toSigned 32 (beVal (beBytes 4 n)) ≥ 0 then
        ⟨.ok 6, (toSigned 8 (Byte.ofNat (toUnsigned 8 k)).val,
          toSigned 8 (Byte.ofNat (toUnsigned 8 v)).val, beVal (beBytes 4 n)),
          advance (boundTo (writeMapBegin hw p k v n).1.write_buffer_) 6⟩
      else
        ⟨.error .NEGATIVE_SIZE, (toSigned 8 (Byte.ofNat (toUnsigned 8 k)).val,
          toSigned 8 (Byte.ofNat (toUnsigned 8 v)).val, size0),
          advance (boundTo (writeMapBegin hw p k v n).1.write_buffer_) 6⟩ := by
    rw [writeMapBegin_layout]
    simp only [hp, List.nil_append]
    have hlen : (((Byte.ofNat (toUnsigned 8 k) :: Byte.ofNat (toUnsigned 8 v) ::
        beBytes 4 n).length : Nat) : Int) ≤ INT_MAX := by
      simp [length_beBytes, INT_MAX]
    obtain ⟨hb, hrest, -, -⟩ := Bound_boundTo _ hlen
    exact readMapBegin_header hr _ hb _ _ (beBytes 4 n) [] (length_beBytes 4 n)
      (by simpa using hrest) k0 v0 size0
  have hlist : readListBegin hr (boundTo (writeListBegin hw p e n).1.write_buffer_) k0 size0 =
      if toSigned 32 (beVal (beBytes 4 n)) ≥ 0 then
        ⟨.ok 5, (toSigned 8 (Byte.ofNat (toUnsigned 8 e)).val, beVal (beBytes 4 n)),
          advance (boundTo (writeListBegin hw p e n).1.write_buffer_) 5⟩
      else
        ⟨.error .NEGATIVE_SIZE, (toSigned 8 (Byte.ofNat (toUnsigned 8 e)).val, size0),
          advance (boundTo (writeListBegin hw p e n).1.write_buffer_) 5⟩ := by
    rw [writeListBegin_layout]
    simp only [hp, List.nil_append]
    have hlen : (((Byte.ofNat (toUnsigned 8 e) :: beBytes 4 n).length : Nat) : Int) ≤
        INT_MAX := by
      simp [length_beBytes, INT_MAX]
    obtain ⟨hb, hrest, -, -⟩ := Bound_boundTo _ hlen
    exact readListBegin_header hr _ hb _ (beBytes 4 n) [] (length_beBytes 4 n)
      (by simpa using hrest) k0 size0
  have hset : readSetBegin hr (boundTo (writeSetBegin hw p e n).1.write_buffer_) k0 size0 =
      if toSigned 32 (beVal (beBytes 4 n)) ≥ 0 then
        ⟨.ok 5, (toSigned 8 (Byte.ofNat (toUnsigned 8 e)).val, beVal (beBytes 4 n)),
          advance (boundTo (writeSetBegin hw p e n).1.write_buffer_) 5⟩
      else
        ⟨.error .NEGATIVE_SIZE, (toSigned 8 (Byte.ofNat (toUnsigned 8 e)).val, size0),
          advance (boundTo (writeSetBegin hw p e n).1.write_buffer_) 5⟩ := by
    rw [writeSetBegin_layout]
    simp only [hp, List.nil_append]
    have hlen : (((Byte.ofNat (toUnsigned 8 e) :: beBytes 4 n).length : Nat) : Int) ≤
        INT_MAX := by
      simp [length_beBytes, INT_MAX]
    obtain ⟨hb, hrest, -, -⟩ := Bound_boundTo _ hlen
    exact readSetBegin_header hr _ hb _ (beBytes 4 n) [] (length_beBytes 4 n)
      (by simpa using hrest) k0 size0
  refine ⟨?_, ?_, ?_, ?_⟩
  · intro hbig
    have hneg : ¬ toSigned 32 (beVal (beBytes 4 n)) ≥ 0 := by rw [hsign]; omega
    refine ⟨writeMapBegin_layout hw p k v n, writeListBegin_layout hw p e n,
      writeSetBegin_layout hw p e n, head_beBytes_4 n hbig hlt, ?_, ?_, ?_⟩
    · rw [hmap, if_neg hneg]
    · rw [hlist, if_neg hneg]
    · rw [hset, if_neg hneg]
  · rw [hmap, ← hsign]
    split
    · rename_i h; exact ⟨(fun _ => h), (fun _ => ⟨6, rfl⟩)⟩
    · rename_i h; exact ⟨(fun ⟨m, hm⟩ => by cases hm), (fun h2 => absurd h2 h)⟩
  · rw [hlist, ← hsign]
    split
    · rename_i h; exact ⟨(fun _ => h), (fun _ => ⟨5, rfl⟩)⟩
    · rename_i h; exact ⟨(fun ⟨m, hm⟩ => by cases hm), (fun h2 => absurd h2 h)⟩
  · rw [hset, ← hsign]
    split
    · rename_i h; exact ⟨(fun _ => h), (fun _ => ⟨5, rfl⟩)⟩
    · rename_i h; exact ⟨(fun ⟨m, hm⟩ => by cases hm), (fun h2 => absurd h2 h)⟩

theorem oversized_count_unreadable_witness :
    (writeMapBegin .LITTLE_ENDIAN Protocol.new 11 8 2147483648).1.write_buffer_ =
      [0x0B, 0x08, 0x80, 0x00, 0x00, 0x00] ∧
    (readMapBegin .BIG_ENDIAN
      (boundTo (writeMapBegin .LITTLE_ENDIAN Protocol.new 11 8 2147483648).1.write_buffer_)
      0 0 77).ret = .error .NEGATIVE_SIZE ∧
    (readListBegin .BIG_ENDIAN
      (boundTo (writeListBegin .LITTLE_ENDIAN Protocol.new 8 2147483648).1.write_buffer_)
      0 77).ret = .error .NEGATIVE_SIZE ∧
    (readSetBegin .BIG_ENDIAN
      (boundTo (writeSetBegin .LITTLE_ENDIAN Protocol.new 8 2147483648).1.write_buffer_)
      0 77).ret = .error .NEGATIVE_SIZE :=
  have h := (oversized_count_unreadable .LITTLE_ENDIAN .BIG_ENDIAN 11 8 8 2147483648
    (by norm_num) Protocol.new rfl 0 0 77).1 (by norm_num)
  ⟨by rw [h.1]; decide, h.2.2.2.2.1, h.2.2.2.2.2.1, h.2.2.2.2.2.2⟩

theorem readString_truncated (host : ByteOrder) (p : Protocol) (hb : Bound p) (b4 tl : List Byte)
    (hb4 : b4.length = 4) (hr : rest p = b4 ++ tl) (hpos : 0 < toSigned 32 (beVal b4))
    (hshort : (tl.length : Int) < toSigned 32 (beVal b4)) (str : List Byte) :
    readString host p str = ⟨.error .INVALID_DATA, str, advance p 4⟩ := by
  have hs := step p hb b4 tl hr
  rw [hb4] at hs
  have hld := load_advance p hb 0 4 hs.1
  rw [hs.2.2.2, load_advance_eq] at hld
  have hl := length_rest p hb
  rw [hr, List.length_append, hb4] at hl
  push_cast at hl
  exact readString_body_short host p b4 str (by simpa using hs.1) hld hb4 hpos (by omega)

theorem readMapBegin_truncated (host : ByteOrder) (p : Protocol) (hb : Bound p) (k v : Byte)
    (tl : List Byte) (hr : rest p = k :: v :: tl) (hshort : tl.length < 4) (k0 v0 : TType)
    (size0 : Nat) :
    readMapBegin host p k0 v0 size0 =
      ⟨.error .INVALID_DATA, (toSigned 8 k.val, toSigned 8 v.val, size0), advance p 2⟩ := by
  have hs1 := step p hb [k] _ hr
  simp only [List.length_singleton, Nat.cast_one, List.singleton_append] at hs1
  have hr2 : rest (advance p 1) = v :: tl := hs1.2.2.1
  have hs2 := step _ hs1.2.1 [v] _ hr2
  simp only [List.length_singleton, Nat.cast_one, advance_advance] at hs2
  have hl := length_rest _ hs2.2.1
  rw [hs2.2.2.1] at hl
  have hi := readI32_short host (advance p (1 + 1)) (by omega) 0
  simp only [readMapBegin, readByte_cons p hb k _ hr, readByte_cons _ hs1.2.1 v _ hr2,
    advance_advance, hi]
  norm_num

/-- C19. Composite reads are not atomic on failure. When the four bytes at
the read pointer decode to a length `n > 0` and fewer than `n` bytes follow
them, `readString` throws INVALID_DATA, the output string holds what it held
before, and the state is the one with the read pointer moved on by exactly 4:
the length prefix stays consumed. When two tag bytes and fewer than four more
bytes are left (2 to 5 bytes in all), `readMapBegin` throws INVALID_DATA with
the read pointer moved on by exactly 2, both tag outputs assigned and the
count output as it was. -/
theorem partial_reads_not_atomic (host : ByteOrder) (p : Protocol) (hb : Bound p)
    (str : List Byte) (k0 v0 : TType) (size0 : Nat) :
    (∀ b4 tl : List Byte, b4.length = 4 → rest p = b4 ++ tl → 0 < toSigned 32 (beVal b4) →
      (tl.length : Int) < toSigned 32 (beVal b4) →
      readString host p str = ⟨.error .INVALID_DATA, str, advance p 4⟩) ∧
    (∀ (k v : Byte) (tl : List Byte), rest p = k :: v :: tl → tl.length < 4 →
      readMapBegin host p k0 v0 size0 =
        ⟨.error .INVALID_DATA, (toSigned 8 k.val, toSigned 8 v.val, size0), advance p 2⟩) ∧
    (advance p 4).read_buffer_ = p.read_buffer_ + 4 ∧
    (advance p 4).read_buffer_len_ = p.read_buffer_len_ - 4 ∧
    (advance p 2).read_buffer_ = p.read_buffer_ + 2 ∧
    (advance p 2).read_buffer_len_ = p.read_buffer_len_ - 2 :=
  ⟨fun b4 tl hb4 hr hpos hshort => readString_truncated host p hb b4 tl hb4 hr hpos hshort str,
    fun k v tl hr hshort => readMapBegin_truncated host p hb k v tl hr hshort k0 v0 size0,
    rfl, rfl, rfl, rfl⟩

theorem partial_reads_not_atomic_witness :
    readString .LITTLE_ENDIAN (boundTo [0x00, 0x00, 0x00, 0x05, 0x41, 0x42]) [0x09] =
      ⟨.error .INVALID_DATA, [0x09],
        advance (boundTo [0x00, 0x00, 0x00, 0x05, 0x41, 0x42]) 4⟩ ∧
    readMapBegin .LITTLE_ENDIAN (boundTo [0x0B, 0x08, 0x00, 0x00, 0x00]) 0 0 77 =
      ⟨.error .INVALID_DATA, (11, 8, 77), advance (boundTo [0x0B, 0x08, 0x00, 0x00, 0x00]) 2⟩ ∧
    readMapBegin .LITTLE_ENDIAN (boundTo [0x0B, 0x08]) 0 0 77 =
      ⟨.error .INVALID_DATA, (11, 8, 77), advance (boundTo [0x0B, 0x08]) 2⟩ :=
  ⟨(partial_reads_not_atomic .LITTLE_ENDIAN (boundTo [0x00, 0x00, 0x00, 0x05, 0x41, 0x42])
      (Bound_boundTo _ (by decide)).1 [0x09] 0 0 77).1 [0x00, 0x00, 0x00, 0x05] [0x41, 0x42] rfl
      (Bound_boundTo _ (by decide)).2.1 (by decide) (by decide),
   (partial_reads_not_atomic .LITTLE_ENDIAN (boundTo [0x0B, 0x08, 0x00, 0x00, 0x00])
      (Bound_boundTo _ (by decide)).1 [] 0 0 77).2.1 0x0B 0x08 [0x00, 0x00, 0x00]
      (Bound_boundTo _ (by decide)).2.1 (by decide),
   (partial_reads_not_atomic .LITTLE_ENDIAN (boundTo [0x0B, 0x08])
      (Bound_boundTo _ (by decide)).1 [] 0 0 77).2.1 0x0B 0x08 []
      (Bound_boundTo _ (by decide)).2.1 (by decide)⟩

/-! ## The end-to-end scenario -/

/-- The bytes of the scenario after the envelope: field header, value, stop byte. -/
theorem writeScenario_layout (host : ByteOrder) (p : Protocol) (name : List Byte)
    (kind : TMessageType) (seqid : Int) (t : TType) (i x : Int)
    (hk : kind = T_CALL ∨ kind = T_REPLY ∨ kind = T_EXCEPTION ∨ kind = T_ONEWAY)
    (hn : name.length < 2 ^ 31) :
    writeScenario host p name kind seqid t i x =
      ({ p with write_buffer_ := p.write_buffer_ ++
          (beBytes 4 (0x80010000 ||| kind.toNat) ++
            (beBytes 4 name.length ++ (name ++ (beBytes 4 (toUnsigned 32 seqid) ++
              (Byte.ofNat (toUnsigned 8 t) :: (beBytes 2 (toUnsigned 16 i) ++
                (beBytes 4 (toUnsigned 32 x) ++ [0x00]))))))) },
        name.length + 20) := by
  simp only [writeScenario, writeMessageBegin_layout host p name kind seqid hk hn,
    writeFieldBegin_layout, writeI32_eq, writeFieldEnd, writeFieldStop, writeByte_eq,
    writeMessageEnd, List.append_assoc, List.cons_append, List.nil_append, Prod.mk.injEq]
  constructor
  · rfl
  · omega

theorem ofNat_toUnsigned_8_ne_zero (t : Int) (h1 : -2 ^ 7 ≤ t) (h2 : t < 2 ^ 7) (h0 : t ≠ 0) :
    Byte.ofNat (toUnsigned 8 t) ≠ 0 := by
  intro hc
  have h := toSigned_ofNat_toUnsigned_1 t h1 h2
  rw [hc] at h
  exact h0 (by rw [← h]; rfl)

theorem readScenario_ok (host : ByteOrder) (p : Protocol) (hb : Bound p) (name tl : List Byte)
    (kind : TMessageType) (seqid : Int) (t : TType) (i x : Int)
    (hk : kind = T_CALL ∨ kind = T_REPLY ∨ kind = T_EXCEPTION ∨ kind = T_ONEWAY)
    (hn : name.length < 2 ^ 31) (hs1 : -2 ^ 31 ≤ seqid) (hs2 : seqid < 2 ^ 31)
    (ht1 : -2 ^ 7 ≤ t) (ht2 : t < 2 ^ 7) (ht0 : t ≠ T_STOP)
    (hi1 : -2 ^ 15 ≤ i) (hi2 : i < 2 ^ 15) (hx1 : -2 ^ 31 ≤ x) (hx2 : x < 2 ^ 31)
    (hr : rest p = beBytes 4 (0x80010000 ||| kind.toNat) ++
      (beBytes 4 name.length ++ (name ++ (beBytes 4 (toUnsigned 32 seqid) ++
        (Byte.ofNat (toUnsigned 8 t) :: (beBytes 2 (toUnsigned 16 i) ++
          (beBytes 4 (toUnsigned 32 x) ++ (0x00 :: tl)))))))) :
    readScenario host p =
      .ok { name := name, kind := kind, seqid := seqid, fieldType := t, fieldId := i,
            value := x, stopType := T_STOP, stopId := 0, count := name.length + 20,
            st := advance p (name.length + 20) } := by
  have hvt := version_word_top kind hk
  -- the envelope
  have h1 := readMessageBegin_versioned host p hb _ name (beBytes 4 (toUnsigned 32 seqid)) _
    (length_beBytes 4 _) (length_beBytes 4 _) hvt.1 hn hr [] 0 0
  rw [hvt.2, toSigned_beVal_beBytes_4 seqid hs1 hs2] at h1
  have hr1 : rest p = (beBytes 4 (0x80010000 ||| kind.toNat) ++
      (beBytes 4 name.length ++ (name ++ beBytes 4 (toUnsigned 32 seqid)))) ++
        (Byte.ofNat (toUnsigned 8 t) :: (beBytes 2 (toUnsigned 16 i) ++
          (beBytes 4 (toUnsigned 32 x) ++ (0x00 :: tl)))) := by
    rw [hr]; simp only [List.append_assoc]
  have st1 := step p hb _ _ hr1
  simp only [List.length_append, length_beBytes] at st1
  have e1 : (((4 + (4 + (name.length + 4)) : Nat)) : Int) = 12 + (name.length : Int) := by
    push_cast; ring
  rw [e1] at st1
  -- the field header
  have hc := ofNat_toUnsigned_8_ne_zero t ht1 ht2 ht0
  have h2 := readFieldBegin_field host _ st1.2.1 _ (beBytes 2 (toUnsigned 16 i)) _ hc
    (length_beBytes 2 _) st1.2.2.1 [] 0 0
  rw [toSigned_ofNat_toUnsigned_1 t ht1 ht2, toSigned_beVal_beBytes_2 i hi1 hi2,
    advance_advance] at h2
  have st2 := step _ st1.2.1 (Byte.ofNat (toUnsigned 8 t) :: beBytes 2 (toUnsigned 16 i))
    (beBytes 4 (toUnsigned 32 x) ++ (0x00 :: tl)) (by rw [st1.2.2.1]; rfl)
  simp only [List.length_cons, length_beBytes, advance_advance] at st2
  have e2 : (12 : Int) + (name.length : Int) + ((2 + 1 : Nat) : Int) =
      12 + (name.length : Int) + 3 := by push_cast; ring
  rw [e2] at st2
  -- the value
  have h3 := readI32_append host _ st2.2.1 (beBytes 4 (toUnsigned 32 x)) _ st2.2.2.1
    (length_beBytes 4 _) 0
  rw [toSigned_beVal_beBytes_4 x hx1 hx2, advance_advance] at h3
  have st3 := step _ st2.2.1 _ _ st2.2.2.1
  simp only [length_beBytes, advance_advance, Nat.cast_ofNat] at st3
  -- the stop byte
  have h5 := readFieldBegin_stop host _ st3.2.1 tl st3.2.2.1 [] t i
  rw [advance_advance] at h5
  have ea : (12 : Int) + (name.length : Int) + 3 + 4 + 1 = (name.length : Int) + 20 := by ring
  have ec : 12 + name.length + 3 + 4 + 0 + 1 + 0 = name.length + 20 := by omega
  simp only [readScenario, h1, h2, h3, readFieldEnd, h5, readMessageEnd, ea, ec]

/-- C12, as amended. End-to-end composite round trip. For every name of at
most `2^31 - 1` bytes, kind among CALL, REPLY, EXCEPTION, ONEWAY, 32-bit
sequence id, field tag `t` other than STOP (an `int8_t` value), 16-bit field
id `i` and 32-bit value `x`, the write sequence appends the envelope, the tag
byte, the big-endian id, the big-endian value and the stop byte 00, and its
counts sum to `|name| + 20`. When these bytes fit the `int` length of the read
region (`|name| + 20 ≤ 2^31 - 1`), the read sequence on a cursor bound to
exactly the bytes written to an empty sink recovers the same name, kind and
sequence id, then `(t, i)`, then `x`, then the STOP tag with field id 0; no
byte is left and its counts sum to the sum of the write counts. With name
"ping", kind CALL, sequence id 7 and field (8, 1, 42) the bytes written are
80 01 00 01, 00 00 00 04, 70 69 6E 67, 00 00 00 07, 08, 00 01, 00 00 00 2A, 00. -/
theorem end_to_end_round_trip (hw hr : ByteOrder) (name : List Byte) (kind : TMessageType)
    (seqid : Int) (t : TType) (i x : Int) (hn : name.length ≤ 2 ^ 31 - 1)
    (hk : kind = T_CALL ∨ kind = T_REPLY ∨ kind = T_EXCEPTION ∨ kind = T_ONEWAY)
    (hs1 : -2 ^ 31 ≤ seqid) (hs2 : seqid < 2 ^ 31)
    (ht1 : -2 ^ 7 ≤ t) (ht2 : t < 2 ^ 7) (ht0 : t ≠ T_STOP)
    (hi1 : -2 ^ 15 ≤ i) (hi2 : i < 2 ^ 15) (hx1 : -2 ^ 31 ≤ x) (hx2 : x < 2 ^ 31) :
    (∀ q : Protocol, writeScenario hw q name kind seqid t i x =
      ({ q with write_buffer_ := q.write_buffer_ ++
          (beBytes 4 (0x80010000 ||| kind.toNat) ++
            (beBytes 4 name.length ++ (name ++ (beBytes 4 (toUnsigned 32 seqid) ++
              (Byte.ofNat (toUnsigned 8 t) :: (beBytes 2 (toUnsigned 16 i) ++
                (beBytes 4 (toUnsigned 32 x) ++ [0x00]))))))) },
        name.length + 20)) ∧
    ((name.length : Int) + 20 ≤ INT_MAX → ∀ p : Protocol, p.write_buffer_ = [] →
      ∃ d : Decoded,
        readScenario hr (boundTo (writeScenario hw p name kind seqid t i x).1.write_buffer_) =
          .ok d ∧
        d.name = name ∧ d.kind = kind ∧ d.seqid = seqid ∧ d.fieldType = t ∧ d.fieldId = i ∧
        d.value = x ∧ d.stopType = T_STOP ∧ d.stopId = 0 ∧
        d.st.read_buffer_len_ = 0 ∧ rest d.st = [] ∧
        d.count = (writeScenario hw p name kind seqid t i x).2) ∧
    (writeScenario hw Protocol.new [0x70, 0x69, 0x6E, 0x67] T_CALL 7 8 1 42).1.write_buffer_ =
      [0x80, 0x01, 0x00, 0x01, 0x00, 0x00, 0x00, 0x04, 0x70, 0x69, 0x6E, 0x67,
       0x00, 0x00, 0x00, 0x07, 0x08, 0x00, 0x01, 0x00, 0x00, 0x00, 0x2A, 0x00] := by
  have hlt : name.length < 2 ^ 31 := by omega
  refine ⟨fun q => writeScenario_layout hw q name kind seqid t i x hk hlt, ?_, ?_⟩
  · intro hfit p hp
    rw [writeScenario_layout hw p name kind seqid t i x hk hlt]
    simp only [hp, List.nil_append]
    have hlen : (((beBytes 4 (0x80010000 ||| kind.toNat) ++
        (beBytes 4 name.length ++ (name ++ (beBytes 4 (toUnsigned 32 seqid) ++
          (Byte.ofNat (toUnsigned 8 t) :: (beBytes 2 (toUnsigned 16 i) ++
            (beBytes 4 (toUnsigned 32 x) ++ [0x00]))))))).length : Nat) : Int) =
        name.length + 20 := by
      simp only [List.length_append, List.length_cons, List.length_nil, length_beBytes]
      push_cast; ring
    obtain ⟨hb, hrest, -, -⟩ := Bound_boundTo _ (le_of_eq_of_le hlen hfit)
    have hd := boundTo_done _ (le_of_eq_of_le hlen hfit)
    rw [hlen] at hd
    refine ⟨_, readScenario_ok hr _ hb name [] kind seqid t i x hk hlt hs1 hs2 ht1 ht2 ht0
      hi1 hi2 hx1 hx2 hrest, rfl, rfl, rfl, rfl, rfl, rfl, rfl, rfl, hd.1, hd.2, rfl⟩
  · rw [writeScenario_layout hw Protocol.new _ T_CALL 7 8 1 42 (Or.inl rfl) (by decide)]
    decide

theorem end_to_end_round_trip_witness :
    ∃ d : Decoded,
      readScenario .BIG_ENDIAN (boundTo (writeScenario .LITTLE_ENDIAN Protocol.new
        [0x70, 0x69, 0x6E, 0x67] T_CALL 7 8 1 42).1.write_buffer_) = .ok d ∧
      d.name = [0x70, 0x69, 0x6E, 0x67] ∧ d.kind = T_CALL ∧ d.seqid = 7 ∧ d.fieldType = 8 ∧
      d.fieldId = 1 ∧ d.value = 42 ∧ d.stopType = T_STOP ∧ d.stopId = 0 ∧
      d.st.read_buffer_len_ = 0 ∧ rest d.st = [] ∧
      d.count = (writeScenario .LITTLE_ENDIAN Protocol.new
        [0x70, 0x69, 0x6E, 0x67] T_CALL 7 8 1 42).2 :=
  (end_to_end_round_trip .LITTLE_ENDIAN .BIG_ENDIAN [0x70, 0x69, 0x6E, 0x67] T_CALL 7 8 1 42
    (by decide) (Or.inl rfl) (by norm_num) (by norm_num) (by norm_num) (by norm_num)
    (by decide) (by norm_num) (by norm_num) (by norm_num) (by norm_num)).2.1 (by decide)
    Protocol.new rfl

theorem readScenario_int_limit (name : List Byte) (hl : name.length = 2 ^ 31 - 1) :
    name.length ≤ 2 ^ 31 - 1 ∧
    (∀ hw hr : ByteOrder,
      readScenario hr (boundTo (writeScenario hw Protocol.new name T_CALL 7 8 1
        42).1.write_buffer_) = .error .INVALID_DATA) ∧
    (∀ hw hr : ByteOrder, ¬ ∃ len : Int, len ≤ INT_MAX ∧ ∃ d : Decoded,
      readScenario hr (setBuffer Protocol.new (writeScenario hw Protocol.new name T_CALL 7 8 1
        42).1.write_buffer_ len []) = .ok d) := by
  have ht := version_word_top T_CALL (Or.inl rfl)
  have hw : ∀ hw : ByteOrder,
      (writeScenario hw Protocol.new name T_CALL 7 8 1 42).1.write_buffer_ =
      beBytes 4 (0x80010000 ||| T_CALL.toNat) ++
        (beBytes 4 name.length ++ (name ++ (beBytes 4 (toUnsigned 32 7) ++
          (Byte.ofNat (toUnsigned 8 8) :: (beBytes 2 (toUnsigned 16 1) ++
            (beBytes 4 (toUnsigned 32 42) ++ [0x00])))))) := by
    intro hw
    rw [writeScenario_layout hw Protocol.new name T_CALL 7 8 1 42 (Or.inl rfl) (by omega)]
    simp [Protocol.new]
  have key : ∀ (hr : ByteOrder) (q : Protocol)
      (_ : (readMessageBegin hr q [] 0 0).ret = .error .INVALID_DATA),
      readScenario hr q = .error .INVALID_DATA := by
    intro hr q hq
    simp only [readScenario, hq]
  refine ⟨by omega, ?_, ?_⟩
  · intro h1 h2
    rw [hw h1]
    exact key h2 _ (readMessageBegin_over_int h2 _ name _ (length_beBytes 4 _) ht.1 (by omega)
      (by omega) _ (castSigned_32_le _) _ _ _ _ _)
  · intro h1 h2 ⟨len, hlen, d, hd⟩
    rw [hw h1, key h2 _ (readMessageBegin_over_int h2 _ name _ (length_beBytes 4 _) ht.1
      (by omega) (by omega) len hlen _ _ _ _ _)] at hd
    cases hd

/-- C12, as stated, fails at the name of `2^31 - 1` zero bytes (kind CALL,
sequence id 7, field (8, 1, 42)). The write sequence produces `2^31 + 19`
bytes, more than an `int` can count: the read sequence on the cursor bound to
them ends with INVALID_DATA in `readMessageBegin`, and so it does whatever
`int` length the read side is bound with. -/
theorem end_to_end_round_trip_int_limit :
    (List.replicate (2 ^ 31 - 1) (0 : Byte)).length ≤ 2 ^ 31 - 1 ∧
    (∀ hw hr : ByteOrder,
      readScenario hr (boundTo (writeScenario hw Protocol.new
        (List.replicate (2 ^ 31 - 1) (0 : Byte)) T_CALL 7 8 1 42).1.write_buffer_) =
        .error .INVALID_DATA) ∧
    (∀ hw hr : ByteOrder, ¬ ∃ len : Int, len ≤ INT_MAX ∧ ∃ d : Decoded,
      readScenario hr (setBuffer Protocol.new (writeScenario hw Protocol.new
        (List.replicate (2 ^ 31 - 1) (0 : Byte)) T_CALL 7 8 1 42).1.write_buffer_ len []) =
        .ok d) :=
  readScenario_int_limit (List.replicate (2 ^ 31 - 1) (0 : Byte)) (List.length_replicate _ _)

/-! ## What a read does to the cursor -/

theorem Adv_refl (p : Protocol) : Adv p p :=
  ⟨0, le_refl _, Or.inl rfl, (advance_zero p).symm⟩

theorem Adv_advance (p : Protocol) (w : Int) (h0 : 0 ≤ w) (h : w ≤ p.read_buffer_len_) :
    Adv p (advance p w) :=
  ⟨w, h0, Or.inr h, rfl⟩

theorem Adv_trans (p q r : Protocol) (h1 : Adv p q) (h2 : Adv q r) : Adv p r := by
  obtain ⟨m1, h10, h11, rfl⟩ := h1
  obtain ⟨m2, h20, h21, rfl⟩ := h2
  refine ⟨m1 + m2, by omega, ?_, advance_advance p m1 m2⟩
  simp only [advance] at h21
  omega

theorem Bound_of_Adv (p q : Protocol) (hb : Bound p) (h : Adv p q) : Bound q := by
  obtain ⟨m, h0, h1, rfl⟩ := h
  have hl := length_rest p hb
  exact Bound_advance p hb m h0 (by omega)

theorem load_some_of_Bound (p : Protocol) (hb : Bound p) (n : Nat)
    (h : (n : Int) ≤ p.read_buffer_len_) : ∃ bs, load p p.read_buffer_ n = some bs := by
  have := load_advance p hb 0 n h
  rw [load_advance_eq] at this
  exact ⟨_, this⟩

theorem peek_some_of_Bound (p : Protocol) (hb : Bound p) (h : 1 ≤ p.read_buffer_len_) :
    ∃ c, peek p p.read_buffer_ = some c := by
  obtain ⟨c, tl, hr⟩ := rest_cons_of_len p hb h
  have := peek_advance p 0 hb
  rw [hr] at this
  exact ⟨c, by simpa [peek, advance] using this⟩

theorem peek_advance_eq (p : Protocol) (m b : Int) : peek (advance p m) b = peek p b := rfl

theorem Fine_error {α : Type} (p q : Protocol) (e : Failure) (x : α)
    (he : e ≠ .OUT_OF_REGION) (ha : Adv p q) : Fine p ⟨.error e, x, q⟩ :=
  ⟨ha, (fun _ h => by cases h), (fun _ h => he (by injection h))⟩

theorem Fine_outside {α : Type} (p q : Protocol) (x : α) (hn : ¬ Bound p) (ha : Adv p q) :
    Fine p ⟨.error .OUT_OF_REGION, x, q⟩ :=
  ⟨ha, (fun _ h => by cases h), (fun hb => absurd hb hn)⟩

theorem Fine_ok {α : Type} (p : Protocol) (w : Nat) (v : α)
    (h : (w : Int) = 0 ∨ (w : Int) ≤ p.read_buffer_len_) : Fine p ⟨.ok w, v, advance p w⟩ := by
  refine ⟨⟨w, by omega, h, rfl⟩, ?_, (fun _ h => by cases h)⟩
  intro n hn
  simp only [Except.ok.injEq] at hn
  subst hn
  rfl

theorem Fine_readBool (p : Protocol) (x : Bool) :
    Fine p (readBool p x) := by
  by_cases hl : 1 ≤ p.read_buffer_len_
  · simp only [readBool, readBuffer_ok p 1 hl, peek_advance_eq]
    cases hp : peek p p.read_buffer_ with
    | none =>
      refine Fine_outside p _ x (fun hb => ?_) (Adv_advance p 1 (by norm_num) hl)
      obtain ⟨c, hc⟩ := peek_some_of_Bound p hb hl
      rw [hc] at hp
      cases hp
    | some c => exact Fine_ok p 1 _ (Or.inr (by simpa using hl))
  · rw [readBool_short p (by omega)]
    exact Fine_error p p _ x (by decide) (Adv_refl p)

theorem Fine_readByte (p : Protocol) (x : Int) :
    Fine p (readByte p x) := by
  by_cases hl : 1 ≤ p.read_buffer_len_
  · simp only [readByte, readBuffer_ok p 1 hl, peek_advance_eq]
    cases hp : peek p p.read_buffer_ with
    | none =>
      refine Fine_outside p _ x (fun hb => ?_) (Adv_advance p 1 (by norm_num) hl)
      obtain ⟨c, hc⟩ := peek_some_of_Bound p hb hl
      rw [hc] at hp
      cases hp
    | some c => exact Fine_ok p 1 _ (Or.inr (by simpa using hl))
  · rw [readByte_short p (by omega)]
    exact Fine_error p p _ x (by decide) (Adv_refl p)

theorem Fine_readI16 (host : ByteOrder) (p : Protocol) (x : Int) :
    Fine p (readI16 host p x) := by
  by_cases hl : 2 ≤ p.read_buffer_len_
  · simp only [readI16, readBuffer_ok p 2 hl, load_advance_eq]
    cases hp : load p p.read_buffer_ 2 with
    | none =>
      refine Fine_outside p _ x (fun hb => ?_) (Adv_advance p 2 (by norm_num) hl)
      obtain ⟨c, hc⟩ := load_some_of_Bound p hb 2 (by simpa using hl)
      rw [hc] at hp
      cases hp
    | some c => exact Fine_ok p 2 _ (Or.inr (by simpa using hl))
  · rw [readI16_short host p (by omega)]
    exact Fine_error p p _ x (by decide) (Adv_refl p)

theorem Fine_readI32 (host : ByteOrder) (p : Protocol) (x : Int) :
    Fine p (readI32 host p x) := by
  by_cases hl : 4 ≤ p.read_buffer_len_
  · simp only [readI32, readBuffer_ok p 4 hl, load_advance_eq]
    cases hp : load p p.read_buffer_ 4 with
    | none =>
      refine Fine_outside p _ x (fun hb => ?_) (Adv_advance p 4 (by norm_num) hl)
      obtain ⟨c, hc⟩ := load_some_of_Bound p hb 4 (by simpa using hl)
      rw [hc] at hp
      cases hp
    | some c => exact Fine_ok p 4 _ (Or.inr (by simpa using hl))
  · rw [readI32_short host p (by omega)]
    exact Fine_error p p _ x (by decide) (Adv_refl p)

theorem Fine_readI64 (host : ByteOrder) (p : Protocol) (x : Int) :
    Fine p (readI64 host p x) := by
  by_cases hl : 8 ≤ p.read_buffer_len_
  · simp only [readI64, readBuffer_ok p 8 hl, load_advance_eq]
    cases hp : load p p.read_buffer_ 8 with
    | none =>
      refine Fine_outside p _ x (fun hb => ?_) (Adv_advance p 8 (by norm_num) hl)
      obtain ⟨c, hc⟩ := load_some_of_Bound p hb 8 (by simpa using hl)
      rw [hc] at hp
      cases hp
    | some c => exact Fine_ok p 8 _ (Or.inr (by simpa using hl))
  · rw [readI64_short host p (by omega)]
    exact Fine_error p p _ x (by decide) (Adv_refl p)

theorem Fine_readDouble (host : ByteOrder) (p : Protocol) (x : Nat) :
    Fine p (readDouble host p x) := by
  by_cases hl : 8 ≤ p.read_buffer_len_
  · simp only [readDouble, readBuffer_ok p 8 hl, load_advance_eq]
    cases hp : load p p.read_buffer_ 8 with
    | none =>
      refine Fine_outside p _ x (fun hb => ?_) (Adv_advance p 8 (by norm_num) hl)
      obtain ⟨c, hc⟩ := load_some_of_Bound p hb 8 (by simpa using hl)
      rw [hc] at hp
      cases hp
    | some c => exact Fine_ok p 8 _ (Or.inr (by simpa using hl))
  · rw [readDouble_short host p (by omega)]
    exact Fine_error p p _ x (by decide) (Adv_refl p)


/-- A call that throws hands the exception on: the caller's result has the
same failure and the state the call left. -/
theorem Fine_throw {α β : Type} (p : Protocol) (r1 : Res α) (e : Failure) (x : β)
    (h1 : Fine p r1) (he : r1.ret = .error e) : Fine p ⟨.error e, x, r1.st⟩ := by
  refine ⟨h1.1, (fun _ h => by cases h), ?_⟩
  intro hb h
  simp only [Except.error.injEq] at h
  subst h
  exact h1.2.2 hb he

/-- One more step after a call that returned `n1`. -/
theorem Fine_then {α β : Type} (p : Protocol) (r1 : Res α) (n1 : Nat) (h1 : Fine p r1)
    (hok1 : r1.ret = .ok n1) (q : Protocol) (ret : Except Failure Nat) (x : β)
    (hq : Adv r1.st q)
    (hok : ∀ n, ret = .ok n → ∃ n2 : Nat, n = n1 + n2 ∧ q = advance r1.st n2)
    (hin : Bound r1.st → ret ≠ .error .OUT_OF_REGION) : Fine p ⟨ret, x, q⟩ := by
  refine ⟨Adv_trans p r1.st q h1.1 hq, ?_, ?_⟩
  · intro n hn
    obtain ⟨n2, rfl, hq2⟩ := hok n hn
    show q = _
    rw [hq2, h1.2.1 n1 hok1, advance_advance]
    push_cast
    rfl
  · intro hb
    exact hin (Bound_of_Adv p r1.st hb h1.1)

theorem toSigned_range_32 (u : Nat) : -2 ^ 31 ≤ toSigned 32 u ∧ toSigned 32 u < 2 ^ 31 := by
  have h : u % 2 ^ 32 < 2 ^ 32 := Nat.mod_lt _ (by norm_num)
  simp only [toSigned]
  split
  · rename_i hlt
    have hlt2 : u % 2 ^ 32 < 2 ^ 31 := by simpa using hlt
    have : ((u % 2 ^ 32 : Nat) : Int) < 2 ^ 31 := by exact_mod_cast hlt2
    omega
  · rename_i hge
    have hge2 : ¬ u % 2 ^ 32 < 2 ^ 31 := by simpa using hge
    have h1 : ((u % 2 ^ 32 : Nat) : Int) < 2 ^ 32 := by exact_mod_cast h
    have h2 : (2 : Int) ^ 31 ≤ ((u % 2 ^ 32 : Nat) : Int) := by
      have : 2 ^ 31 ≤ u % 2 ^ 32 := by omega
      exact_mod_cast this
    push_cast
    omega

/-- What `readI32` returns when it returns: the count 4 and a value of the 32-bit range. -/
theorem readI32_ok_inv (host : ByteOrder) (p : Protocol) (x : Int) (n : Nat)
    (h : (readI32 host p x).ret = .ok n) :
    n = 4 ∧ -2 ^ 31 ≤ (readI32 host p x).out ∧ (readI32 host p x).out < 2 ^ 31 := by
  by_cases hl : 4 ≤ p.read_buffer_len_
  · simp only [readI32, readBuffer_ok p 4 hl, load_advance_eq] at h ⊢
    cases hp : load p p.read_buffer_ 4 with
    | none => rw [hp] at h; cases h
    | some c =>
      rw [hp] at h
      simp only [Except.ok.injEq] at h
      exact ⟨h.symm, toSigned_range_32 _⟩
  · rw [readI32_short host p (by omega)] at h
    cases h

theorem readByte_ok_inv (p : Protocol) (x : Int) (n : Nat) (h : (readByte p x).ret = .ok n) :
    n = 1 := by
  by_cases hl : 1 ≤ p.read_buffer_len_
  · simp only [readByte, readBuffer_ok p 1 hl, peek_advance_eq] at h
    cases hp : peek p p.read_buffer_ with
    | none => rw [hp] at h; cases h
    | some c =>
      rw [hp] at h
      simp only [Except.ok.injEq] at h
      exact h.symm
  · rw [readByte_short p (by omega)] at h
    cases h

theorem readI16_ok_inv (host : ByteOrder) (p : Protocol) (x : Int) (n : Nat)
    (h : (readI16 host p x).ret = .ok n) : n = 2 := by
  by_cases hl : 2 ≤ p.read_buffer_len_
  · simp only [readI16, readBuffer_ok p 2 hl, load_advance_eq] at h
    cases hp : load p p.read_buffer_ 2 with
    | none => rw [hp] at h; cases h
    | some c =>
      rw [hp] at h
      simp only [Except.ok.injEq] at h
      exact h.symm
  · rw [readI16_short host p (by omega)] at h
    cases h

theorem toUnsigned_of_range (size : Int) (h0 : 0 ≤ size) (h1 : size < 2 ^ 31) :
    ((toUnsigned 32 size : Nat) : Int) = size ∧ toUnsigned 32 size < 2 ^ 31 := by
  obtain ⟨k, rfl⟩ := Int.eq_ofNat_of_zero_le h0
  have hk : k < 2 ^ 31 := by exact_mod_cast h1
  rw [toUnsigned_natCast, Nat.mod_eq_of_lt (by omega)]
  exact ⟨rfl, hk⟩

/-- The body of a string, for a size of the 32-bit range. -/
theorem Fine_readStringBody (p : Protocol) (str : List Byte) (size : Int)
    (hs : size < 2 ^ 31) :
    Fine p (readStringBody p str size) ∧
      ∀ n, (readStringBody p str size).ret = .ok n → n < 2 ^ 31 := by
  by_cases hpos : size > 0
  · have hu := toUnsigned_of_range size (by omega) hs
    by_cases hl : size ≤ p.read_buffer_len_
    · simp only [readStringBody, hpos, if_true, readBuffer_ok p size hl, load_advance_eq]
      cases hp : load p p.read_buffer_ size.toNat with
      | none =>
        refine ⟨Fine_outside p _ str (fun hb => ?_) (Adv_advance p size (by omega) hl),
          (fun n h => by cases h)⟩
        obtain ⟨c, hc⟩ := load_some_of_Bound p hb size.toNat (by omega)
        rw [hc] at hp
        cases hp
      | some c =>
        constructor
        · have := Fine_ok p (toUnsigned 32 size) c (Or.inr (by omega))
          rwa [hu.1] at this
        · intro n h
          simp only [Except.ok.injEq] at h
          omega
    · simp only [readStringBody, hpos, if_true, readBuffer_fail p size (by omega)]
      exact ⟨Fine_error p p _ str (by decide) (Adv_refl p), (fun n h => by cases h)⟩
  · by_cases hneg : size < 0
    · simp only [readStringBody, hpos, hneg, if_true, if_false]
      exact ⟨Fine_error p p _ str (by decide) (Adv_refl p), (fun n h => by cases h)⟩
    · simp only [readStringBody, hpos, hneg, if_false]
      constructor
      · have := Fine_ok p 0 ([] : List Byte) (Or.inl rfl)
        simpa [advance_zero] using this
      · intro n h
        simp only [Except.ok.injEq] at h
        omega

theorem u32_small (n : Nat) (h : n < 2 ^ 32) : u32 n = n := Nat.mod_eq_of_lt h

theorem Fine_readString (host : ByteOrder) (p : Protocol) (str : List Byte) :
    Fine p (readString host p str) ∧
      ∀ n, (readString host p str).ret = .ok n → n < 2 ^ 31 + 4 := by
  have h1 := Fine_readI32 host p 0
  simp only [readString]
  cases hr1 : (readI32 host p 0).ret with
  | error e => exact ⟨Fine_throw p _ e str h1 hr1, (fun n h => by cases h)⟩
  | ok n1 =>
    obtain ⟨rfl, -, hhi⟩ := readI32_ok_inv host p 0 n1 hr1
    obtain ⟨h2, hb2⟩ := Fine_readStringBody (readI32 host p 0).st str (readI32 host p 0).out hhi
    cases hr2 : (readStringBody (readI32 host p 0).st str (readI32 host p 0).out).ret with
    | error e =>
      refine ⟨Fine_then p _ 4 h1 hr1 _ _ _ h2.1 (fun n h => by cases h) (fun hb h => ?_),
        (fun n h => by cases h)⟩
      simp only [Except.error.injEq] at h
      subst h
      exact h2.2.2 hb hr2
    | ok n2 =>
      have hn2 := hb2 n2 hr2
      have hu : u32 (4 + n2) = 4 + n2 := u32_small _ (by omega)
      dsimp only
      rw [hu]
      refine ⟨Fine_then p _ 4 h1 hr1 _ _ _ h2.1 (fun n h => ?_) (fun _ h => by cases h),
        (fun n h => ?_)⟩
      · simp only [Except.ok.injEq] at h
        exact ⟨n2, h.symm, h2.2.1 n2 hr2⟩
      · simp only [Except.ok.injEq] at h
        omega

theorem Fine_last_error {α β γ : Type} (p : Protocol) (r1 : Res α) (r2 : Res β) (n1 : Nat)
    (e : Failure) (x : γ) (h1 : Fine p r1) (hok1 : r1.ret = .ok n1) (h2 : Fine r1.st r2)
    (he : r2.ret = .error e) : Fine p ⟨.error e, x, r2.st⟩ := by
  refine Fine_then p r1 n1 h1 hok1 _ _ _ h2.1 (fun n h => by cases h) (fun hb h => ?_)
  simp only [Except.error.injEq] at h
  subst h
  exact h2.2.2 hb he

theorem Fine_last_ok {α β γ : Type} (p : Protocol) (r1 : Res α) (r2 : Res β) (n1 n2 : Nat)
    (x : γ) (h1 : Fine p r1) (hok1 : r1.ret = .ok n1) (h2 : Fine r1.st r2)
    (hok2 : r2.ret = .ok n2) : Fine p ⟨.ok (n1 + n2), x, r2.st⟩ := by
  refine Fine_then p r1 n1 h1 hok1 _ _ _ h2.1 (fun n h => ?_) (fun _ h => by cases h)
  simp only [Except.ok.injEq] at h
  exact ⟨n2, h.symm, h2.2.1 n2 hok2⟩

theorem Fine_raise {α γ : Type} (p : Protocol) (r1 : Res α) (_n1 : Nat) (e : Failure) (x : γ)
    (h1 : Fine p r1) (he : e ≠ .OUT_OF_REGION) : Fine p ⟨.error e, x, r1.st⟩ :=
  ⟨h1.1, (fun _ h => by cases h), (fun _ h => he (by injection h))⟩

theorem Fine_same {α γ : Type} (p : Protocol) (r1 : Res α) (n1 : Nat) (x : γ)
    (h1 : Fine p r1) (hok1 : r1.ret = .ok n1) : Fine p ⟨.ok n1, x, r1.st⟩ := by
  refine ⟨h1.1, (fun n h => ?_), (fun _ h => by cases h)⟩
  simp only [Except.ok.injEq] at h
  subst h
  exact h1.2.1 _ hok1

theorem Fine_readFieldBegin (host : ByteOrder) (p : Protocol) (name : List Byte) (t0 : TType)
    (id0 : Int) :
    Fine p (readFieldBegin host p name t0 id0) ∧
      ∀ n, (readFieldBegin host p name t0 id0).ret = .ok n → n = 1 ∨ n = 3 := by
  have h1 := Fine_readByte p 0
  simp only [readFieldBegin]
  cases hr1 : (readByte p 0).ret with
  | error e => exact ⟨Fine_throw p _ e _ h1 hr1, (fun n h => by cases h)⟩
  | ok n1 =>
    have hn1 := readByte_ok_inv p 0 n1 hr1
    subst hn1
    dsimp only
    split
    · refine ⟨Fine_same p _ 1 _ h1 hr1, (fun n h => ?_)⟩
      simp only [Except.ok.injEq] at h
      exact Or.inl h.symm
    · have h2 := Fine_readI16 host (readByte p 0).st id0
      cases hr2 : (readI16 host (readByte p 0).st id0).ret with
      | error e => exact ⟨Fine_last_error p _ _ 1 e _ h1 hr1 h2 hr2, (fun n h => by cases h)⟩
      | ok n2 =>
        have hn2 := readI16_ok_inv host _ id0 n2 hr2
        subst hn2
        refine ⟨Fine_last_ok p _ _ 1 2 _ h1 hr1 h2 hr2, (fun n h => ?_)⟩
        simp only [Except.ok.injEq] at h
        exact Or.inr h.symm

theorem Fine_readListBegin (host : ByteOrder) (p : Protocol) (e0 : TType) (size0 : Nat) :
    Fine p (readListBegin host p e0 size0) ∧
      ∀ n, (readListBegin host p e0 size0).ret = .ok n → n = 5 := by
  have h1 := Fine_readByte p 0
  simp only [readListBegin]
  cases hr1 : (readByte p 0).ret with
  | error e => exact ⟨Fine_throw p _ e _ h1 hr1, (fun n h => by cases h)⟩
  | ok n1 =>
    have hn1 := readByte_ok_inv p 0 n1 hr1
    subst hn1
    have h2 := Fine_readI32 host (readByte p 0).st 0
    cases hr2 : (readI32 host (readByte p 0).st 0).ret with
    | error e => exact ⟨Fine_last_error p _ _ 1 e _ h1 hr1 h2 hr2, (fun n h => by cases h)⟩
    | ok n2 =>
      obtain ⟨rfl, -, -⟩ := readI32_ok_inv host _ 0 n2 hr2
      dsimp only
      split
      · refine ⟨Fine_last_ok p _ _ 1 4 _ h1 hr1 h2 hr2, (fun n h => ?_)⟩
        simp only [Except.ok.injEq] at h
        exact h.symm
      · refine ⟨?_, (fun n h => by cases h)⟩
        have h12 : Fine p (⟨.ok (1 + 4), (), (readI32 host (readByte p 0).st 0).st⟩ : Res Unit) :=
          Fine_last_ok p _ _ 1 4 _ h1 hr1 h2 hr2
        exact @Fine_raise Unit _ p _ (1 + 4) _ _ h12 (by decide)

theorem Fine_readSetBegin (host : ByteOrder) (p : Protocol) (e0 : TType) (size0 : Nat) :
    Fine p (readSetBegin host p e0 size0) ∧
      ∀ n, (readSetBegin host p e0 size0).ret = .ok n → n = 5 := by
  have h1 := Fine_readByte p 0
  simp only [readSetBegin]
  cases hr1 : (readByte p 0).ret with
  | error e => exact ⟨Fine_throw p _ e _ h1 hr1, (fun n h => by cases h)⟩
  | ok n1 =>
    have hn1 := readByte_ok_inv p 0 n1 hr1
    subst hn1
    have h2 := Fine_readI32 host (readByte p 0).st 0
    cases hr2 : (readI32 host (readByte p 0).st 0).ret with
    | error e => exact ⟨Fine_last_error p _ _ 1 e _ h1 hr1 h2 hr2, (fun n h => by cases h)⟩
    | ok n2 =>
      obtain ⟨rfl, -, -⟩ := readI32_ok_inv host _ 0 n2 hr2
      dsimp only
      split
      · refine ⟨Fine_last_ok p _ _ 1 4 _ h1 hr1 h2 hr2, (fun n h => ?_)⟩
        simp only [Except.ok.injEq] at h
        exact h.symm
      · refine ⟨?_, (fun n h => by cases h)⟩
        have h12 : Fine p (⟨.ok (1 + 4), (), (readI32 host (readByte p 0).st 0).st⟩ : Res Unit) :=
          Fine_last_ok p _ _ 1 4 _ h1 hr1 h2 hr2
        exact @Fine_raise Unit _ p _ (1 + 4) _ _ h12 (by decide)

theorem Fine_readMapBegin (host : ByteOrder) (p : Protocol) (k0 v0 : TType) (size0 : Nat) :
    Fine p (readMapBegin host p k0 v0 size0) ∧
      ∀ n, (readMapBegin host p k0 v0 size0).ret = .ok n → n = 6 := by
  have h1 := Fine_readByte p 0
  simp only [readMapBegin]
  cases hr1 : (readByte p 0).ret with
  | error e => exact ⟨Fine_throw p _ e _ h1 hr1, (fun n h => by cases h)⟩
  | ok n1 =>
    have hn1 := readByte_ok_inv p 0 n1 hr1
    subst hn1
    have h2 := Fine_readByte (readByte p 0).st 0
    cases hr2 : (readByte (readByte p 0).st 0).ret with
    | error e => exact ⟨Fine_last_error p _ _ 1 e _ h1 hr1 h2 hr2, (fun n h => by cases h)⟩
    | ok n2 =>
      have hn2 := readByte_ok_inv _ 0 n2 hr2
      subst hn2
      have h12 : Fine p (⟨.ok (1 + 1), (), (readByte (readByte p 0).st 0).st⟩ : Res Unit) :=
        Fine_last_ok p _ _ 1 1 _ h1 hr1 h2 hr2
      have h3 := Fine_readI32 host (readByte (readByte p 0).st 0).st 0
      cases hr3 : (readI32 host (readByte (readByte p 0).st 0).st 0).ret with
      | error e =>
        exact ⟨Fine_last_error p _ _ (1 + 1) e _ h12 rfl h3 hr3, (fun n h => by cases h)⟩
      | ok n3 =>
        obtain ⟨rfl, -, -⟩ := readI32_ok_inv host _ 0 n3 hr3
        dsimp only
        split
        · refine ⟨Fine_last_ok p _ _ (1 + 1) 4 _ h12 rfl h3 hr3, (fun n h => ?_)⟩
          simp only [Except.ok.injEq] at h
          exact h.symm
        · refine ⟨?_, (fun n h => by cases h)⟩
          have h123 : Fine p (⟨.ok (1 + 1 + 4), (),
              (readI32 host (readByte (readByte p 0).st 0).st 0).st⟩ : Res Unit) :=
            Fine_last_ok p _ _ (1 + 1) 4 _ h12 rfl h3 hr3
          exact @Fine_raise Unit _ p _ (1 + 1 + 4) _ _ h123 (by decide)

theorem Fine_readMessageBegin (host : ByteOrder) (p : Protocol) (n0 : List Byte)
    (m0 : TMessageType) (s0 : Int) : Fine p (readMessageBegin host p n0 m0 s0) := by
  have h1 := Fine_readI32 host p 0
  simp only [readMessageBegin]
  cases hr1 : (readI32 host p 0).ret with
  | error e => exact Fine_throw p _ e _ h1 hr1
  | ok n1 =>
    obtain ⟨rfl, -, hhi⟩ := readI32_ok_inv host p 0 n1 hr1
    dsimp only
    split
    · -- the legacy layout
      obtain ⟨h2, hb2⟩ := Fine_readStringBody (readI32 host p 0).st n0 (readI32 host p 0).out hhi
      cases hr2 : (readStringBody (readI32 host p 0).st n0 (readI32 host p 0).out).ret with
      | error e => exact Fine_last_error p _ _ 4 e _ h1 hr1 h2 hr2
      | ok n2 =>
        have hn2 := hb2 n2 hr2
        have h12 : Fine p (⟨.ok (4 + n2), (),
            (readStringBody (readI32 host p 0).st n0 (readI32 host p 0).out).st⟩ : Res Unit) :=
          Fine_last_ok p _ _ 4 n2 _ h1 hr1 h2 hr2
        have h3 := Fine_readByte
          (readStringBody (readI32 host p 0).st n0 (readI32 host p 0).out).st 0
        dsimp only
        cases hr3 : (readByte
            (readStringBody (readI32 host p 0).st n0 (readI32 host p 0).out).st 0).ret with
        | error e => exact Fine_last_error p _ _ (4 + n2) e _ h12 rfl h3 hr3
        | ok n3 =>
          have hn3 := readByte_ok_inv _ 0 n3 hr3
          subst hn3
          have h123 : Fine p (⟨.ok (4 + n2 + 1), (), (readByte
              (readStringBody (readI32 host p 0).st n0 (readI32 host p 0).out).st 0).st⟩ :
              Res Unit) :=
            Fine_last_ok p _ _ (4 + n2) 1 _ h12 rfl h3 hr3
          have h4 := Fine_readI32 host (readByte
            (readStringBody (readI32 host p 0).st n0 (readI32 host p 0).out).st 0).st s0
          dsimp only
          cases hr4 : (readI32 host (readByte
              (readStringBody (readI32 host p 0).st n0 (readI32 host p 0).out).st 0).st s0).ret with
          | error e => exact Fine_last_error p _ _ (4 + n2 + 1) e _ h123 rfl h4 hr4
          | ok n4 =>
            obtain ⟨rfl, -, -⟩ := readI32_ok_inv host _ s0 n4 hr4
            have hu : u32 (u32 (u32 (4 + n2) + 1) + 4) = 4 + n2 + 1 + 4 := by
              rw [u32_small (4 + n2) (by omega), u32_small (4 + n2 + 1) (by omega),
                u32_small (4 + n2 + 1 + 4) (by omega)]
            dsimp only
            rw [hu]
            exact Fine_last_ok p _ _ (4 + n2 + 1) 4 _ h123 rfl h4 hr4
    · -- the versioned layout
      split
      · exact Fine_raise p _ 4 _ _ h1 (by decide)
      · obtain ⟨h2, hb2⟩ := Fine_readString host (readI32 host p 0).st n0
        cases hr2 : (readString host (readI32 host p 0).st n0).ret with
        | error e => exact Fine_last_error p _ _ 4 e _ h1 hr1 h2 hr2
        | ok n2 =>
          have hn2 := hb2 n2 hr2
          have h12 : Fine p (⟨.ok (4 + n2), (),
              (readString host (readI32 host p 0).st n0).st⟩ : Res Unit) :=
            Fine_last_ok p _ _ 4 n2 _ h1 hr1 h2 hr2
          have h3 := Fine_readI32 host (readString host (readI32 host p 0).st n0).st s0
          dsimp only
          cases hr3 : (readI32 host (readString host (readI32 host p 0).st n0).st s0).ret with
          | error e => exact Fine_last_error p _ _ (4 + n2) e _ h12 rfl h3 hr3
          | ok n3 =>
            obtain ⟨rfl, -, -⟩ := readI32_ok_inv host _ s0 n3 hr3
            have hu : u32 (u32 (4 + n2) + 4) = 4 + n2 + 4 := by
              rw [u32_small (4 + n2) (by omega), u32_small (4 + n2 + 4) (by omega)]
            dsimp only
            rw [hu]
            exact Fine_last_ok p _ _ (4 + n2) 4 _ h12 rfl h3 hr3

theorem Fine_noop {α : Type} (p : Protocol) (x : α) : Fine p ⟨.ok 0, x, p⟩ := by
  have := Fine_ok p 0 x (Or.inl rfl)
  simpa [advance_zero] using this

/-- Every public reading call, in every state: the state it leaves is the
state moved on by what the checked access let pass, a returned count is the
distance moved, and from a state that satisfies the invariant no access
outside the region is made. -/
theorem runRead_fine (host : ByteOrder) (p : Protocol) (c : ReadCall) :
    Adv p (runRead host p c).2 ∧
      (∀ n : Nat, (runRead host p c).1 = .ok n → (runRead host p c).2 = advance p n) ∧
      (Bound p → (runRead host p c).1 ≠ .error .OUT_OF_REGION) := by
  cases c with
  | readMessageBegin name messageType seqid =>
    exact Fine_readMessageBegin host p name messageType seqid
  | readMessageEnd => exact Fine_noop p ()
  | readStructBegin name => exact Fine_noop p name
  | readStructEnd => exact Fine_noop p ()
  | readFieldBegin name fieldType fieldId =>
    exact (Fine_readFieldBegin host p name fieldType fieldId).1
  | readFieldEnd => exact Fine_noop p ()
  | readMapBegin keyType valType size => exact (Fine_readMapBegin host p keyType valType size).1
  | readMapEnd => exact Fine_noop p ()
  | readListBegin elemType size => exact (Fine_readListBegin host p elemType size).1
  | readListEnd => exact Fine_noop p ()
  | readSetBegin elemType size => exact (Fine_readSetBegin host p elemType size).1
  | readSetEnd => exact Fine_noop p ()
  | readBool value => exact Fine_readBool p value
  | readByte byte => exact Fine_readByte p byte
  | readI16 i16 => exact Fine_readI16 host p i16
  | readI32 i32 => exact Fine_readI32 host p i32
  | readI64 i64 => exact Fine_readI64 host p i64
  | readDouble dub => exact Fine_readDouble host p dub
  | readString str => exact (Fine_readString host p str).1
  | readBinary str => exact (Fine_readString host p str).1

theorem region_of_Adv (p q : Protocol) (h : Adv p q) :
    q.read_region = p.read_region ∧ q.write_buffer_ = p.write_buffer_ := by
  obtain ⟨m, -, -, rfl⟩ := h
  exact ⟨rfl, rfl⟩

theorem runReads_safe (host : ByteOrder) (cs : List ReadCall) :
    ∀ p : Protocol, Bound p → ∀ o ∈ runReads host p cs,
      Bound o.2 ∧ o.2.read_region = p.read_region ∧ o.1 ≠ .error .OUT_OF_REGION := by
  induction cs with
  | nil => intro p _ o ho; simp [runReads] at ho
  | cons c cs ih =>
    intro p hb o ho
    have hf := runRead_fine host p c
    have hb2 := Bound_of_Adv p _ hb hf.1
    have hreg := (region_of_Adv p _ hf.1).1
    simp only [runReads, List.mem_cons] at ho
    rcases ho with rfl | ho
    · exact ⟨hb2, hreg, hf.2.2 hb⟩
    · obtain ⟨h1, h2, h3⟩ := ih _ hb2 o ho
      exact ⟨h1, h2.trans hreg, h3⟩

/-- C14. The read path never reads past the end of the bound region. After
`setBuffer` with the length of the region the invariant holds: the read
pointer `p` satisfies `0 ≤ p ≤ L` and `read_buffer_len_ = L - p`. Every public
reading call (`readBool`, `readByte`, `readI16`, `readI32`, `readI64`,
`readDouble`, `readString`, `readBinary`, `readFieldBegin`, `readMapBegin`,
`readListBegin`, `readSetBegin`, `readMessageBegin` and the begin/end hooks)
made in a state that satisfies the invariant leaves, whether it returns or
throws, a state that satisfies it over the same region, and makes no access
outside the region; so does every call of every finite sequence of calls. -/
theorem read_path_stays_in_region (host : ByteOrder) :
    (∀ (p0 : Protocol) (region w : List Byte),
      Bound (setBuffer p0 region region.length w) ∧
      (setBuffer p0 region region.length w).read_buffer_ = 0 ∧
      (setBuffer p0 region region.length w).read_region = region) ∧
    (∀ (p : Protocol) (c : ReadCall), Bound p →
      Bound (runRead host p c).2 ∧ (runRead host p c).2.read_region = p.read_region ∧
      (runRead host p c).1 ≠ .error .OUT_OF_REGION) ∧
    (∀ (p : Protocol) (cs : List ReadCall), Bound p → ∀ o ∈ runReads host p cs,
      Bound o.2 ∧ o.2.read_region = p.read_region ∧ o.1 ≠ .error .OUT_OF_REGION) := by
  refine ⟨?_, ?_, ?_⟩
  · intro p0 region w
    refine ⟨?_, rfl, rfl⟩
    simp [Bound, setBuffer]
  · intro p c hb
    have hf := runRead_fine host p c
    exact ⟨Bound_of_Adv p _ hb hf.1, (region_of_Adv p _ hf.1).1, hf.2.2 hb⟩
  · intro p cs hb
    exact runReads_safe host cs p hb

theorem read_path_stays_in_region_witness :
    List.Forall
      (fun o : Except Failure Nat × Protocol =>
        Bound o.2 ∧ o.2.read_region = (boundTo [0x00, 0x00, 0x00, 0x05, 0x41, 0x42]).read_region ∧
          o.1 ≠ .error .OUT_OF_REGION)
      (runReads .LITTLE_ENDIAN (boundTo [0x00, 0x00, 0x00, 0x05, 0x41, 0x42])
        [.readString [], .readI32 0, .readMapBegin 0 0 0, .readBool false, .readByte 0]) :=
  List.forall_iff_forall_mem.mpr
    ((read_path_stays_in_region .LITTLE_ENDIAN).2.2
      (boundTo [0x00, 0x00, 0x00, 0x05, 0x41, 0x42])
      [.readString [], .readI32 0, .readMapBegin 0 0 0, .readBool false, .readByte 0]
      (Bound_boundTo _ (by decide)).1)

/-! ## Byte counts -/

theorem writeMessageBegin_any_kind (host : ByteOrder) (p : Protocol) (name : List Byte)
    (kind : TMessageType) (seqid : Int) (hn : 12 + name.length < 2 ^ 32) :
    writeMessageBegin host p name kind seqid =
      ({ p with write_buffer_ := p.write_buffer_ ++
          (beBytes 4 (toUnsigned 32 (or32 VERSION_1 (castSigned 32 kind))) ++
            (beBytes 4 name.length ++ (name ++ beBytes 4 (toUnsigned 32 seqid)))) },
        12 + name.length) := by
  have h1 : u32 (4 + (4 + name.length)) = 4 + (4 + name.length) := Nat.mod_eq_of_lt (by omega)
  have h2 : u32 (4 + (4 + name.length) + 4) = 12 + name.length := by
    rw [u32, Nat.mod_eq_of_lt (by omega)]; omega
  simp only [writeMessageBegin, writeI32_eq, writeString_eq host _ name (by omega), h1, h2,
    List.append_assoc]

/-- Every public writing call appends as many bytes as it returns. -/
theorem runWrite_count (host : ByteOrder) (p : Protocol) (c : WriteCall) (hc : c.fits) :
    ∃ bs : List Byte,
      (runWrite host p c).1 = { p with write_buffer_ := p.write_buffer_ ++ bs } ∧
        bs.length = (runWrite host p c).2 := by
  have hnil : p = { p with write_buffer_ := p.write_buffer_ ++ [] } := by
    cases p; simp
  cases c with
  | writeMessageBegin name messageType seqid =>
    simp only [WriteCall.fits] at hc
    refine ⟨_, by rw [runWrite, writeMessageBegin_any_kind host p name messageType seqid hc], ?_⟩
    rw [runWrite, writeMessageBegin_any_kind host p name messageType seqid hc]
    simp only [List.length_append, length_beBytes]
    omega
  | writeMessageEnd => exact ⟨[], hnil, rfl⟩
  | writeStructBegin name => exact ⟨[], hnil, rfl⟩
  | writeStructEnd => exact ⟨[], hnil, rfl⟩
  | writeFieldBegin name fieldType fieldId =>
    refine ⟨_, by rw [runWrite, writeFieldBegin_layout], ?_⟩
    rw [runWrite, writeFieldBegin_layout]
    simp [length_beBytes]
  | writeFieldEnd => exact ⟨[], hnil, rfl⟩
  | writeFieldStop => exact ⟨_, rfl, rfl⟩
  | writeMapBegin keyType valType size =>
    refine ⟨_, by rw [runWrite, writeMapBegin_layout], ?_⟩
    rw [runWrite, writeMapBegin_layout]
    simp [length_beBytes]
  | writeMapEnd => exact ⟨[], hnil, rfl⟩
  | writeListBegin elemType size =>
    refine ⟨_, by rw [runWrite, writeListBegin_layout], ?_⟩
    rw [runWrite, writeListBegin_layout]
    simp [length_beBytes]
  | writeListEnd => exact ⟨[], hnil, rfl⟩
  | writeSetBegin elemType size =>
    refine ⟨_, by rw [runWrite, writeSetBegin_layout], ?_⟩
    rw [runWrite, writeSetBegin_layout]
    simp [length_beBytes]
  | writeSetEnd => exact ⟨[], hnil, rfl⟩
  | writeBool value => exact ⟨_, rfl, rfl⟩
  | writeByte byte => exact ⟨_, rfl, rfl⟩
  | writeI16 i16 =>
    refine ⟨_, by rw [runWrite, writeI16_eq], ?_⟩
    rw [runWrite, writeI16_eq]
    simp [length_beBytes]
  | writeI32 i32 =>
    refine ⟨_, by rw [runWrite, writeI32_eq], ?_⟩
    rw [runWrite, writeI32_eq]
    simp [length_beBytes]
  | writeI64 i64 =>
    refine ⟨_, by rw [runWrite, writeI64_eq], ?_⟩
    rw [runWrite, writeI64_eq]
    simp [length_beBytes]
  | writeDouble dub =>
    refine ⟨_, by rw [runWrite, writeDouble_eq], ?_⟩
    rw [runWrite, writeDouble_eq]
    simp [length_beBytes]
  | writeString str =>
    simp only [WriteCall.fits] at hc
    refine ⟨beBytes 4 str.length ++ str,
      by rw [runWrite, writeString_eq host p str (by omega), List.append_assoc], ?_⟩
    rw [runWrite, writeString_eq host p str (by omega)]
    simp [length_beBytes]
  | writeBinary str =>
    simp only [WriteCall.fits] at hc
    refine ⟨beBytes 4 str.length ++ str,
      by rw [runWrite, writeBinary, writeString_eq host p str (by omega), List.append_assoc], ?_⟩
    rw [runWrite, writeBinary, writeString_eq host p str (by omega)]
    simp [length_beBytes]

/-- C15. Byte-count accounting. Every writing call whose string is short
enough for the count not to wrap (the number of bytes to write below `2^32`)
returns the number of bytes it appends to the sink, and changes nothing else.
Every reading call that returns, in whatever state, returns the distance by
which it moved the read pointer on and lowered `read_buffer_len_`. In
particular `writeMessageBegin` returns `12 + |name|`, `writeString` returns
`4 + |s|`, `writeMapBegin` returns 6, `writeListBegin` and `writeSetBegin`
return 5, and `readFieldBegin` returns 1 or 3. -/
theorem byte_count_accounting (host : ByteOrder) (p : Protocol) :
    (∀ c : WriteCall, c.fits → ∃ bs : List Byte,
      (runWrite host p c).1 = { p with write_buffer_ := p.write_buffer_ ++ bs } ∧
        bs.length = (runWrite host p c).2) ∧
    (∀ (c : ReadCall) (n : Nat), (runRead host p c).1 = .ok n →
      (runRead host p c).2 = advance p n ∧
      (runRead host p c).2.read_buffer_ = p.read_buffer_ + n ∧
      (runRead host p c).2.read_buffer_len_ = p.read_buffer_len_ - n) ∧
    (∀ (name : List Byte) (kind : TMessageType) (seqid : Int), 12 + name.length < 2 ^ 32 →
      (writeMessageBegin host p name kind seqid).2 = 12 + name.length) ∧
    (∀ s : List Byte, 4 + s.length < 2 ^ 32 → (writeString host p s).2 = 4 + s.length) ∧
    (∀ (k v e : TType) (n : Nat), (writeMapBegin host p k v n).2 = 6 ∧
      (writeListBegin host p e n).2 = 5 ∧ (writeSetBegin host p e n).2 = 5) ∧
    (∀ (name : List Byte) (t0 : TType) (id0 : Int) (n : Nat),
      (readFieldBegin host p name t0 id0).ret = .ok n → n = 1 ∨ n = 3) := by
  refine ⟨fun c hc => runWrite_count host p c hc, ?_, ?_, ?_, ?_, ?_⟩
  · intro c n h
    have hs := (runRead_fine host p c).2.1 n h
    refine ⟨hs, ?_, ?_⟩ <;> rw [hs] <;> rfl
  · intro name kind seqid hn
    rw [writeMessageBegin_any_kind host p name kind seqid hn]
  · intro s hs
    rw [writeString_eq host p s (by omega)]
  · intro k v e n
    rw [writeMapBegin_layout, writeListBegin_layout, writeSetBegin_layout]
    exact ⟨rfl, rfl, rfl⟩
  · intro name t0 id0 n h
    exact (Fine_readFieldBegin host p name t0 id0).2 n h

/-! ## The bytes a successful read has consumed -/

theorem readByte_bc (p : Protocol) (hb : Bound p) (x : Int) :
    (∃ e, (readByte p x).ret = .error e) ∨
      ∃ c tl, rest p = c :: tl ∧ readByte p x = ⟨.ok 1, toSigned 8 c.val, advance p 1⟩ := by
  by_cases hl : 1 ≤ p.read_buffer_len_
  · obtain ⟨c, tl, hr⟩ := rest_cons_of_len p hb hl
    exact Or.inr ⟨c, tl, hr, readByte_cons p hb c tl hr x⟩
  · exact Or.inl ⟨_, by rw [readByte_short p (by omega)]⟩

theorem readI16_bc (host : ByteOrder) (p : Protocol) (hb : Bound p) (x : Int) :
    (∃ e, (readI16 host p x).ret = .error e) ∨
      ∃ b2 tl, b2.length = 2 ∧ rest p = b2 ++ tl ∧
        readI16 host p x = ⟨.ok 2, toSigned 16 (beVal b2), advance p 2⟩ := by
  by_cases hl : 2 ≤ p.read_buffer_len_
  · obtain ⟨hr, hlen⟩ := split_rest p hb 2 (by simpa using hl)
    exact Or.inr ⟨_, _, hlen, hr, readI16_append host p hb _ _ hr hlen x⟩
  · exact Or.inl ⟨_, by rw [readI16_short host p (by omega)]⟩

theorem readI32_bc (host : ByteOrder) (p : Protocol) (hb : Bound p) (x : Int) :
    (∃ e, (readI32 host p x).ret = .error e) ∨
      ∃ b4 tl, b4.length = 4 ∧ rest p = b4 ++ tl ∧
        readI32 host p x = ⟨.ok 4, toSigned 32 (beVal b4), advance p 4⟩ := by
  by_cases hl : 4 ≤ p.read_buffer_len_
  · obtain ⟨hr, hlen⟩ := split_rest p hb 4 (by simpa using hl)
    exact Or.inr ⟨_, _, hlen, hr, readI32_append host p hb _ _ hr hlen x⟩
  · exact Or.inl ⟨_, by rw [readI32_short host p (by omega)]⟩

theorem readStringBody_bc (p : Protocol) (hb : Bound p) (str : List Byte) (size : Int)
    (hs : size < 2 ^ 31) :
    (∃ e, (readStringBody p str size).ret = .error e) ∨
      ∃ s tl, (s.length : Int) = size ∧ rest p = s ++ tl ∧
        readStringBody p str size = ⟨.ok s.length, s, advance p s.length⟩ := by
  by_cases hneg : size < 0
  · have h1 : ¬ size > 0 := by omega
    exact Or.inl ⟨.NEGATIVE_SIZE, by simp only [readStringBody, h1, hneg, if_true, if_false]⟩
  · by_cases hl : size ≤ p.read_buffer_len_
    · obtain ⟨k, rfl⟩ := Int.eq_ofNat_of_zero_le (show 0 ≤ size by omega)
      obtain ⟨hr, hlen⟩ := split_rest p hb k hl
      have hk : k < 2 ^ 31 := by exact_mod_cast hs
      refine Or.inr ⟨_, _, by rw [hlen], hr, ?_⟩
      have := readStringBody_append p hb _ _ hr (by rw [hlen]; omega) str
      rw [hlen] at this
      rw [hlen]
      exact this
    · have hpos : size > 0 := by
        have := length_rest p hb
        omega
      exact Or.inl ⟨.INVALID_DATA, by
        simp only [readStringBody, hpos, if_true, readBuffer_fail p size (by omega)]⟩

theorem beBytes_of_size (b4 s : List Byte) (hb4 : b4.length = 4)
    (h : (s.length : Int) = toSigned 32 (beVal b4)) :
    b4 = beBytes 4 s.length ∧ s.length < 2 ^ 31 := by
  have hu := beVal_lt_32 b4 hb4
  have hge : toSigned 32 (beVal b4) ≥ 0 := by omega
  have he := toSigned_nonneg_eq _ hu hge
  have hlen : s.length = beVal b4 := by
    have : (s.length : Int) = (beVal b4 : Int) := by rw [h, he]
    exact_mod_cast this
  have hlt : ¬ 2 ^ 31 ≤ beVal b4 := by
    intro hc
    have := (toSigned_neg_iff_32 _ hu).mpr hc
    omega
  refine ⟨?_, by omega⟩
  rw [hlen]
  have := beBytes_beVal b4
  rw [hb4] at this
  exact this.symm

theorem readString_bc (host : ByteOrder) (p : Protocol) (hb : Bound p) (str : List Byte) :
    (∃ e, (readString host p str).ret = .error e) ∨
      ∃ s tl, s.length < 2 ^ 31 ∧ rest p = beBytes 4 s.length ++ (s ++ tl) ∧
        readString host p str = ⟨.ok (4 + s.length), s, advance p (4 + s.length)⟩ := by
  rcases readI32_bc host p hb 0 with ⟨e, he⟩ | ⟨b4, tl, hb4, hr, e1⟩
  · exact Or.inl ⟨e, by simp only [readString, he]⟩
  · have st := step p hb b4 tl hr
    rw [hb4] at st
    simp only [Nat.cast_ofNat] at st
    rcases readStringBody_bc (advance p 4) st.2.1 str (toSigned 32 (beVal b4))
      (toSigned_range_32 _).2 with ⟨e, he⟩ | ⟨s, tl2, hlen, hr2, -⟩
    · exact Or.inl ⟨e, by simp only [readString, e1, he]⟩
    · obtain ⟨hb4', hlt⟩ := beBytes_of_size b4 s hb4 hlen
      have htl : tl = s ++ tl2 := st.2.2.1.symm.trans hr2
      have hr' : rest p = beBytes 4 s.length ++ (s ++ tl2) := by
        rw [hr, htl, ← hb4']
      exact Or.inr ⟨s, tl2, hlt, hr', readString_append host p hb s tl2 hr' hlt str⟩

theorem readFieldBegin_bc (host : ByteOrder) (p : Protocol) (hb : Bound p) (name : List Byte)
    (t0 : TType) (id0 : Int) :
    (∃ e, (readFieldBegin host p name t0 id0).ret = .error e) ∨
      (∃ tl, rest p = 0x00 :: tl) ∨
      (∃ c b2 tl, c ≠ 0x00 ∧ b2.length = 2 ∧ rest p = c :: (b2 ++ tl)) := by
  rcases readByte_bc p hb 0 with ⟨e, he⟩ | ⟨c, tl, hr, e1⟩
  · exact Or.inl ⟨e, by simp only [readFieldBegin, he]⟩
  · by_cases hc : c = 0
    · subst hc
      exact Or.inr (Or.inl ⟨tl, hr⟩)
    · have hne : ¬ toSigned 8 c.val = T_STOP := by
        rw [T_STOP, toSigned_8_eq_zero]; exact hc
      have st := step p hb [c] tl hr
      simp only [List.length_singleton, Nat.cast_one] at st
      rcases readI16_bc host (advance p 1) st.2.1 id0 with ⟨e, he⟩ | ⟨b2, tl2, hb2, hr2, -⟩
      · exact Or.inl ⟨e, by simp only [readFieldBegin, e1, hne, if_false, he]⟩
      · refine Or.inr (Or.inr ⟨c, b2, tl2, hc, hb2, ?_⟩)
        rw [hr, st.2.2.1.symm.trans hr2]

theorem readMapBegin_bc (host : ByteOrder) (p : Protocol) (hb : Bound p) (k0 v0 : TType)
    (size0 : Nat) :
    (∃ e, (readMapBegin host p k0 v0 size0).ret = .error e) ∨
      ∃ k v b4 tl, b4.length = 4 ∧ rest p = k :: v :: (b4 ++ tl) ∧
        toSigned 32 (beVal b4) ≥ 0 := by
  rcases readByte_bc p hb 0 with ⟨e, he⟩ | ⟨k, tl, hr, e1⟩
  · exact Or.inl ⟨e, by simp only [readMapBegin, he]⟩
  · have st := step p hb [k] tl hr
    simp only [List.length_singleton, Nat.cast_one] at st
    rcases readByte_bc (advance p 1) st.2.1 0 with ⟨e, he⟩ | ⟨v, tl2, hr2, e2⟩
    · exact Or.inl ⟨e, by simp only [readMapBegin, e1, he]⟩
    · have st2 := step _ st.2.1 [v] tl2 hr2
      simp only [List.length_singleton, Nat.cast_one] at st2
      rcases readI32_bc host (advance (advance p 1) 1) st2.2.1 0 with
        ⟨e, he⟩ | ⟨b4, tl3, hb4, hr3, -⟩
      · exact Or.inl ⟨e, by simp only [readMapBegin, e1, e2, he]⟩
      · have hrest : rest p = k :: v :: (b4 ++ tl3) := by
          rw [hr, st.2.2.1.symm.trans hr2, st2.2.2.1.symm.trans hr3]
        by_cases hs : toSigned 32 (beVal b4) ≥ 0
        · exact Or.inr ⟨k, v, b4, tl3, hb4, hrest, hs⟩
        · refine Or.inl ⟨.NEGATIVE_SIZE, ?_⟩
          rw [readMapBegin_header host p hb k v b4 tl3 hb4 hrest, if_neg hs]

theorem readMessageBegin_bc (host : ByteOrder) (p : Protocol) (hb : Bound p) (n0 : List Byte)
    (m0 : TMessageType) (s0 : Int) :
    (∃ e, (readMessageBegin host p n0 m0 s0).ret = .error e) ∨
      (∃ w4 name s4 tl, w4.length = 4 ∧ s4.length = 4 ∧ beVal w4 / 2 ^ 16 = 0x8001 ∧
        name.length < 2 ^ 31 ∧
        rest p = w4 ++ (beBytes 4 name.length ++ (name ++ (s4 ++ tl)))) ∨
      (∃ name c s4 tl, name.length < 2 ^ 31 ∧ s4.length = 4 ∧
        rest p = beBytes 4 name.length ++ (name ++ (c :: (s4 ++ tl)))) := by
  rcases readI32_bc host p hb 0 with ⟨e, he⟩ | ⟨w4, tl, hw4, hr, e1⟩
  · exact Or.inl ⟨e, by simp only [readMessageBegin, he]⟩
  · have hu := beVal_lt_32 w4 hw4
    have st := step p hb w4 tl hr
    rw [hw4] at st
    simp only [Nat.cast_ofNat] at st
    by_cases hge : toSigned 32 (beVal w4) ≥ 0
    · -- the legacy layout
      rcases readStringBody_bc (advance p 4) st.2.1 n0 (toSigned 32 (beVal w4))
        (toSigned_range_32 _).2 with ⟨e, he⟩ | ⟨name, tl2, hlen, hr2, e2⟩
      · exact Or.inl ⟨e, by simp only [readMessageBegin, e1, hge, if_true, he]⟩
      · obtain ⟨hw4', hlt⟩ := beBytes_of_size w4 name hw4 hlen
        have st2 := step _ st.2.1 name tl2 hr2
        rcases readByte_bc _ st2.2.1 0 with ⟨e, he⟩ | ⟨c, tl3, hr3, e3⟩
        · exact Or.inl ⟨e, by simp only [readMessageBegin, e1, hge, if_true, e2, he]⟩
        · have st3 := step _ st2.2.1 [c] tl3 hr3
          simp only [List.length_singleton, Nat.cast_one] at st3
          rcases readI32_bc host _ st3.2.1 s0 with ⟨e, he⟩ | ⟨s4, tl4, hs4, hr4, -⟩
          · exact Or.inl ⟨e, by simp only [readMessageBegin, e1, hge, if_true, e2, e3, he]⟩
          · refine Or.inr (Or.inr ⟨name, c, s4, tl4, hlt, hs4, ?_⟩)
            rw [hr, st.2.2.1.symm.trans hr2, st2.2.2.1.symm.trans hr3,
              st3.2.2.1.symm.trans hr4, ← hw4']
    · -- the versioned layout
      by_cases hver : beVal w4 / 2 ^ 16 = 0x8001
      · have hv : ¬ and32 (toSigned 32 (beVal w4)) VERSION_MASK ≠ VERSION_1 := by
          rw [not_not, version_test _ hu]; exact hver
        rcases readString_bc host (advance p 4) st.2.1 n0 with
          ⟨e, he⟩ | ⟨name, tl2, hlt, hr2, e2⟩
        · exact Or.inl ⟨e, by simp only [readMessageBegin, e1, hge, hv, if_false, he]⟩
        · have hr2' : rest (advance p 4) = (beBytes 4 name.length ++ name) ++ tl2 := by
            rw [hr2, List.append_assoc]
          have st2 := step _ st.2.1 _ tl2 hr2'
          simp only [List.length_append, length_beBytes] at st2
          rcases readI32_bc host _ st2.2.1 s0 with ⟨e, he⟩ | ⟨s4, tl3, hs4, hr3, -⟩
          · refine Or.inl ⟨e, ?_⟩
            have he' : (readI32 host (advance (advance p 4) (4 + (name.length : Int))) s0).ret =
                .error e := by
              have : ((4 + name.length : Nat) : Int) = 4 + (name.length : Int) := by push_cast; rfl
              rw [← this]; exact he
            simp only [readMessageBegin, e1, hge, hv, if_false, e2, he']
          · refine Or.inr (Or.inl ⟨w4, name, s4, tl3, hw4, hs4, hver, hlt, ?_⟩)
            rw [hr, st.2.2.1.symm.trans hr2, st2.2.2.1.symm.trans hr3]
      · exact Or.inl ⟨.BAD_VERSION, by
          rw [readMessageBegin_bad_version host p hb w4 tl hw4 (by omega) hver hr]⟩

theorem readString_local (host : ByteOrder) (p1 p2 p3 : Protocol) (hb1 : Bound p1)
    (hb2 : Bound p2) (hb3 : Bound p3) (s : List Byte) (n : Nat) (h2 : rest p2 = rest p1 ++ s)
    (h3 : rest p3 = (rest p1).take n) (str : List Byte)
    (hok : (readString host p1 str).ret = .ok n) :
    readString host p2 str = ⟨.ok n, (readString host p1 str).out, advance p2 n⟩ ∧
    readString host p3 str = ⟨.ok n, (readString host p1 str).out, advance p3 n⟩ := by
  rcases readString_bc host p1 hb1 str with ⟨e, he⟩ | ⟨x, tl, hlt, hr, e1⟩
  · rw [he] at hok; cases hok
  · rw [e1] at hok
    simp only [Except.ok.injEq] at hok
    subst hok
    rw [e1]
    have hr2 : rest p2 = beBytes 4 x.length ++ (x ++ (tl ++ s)) := by
      rw [h2, hr]; simp only [List.append_assoc]
    have hr3 : rest p3 = beBytes 4 x.length ++ (x ++ []) := by
      rw [h3, hr, ← List.append_assoc, List.take_left' (by simp [length_beBytes]),
        List.append_nil]
    have hc : ((4 + x.length : Nat) : Int) = 4 + (x.length : Int) := by push_cast; rfl
    rw [readString_append host p2 hb2 x _ hr2 hlt, readString_append host p3 hb3 x _ hr3 hlt, hc]
    exact ⟨rfl, rfl⟩

theorem readFieldBegin_local (host : ByteOrder) (p1 p2 p3 : Protocol) (hb1 : Bound p1)
    (hb2 : Bound p2) (hb3 : Bound p3) (s : List Byte) (n : Nat) (h2 : rest p2 = rest p1 ++ s)
    (h3 : rest p3 = (rest p1).take n) (name : List Byte) (t0 : TType) (id0 : Int)
    (hok : (readFieldBegin host p1 name t0 id0).ret = .ok n) :
    readFieldBegin host p2 name t0 id0 =
      ⟨.ok n, (readFieldBegin host p1 name t0 id0).out, advance p2 n⟩ ∧
    readFieldBegin host p3 name t0 id0 =
      ⟨.ok n, (readFieldBegin host p1 name t0 id0).out, advance p3 n⟩ := by
  rcases readFieldBegin_bc host p1 hb1 name t0 id0 with
    ⟨e, he⟩ | ⟨tl, hr⟩ | ⟨c, b2, tl, hc, hb2', hr⟩
  · rw [he] at hok; cases hok
  · have e1 := readFieldBegin_stop host p1 hb1 tl hr name t0 id0
    rw [e1] at hok
    simp only [Except.ok.injEq] at hok
    subst hok
    rw [e1]
    have hr2 : rest p2 = 0x00 :: (tl ++ s) := by rw [h2, hr]; rfl
    have hr3 : rest p3 = 0x00 :: [] := by rw [h3, hr]; rfl
    rw [readFieldBegin_stop host p2 hb2 _ hr2, readFieldBegin_stop host p3 hb3 _ hr3]
    exact ⟨rfl, rfl⟩
  · have e1 := readFieldBegin_field host p1 hb1 c b2 tl hc hb2' hr name t0 id0
    rw [e1] at hok
    simp only [Except.ok.injEq] at hok
    subst hok
    rw [e1]
    have hr2 : rest p2 = c :: (b2 ++ (tl ++ s)) := by
      rw [h2, hr]; simp only [List.cons_append, List.append_assoc]
    have hr3 : rest p3 = c :: (b2 ++ []) := by
      rw [h3, hr, show c :: (b2 ++ tl) = (c :: b2) ++ tl by rfl,
        List.take_left' (by simp [hb2']), List.append_nil]
    rw [readFieldBegin_field host p2 hb2 c b2 _ hc hb2' hr2,
      readFieldBegin_field host p3 hb3 c b2 _ hc hb2' hr3]
    exact ⟨rfl, rfl⟩

theorem readMapBegin_local (host : ByteOrder) (p1 p2 p3 : Protocol) (hb1 : Bound p1)
    (hb2 : Bound p2) (hb3 : Bound p3) (s : List Byte) (n : Nat) (h2 : rest p2 = rest p1 ++ s)
    (h3 : rest p3 = (rest p1).take n) (k0 v0 : TType) (size0 : Nat)
    (hok : (readMapBegin host p1 k0 v0 size0).ret = .ok n) :
    readMapBegin host p2 k0 v0 size0 =
      ⟨.ok n, (readMapBegin host p1 k0 v0 size0).out, advance p2 n⟩ ∧
    readMapBegin host p3 k0 v0 size0 =
      ⟨.ok n, (readMapBegin host p1 k0 v0 size0).out, advance p3 n⟩ := by
  rcases readMapBegin_bc host p1 hb1 k0 v0 size0 with ⟨e, he⟩ | ⟨k, v, b4, tl, hb4, hr, hs⟩
  · rw [he] at hok; cases hok
  · have e1 := readMapBegin_header host p1 hb1 k v b4 tl hb4 hr k0 v0 size0
    rw [if_pos hs] at e1
    rw [e1] at hok
    simp only [Except.ok.injEq] at hok
    subst hok
    rw [e1]
    have hr2 : rest p2 = k :: v :: (b4 ++ (tl ++ s)) := by
      rw [h2, hr]; simp only [List.cons_append, List.append_assoc]
    have hr3 : rest p3 = k :: v :: (b4 ++ []) := by
      rw [h3, hr, show k :: v :: (b4 ++ tl) = (k :: v :: b4) ++ tl by rfl,
        List.take_left' (by simp [hb4]), List.append_nil]
    rw [readMapBegin_header host p2 hb2 k v b4 _ hb4 hr2,
      readMapBegin_header host p3 hb3 k v b4 _ hb4 hr3, if_pos hs, if_pos hs]
    exact ⟨rfl, rfl⟩

theorem readMessageBegin_local (host : ByteOrder) (p1 p2 p3 : Protocol) (hb1 : Bound p1)
    (hb2 : Bound p2) (hb3 : Bound p3) (s : List Byte) (n : Nat) (h2 : rest p2 = rest p1 ++ s)
    (h3 : rest p3 = (rest p1).take n) (n0 : List Byte) (m0 : TMessageType) (s0 : Int)
    (hok : (readMessageBegin host p1 n0 m0 s0).ret = .ok n) :
    readMessageBegin host p2 n0 m0 s0 =
      ⟨.ok n, (readMessageBegin host p1 n0 m0 s0).out, advance p2 n⟩ ∧
    readMessageBegin host p3 n0 m0 s0 =
      ⟨.ok n, (readMessageBegin host p1 n0 m0 s0).out, advance p3 n⟩ := by
  rcases readMessageBegin_bc host p1 hb1 n0 m0 s0 with
    ⟨e, he⟩ | ⟨w4, name, s4, tl, hw4, hs4, hver, hlt, hr⟩ | ⟨name, c, s4, tl, hlt, hs4, hr⟩
  · rw [he] at hok; cases hok
  · have e1 := readMessageBegin_versioned host p1 hb1 w4 name s4 tl hw4 hs4 hver hlt hr n0 m0 s0
    rw [e1] at hok
    simp only [Except.ok.injEq] at hok
    subst hok
    rw [e1]
    have hr2 : rest p2 = w4 ++ (beBytes 4 name.length ++ (name ++ (s4 ++ (tl ++ s)))) := by
      rw [h2, hr]; simp only [List.append_assoc]
    have hr3 : rest p3 = w4 ++ (beBytes 4 name.length ++ (name ++ (s4 ++ []))) := by
      rw [h3, hr, show w4 ++ (beBytes 4 name.length ++ (name ++ (s4 ++ tl))) =
        (w4 ++ (beBytes 4 name.length ++ (name ++ s4))) ++ tl by simp only [List.append_assoc],
        List.take_left' (by simp [hw4, hs4, length_beBytes]; omega), List.append_nil]
    have hc : ((12 + name.length : Nat) : Int) = 12 + (name.length : Int) := by push_cast; rfl
    rw [readMessageBegin_versioned host p2 hb2 w4 name s4 _ hw4 hs4 hver hlt hr2,
      readMessageBegin_versioned host p3 hb3 w4 name s4 _ hw4 hs4 hver hlt hr3, hc]
    exact ⟨rfl, rfl⟩
  · have e1 := readMessageBegin_legacy host p1 hb1 name s4 tl c hlt hs4 hr n0 m0 s0
    rw [e1] at hok
    simp only [Except.ok.injEq] at hok
    subst hok
    rw [e1]
    have hr2 : rest p2 = beBytes 4 name.length ++ (name ++ (c :: (s4 ++ (tl ++ s)))) := by
      rw [h2, hr]; simp only [List.append_assoc, List.cons_append]
    have hr3 : rest p3 = beBytes 4 name.length ++ (name ++ (c :: (s4 ++ []))) := by
      rw [h3, hr, show beBytes 4 name.length ++ (name ++ (c :: (s4 ++ tl))) =
        (beBytes 4 name.length ++ (name ++ (c :: s4))) ++ tl by
          simp only [List.append_assoc, List.cons_append],
        List.take_left' (by simp [hs4, length_beBytes]; omega), List.append_nil]
    have hc : ((name.length + 9 : Nat) : Int) = (name.length : Int) + 9 := by push_cast; rfl
    rw [readMessageBegin_legacy host p2 hb2 name s4 _ c hlt hs4 hr2,
      readMessageBegin_legacy host p3 hb3 name s4 _ c hlt hs4 hr3, hc]
    exact ⟨rfl, rfl⟩

/-- C20. Decoding depends only on the bytes it consumes. Let `readMessageBegin`
(respectively `readString`, `readFieldBegin`, `readMapBegin`) return the count
`n` on a cursor whose bytes ahead are `r`. Then, with the same prior outputs,
the same call on a cursor whose bytes ahead are `r ++ s`, for any bytes `s`,
and on one whose bytes ahead are the first `n` bytes of `r` alone, returns the
same count `n`, gives the same outputs and moves its read pointer on by `n`. -/
theorem decoding_is_local (host : ByteOrder) (p1 p2 p3 : Protocol) (hb1 : Bound p1)
    (hb2 : Bound p2) (hb3 : Bound p3) (s : List Byte) (n : Nat)
    (h2 : rest p2 = rest p1 ++ s) (h3 : rest p3 = (rest p1).take n)
    (name : List Byte) (m0 : TMessageType) (s0 : Int) (t0 v0 : TType) (size0 : Nat) :
    ((readMessageBegin host p1 name m0 s0).ret = .ok n →
      readMessageBegin host p2 name m0 s0 =
        ⟨.ok n, (readMessageBegin host p1 name m0 s0).out, advance p2 n⟩ ∧
      readMessageBegin host p3 name m0 s0 =
        ⟨.ok n, (readMessageBegin host p1 name m0 s0).out, advance p3 n⟩) ∧
    ((readString host p1 name).ret = .ok n →
      readString host p2 name = ⟨.ok n, (readString host p1 name).out, advance p2 n⟩ ∧
      readString host p3 name = ⟨.ok n, (readString host p1 name).out, advance p3 n⟩) ∧
    ((readFieldBegin host p1 name t0 s0).ret = .ok n →
      readFieldBegin host p2 name t0 s0 =
        ⟨.ok n, (readFieldBegin host p1 name t0 s0).out, advance p2 n⟩ ∧
      readFieldBegin host p3 name t0 s0 =
        ⟨.ok n, (readFieldBegin host p1 name t0 s0).out, advance p3 n⟩) ∧
    ((readMapBegin host p1 t0 v0 size0).ret = .ok n →
      readMapBegin host p2 t0 v0 size0 =
        ⟨.ok n, (readMapBegin host p1 t0 v0 size0).out, advance p2 n⟩ ∧
      readMapBegin host p3 t0 v0 size0 =
        ⟨.ok n, (readMapBegin host p1 t0 v0 size0).out, advance p3 n⟩) :=
  ⟨readMessageBegin_local host p1 p2 p3 hb1 hb2 hb3 s n h2 h3 name m0 s0,
    readString_local host p1 p2 p3 hb1 hb2 hb3 s n h2 h3 name,
    readFieldBegin_local host p1 p2 p3 hb1 hb2 hb3 s n h2 h3 name t0 s0,
    readMapBegin_local host p1 p2 p3 hb1 hb2 hb3 s n h2 h3 t0 v0 size0⟩

theorem decoding_is_local_witness :
    (readString .LITTLE_ENDIAN (boundTo [0x00, 0x00, 0x00, 0x02, 0x41, 0x42, 0x99]) []).ret =
      .ok 6 ∧
    readString .LITTLE_ENDIAN (boundTo [0x00, 0x00, 0x00, 0x02, 0x41, 0x42, 0x99, 0x01, 0x02])
        [] =
      ⟨.ok 6,
        (readString .LITTLE_ENDIAN (boundTo [0x00, 0x00, 0x00, 0x02, 0x41, 0x42, 0x99]) []).out,
        advance (boundTo [0x00, 0x00, 0x00, 0x02, 0x41, 0x42, 0x99, 0x01, 0x02]) (6 : Nat)⟩ ∧
    readString .LITTLE_ENDIAN (boundTo [0x00, 0x00, 0x00, 0x02, 0x41, 0x42]) [] =
      ⟨.ok 6,
        (readString .LITTLE_ENDIAN (boundTo [0x00, 0x00, 0x00, 0x02, 0x41, 0x42, 0x99]) []).out,
        advance (boundTo [0x00, 0x00, 0x00, 0x02, 0x41, 0x42]) (6 : Nat)⟩ ∧
    (readString .LITTLE_ENDIAN (boundTo [0x00, 0x00, 0x00, 0x02, 0x41, 0x42, 0x99]) []).out =
      [0x41, 0x42] :=
  have hok : (readString .LITTLE_ENDIAN
      (boundTo [0x00, 0x00, 0x00, 0x02, 0x41, 0x42, 0x99]) []).ret = .ok 6 := rfl
  have h := (decoding_is_local .LITTLE_ENDIAN
    (boundTo [0x00, 0x00, 0x00, 0x02, 0x41, 0x42, 0x99])
    (boundTo [0x00, 0x00, 0x00, 0x02, 0x41, 0x42, 0x99, 0x01, 0x02])
    (boundTo [0x00, 0x00, 0x00, 0x02, 0x41, 0x42])
    (Bound_boundTo _ (by decide)).1 (Bound_boundTo _ (by decide)).1
    (Bound_boundTo _ (by decide)).1 [0x01, 0x02] 6 (by decide) (by decide) [] 0 0 0 0 0).2.1 hok
  ⟨hok, h.1, h.2, by decide⟩

end SLThrift
